import Mathlib

/-!
Verification development for the `alGalgame` branching-narrative engine.

The embedding below follows the TypeScript sources:
  * `src/webGal/src/core/DAG.ts`        — generic DAG container (`DAG` namespace)
  * `src/webGal/src/core/GalPlayDAG.ts` — playback engine (`GalPlay` namespace)
  * `src/webGal/src/core/LoadDAGData.ts`— script loader/validator (`LoadDAGData` namespace)
  * `src/unnamed/part_001`              — shared type declarations

JavaScript `Map`s are modelled as insertion-ordered association lists
(`Map.set` replaces in place or appends; `Map.delete` removes the entry;
iteration is in insertion order).  JavaScript `Set`s are modelled as
duplicate-free insertion-ordered lists.  Methods that `throw` are modelled
as functions returning the (unchanged) receiver paired with an optional
error, mirroring the fact that a thrown `DAGError` leaves the object as it
was at the time of the throw.
-/

set_option maxHeartbeats 1000000
set_option linter.unusedSectionVars false

universe u v

section AssocList

variable {K : Type u} {A : Type v} [DecidableEq K]

/-- `Map.get`: first value bound to `key` (association lists model JS `Map`s). -/
def getA : List (K × A) → K → Option A
  | [], _ => none
  | (k, a) :: rest, key => if key = k then some a else getA rest key

/-- `Map.set`: replace the binding in place if the key is present, else append. -/
def setA : List (K × A) → K → A → List (K × A)
  | [], key, a => [(key, a)]
  | (k, b) :: rest, key, a =>
      if key = k then (key, a) :: rest else (k, b) :: setA rest key a

/-- `Map.delete`: drop the binding(s) for `key`. -/
def delA : List (K × A) → K → List (K × A)
  | [], _ => []
  | (k, b) :: rest, key => if key = k then delA rest key else (k, b) :: delA rest key

theorem getA_eq_none_iff (l : List (K × A)) (k : K) :
    getA l k = none ↔ k ∉ l.map Prod.fst := by
  induction l with
  | nil => simp [getA]
  | cons p rest ih =>
    obtain ⟨k', a⟩ := p
    by_cases h : k = k'
    · subst h; simp [getA]
    · simp [getA, h, ih]

theorem getA_isSome_iff (l : List (K × A)) (k : K) :
    (getA l k).isSome = true ↔ k ∈ l.map Prod.fst := by
  rw [Option.isSome_iff_ne_none]
  constructor
  · intro h
    by_contra hmem
    exact h ((getA_eq_none_iff l k).mpr hmem)
  · intro h hnone
    exact (getA_eq_none_iff l k).mp hnone h

theorem setA_of_absent (l : List (K × A)) (k : K) (a : A)
    (h : getA l k = none) : setA l k a = l ++ [(k, a)] := by
  induction l with
  | nil => simp [setA]
  | cons p rest ih =>
    obtain ⟨k', b⟩ := p
    by_cases hk : k = k'
    · subst hk; simp [getA] at h
    · simp only [getA, if_neg hk] at h
      simp [setA, hk, ih h]

theorem getA_setA (l : List (K × A)) (k k' : K) (a : A) :
    getA (setA l k a) k' = if k' = k then some a else getA l k' := by
  induction l with
  | nil => by_cases h : k' = k <;> simp [setA, getA, h]
  | cons p rest ih =>
    obtain ⟨k₀, b⟩ := p
    by_cases hk : k = k₀
    · subst hk
      by_cases h' : k' = k <;> simp [setA, getA, h']
    · by_cases h' : k' = k₀
      · subst h'
        have : ¬ k' = k := fun h => hk h.symm
        simp [setA, hk, getA, this]
      · simp [setA, hk, getA, h', ih]

theorem map_fst_setA_present (l : List (K × A)) (k : K) (a : A)
    (h : k ∈ l.map Prod.fst) :
    (setA l k a).map Prod.fst = l.map Prod.fst := by
  induction l with
  | nil => simp at h
  | cons p rest ih =>
    obtain ⟨k', b⟩ := p
    by_cases hk : k = k'
    · subst hk; simp [setA]
    · simp only [List.map_cons, List.mem_cons] at h
      rcases h with h | h
      · exact absurd h hk
      · simp [setA, hk, ih h]

theorem map_fst_delA (l : List (K × A)) (k : K) :
    (delA l k).map Prod.fst = (l.map Prod.fst).filter (fun x => ¬ x = k) := by
  induction l with
  | nil => simp [delA]
  | cons p rest ih =>
    obtain ⟨k', b⟩ := p
    by_cases hk : k = k'
    · subst hk; simp [delA, ih]
    · have : ¬ k' = k := fun h => hk h.symm
      simp [delA, hk, ih, this]

theorem getA_delA (l : List (K × A)) (k k' : K) :
    getA (delA l k) k' = if k' = k then none else getA l k' := by
  induction l with
  | nil => by_cases h : k' = k <;> simp [delA, getA, h]
  | cons p rest ih =>
    obtain ⟨k₀, b⟩ := p
    by_cases hk : k = k₀
    · subst hk
      by_cases h' : k' = k
      · subst h'; simp [delA, getA, ih]
      · simp [delA, getA, h', ih]
    · by_cases h' : k' = k₀
      · subst h'
        have : ¬ k' = k := fun h => hk h.symm
        simp [delA, hk, getA, this]
      · simp [delA, hk, getA, h', ih]

theorem getA_map_snd (l : List (K × A)) (f : K → A → A) (k : K) :
    getA (l.map (fun e => (e.1, f e.1 e.2))) k = (getA l k).map (f k) := by
  induction l with
  | nil => simp [getA]
  | cons p rest ih =>
    obtain ⟨k', a⟩ := p
    by_cases hk : k = k'
    · subst hk; simp [getA]
    · simp [getA, hk, ih]

end AssocList

section DAGDefs

variable {K : Type u} {V : Type v} [DecidableEq K]

/-- The `DAGError` subclass of `Error` thrown by `DAG.ts`, one constructor per
`throw` site (the original carries the same information in a message string). -/
inductive DAGError (K : Type u) where
  /-- "Node already exists: id" (addNode) -/
  | nodeExists (id : K)
  /-- "Node does not exist: id" (assertNodeExists / setNodeValue) -/
  | nodeMissing (id : K)
  /-- "Self loop is not allowed: from -> to" (addEdge) -/
  | selfLoop (a b : K)
  /-- "Adding edge creates cycle: from -> to" (addEdge) -/
  | cycleEdge (a b : K)
  /-- "Graph is not a DAG. Cycle detected." (topologicalSort) -/
  | notADAG
  deriving DecidableEq

/-- The `DAG` class of `DAG.ts`.  `nodes` models the `nodeMap` field and
`adj` the `outgoing` field.  The `incoming` field is not stored: the class
keeps it exactly synchronised with `outgoing` (every mutation updates both),
so predecessor data is recomputed from `adj` here. -/
structure DAG (K : Type u) (V : Type v) where
  nodes : List (K × V)
  adj : List (K × List K)

namespace DAG

/-- `new DAG()` with no options. -/
def empty : DAG K V := ⟨[], []⟩

/-- `get size()`. -/
def size (g : DAG K V) : Nat := g.nodes.length

/-- `get edgeSize()`. -/
def edgeSize (g : DAG K V) : Nat := (g.adj.map (fun e => e.2.length)).sum

/-- `hasNode`. -/
def hasNode (g : DAG K V) (id : K) : Bool := (getA g.nodes id).isSome

/-- `this.outgoing.get(id)` with a missing entry read as empty. -/
def targets (g : DAG K V) (id : K) : List K := (getA g.adj id).getD []

/-- `hasEdge`. -/
def hasEdge (g : DAG K V) (a b : K) : Bool := b ∈ targets g a

/-- `addNode`: throws when the id already exists, else registers the node with
empty outgoing (and incoming) adjacency.  The pair's second component is the
thrown error, `none` on success; the first component is the graph after the
call (unchanged when the error is thrown before any mutation). -/
def addNode (g : DAG K V) (id : K) (v : V) : DAG K V × Option (DAGError K) :=
  if hasNode g id then (g, some (.nodeExists id))
  else (⟨setA g.nodes id v, setA g.adj id []⟩, none)

/-- `upsertNode`: inserts empty adjacency entries when the id is new, then
(re)binds the value. -/
def upsertNode (g : DAG K V) (id : K) (v : V) : DAG K V :=
  if hasNode g id then ⟨setA g.nodes id v, g.adj⟩
  else ⟨setA g.nodes id v, setA g.adj id []⟩

/-- `getNodeValue`. -/
def getNodeValue (g : DAG K V) (id : K) : Option V := getA g.nodes id

/-- `setNodeValue`: throws when the id is absent. -/
def setNodeValue (g : DAG K V) (id : K) (v : V) : DAG K V × Option (DAGError K) :=
  if hasNode g id then (⟨setA g.nodes id v, g.adj⟩, none)
  else (g, some (.nodeMissing id))

/-- `removeNode`: detaches every incident edge (deleting the id from each
parent's outgoing set) and drops the node; returns whether it existed. -/
def removeNode (g : DAG K V) (id : K) : DAG K V × Bool :=
  if hasNode g id then
    (⟨delA g.nodes id,
      delA (g.adj.map (fun e => (e.1, e.2.filter (fun t => ¬ t = id)))) id⟩, true)
  else (g, false)

/-- `clear`. -/
def clear (_ : DAG K V) : DAG K V := empty

/-- `removeEdge`: idempotent, returns whether the edge existed. -/
def removeEdge (g : DAG K V) (a b : K) : DAG K V × Bool :=
  match getA g.adj a with
  | none => (g, false)
  | some ts =>
      if b ∈ ts then (⟨g.nodes, setA g.adj a (ts.filter (fun t => ¬ t = b))⟩, true)
      else (g, false)

/-- Inner `for (const next of nextSet)` loop of `hasPath`: scans the popped
node's outgoing set, returning `true` as soon as `to` is seen, otherwise
pushing each unvisited target onto the visited set and the stack.  The stack
is kept top-first (JS pushes to the array's end and pops from the end). -/
def dfsVisit (dst : K) : List K → List K → List K → Bool × List K × List K
  | [], vis, st => (false, vis, st)
  | t :: ts, vis, st =>
      if t = dst then (true, vis, st)
      else if t ∈ vis then dfsVisit dst ts vis st
      else dfsVisit dst ts (t :: vis) (t :: st)

/-- Outer `while (stack.length > 0)` loop of `hasPath`.  The loop body pops one
node per iteration and pushes each target at most once overall, so
`g.nodes.length + 1` units of fuel are never exhausted on a well-formed graph
(proved below). -/
def dfsLoop (g : DAG K V) (dst : K) : Nat → List K → List K → Bool
  | 0, _, _ => false
  | _ + 1, _, [] => false
  | fuel + 1, vis, cur :: rest =>
      match dfsVisit dst (targets g cur) vis rest with
      | (true, _, _) => true
      | (false, vis', st') => dfsLoop g dst fuel vis' st'

/-- `hasPath` without its two `assertNodeExists` guards (the guards are
restored in `hasPathChecked`; every in-repo caller runs them first). -/
def hasPathB (g : DAG K V) (a b : K) : Bool :=
  if a = b then true else dfsLoop g b (g.nodes.length + 1) [a] [a]

/-- `hasPath` including the `assertNodeExists` guards. -/
def hasPathChecked (g : DAG K V) (a b : K) : Except (DAGError K) Bool :=
  if ¬ hasNode g a then .error (.nodeMissing a)
  else if ¬ hasNode g b then .error (.nodeMissing b)
  else .ok (hasPathB g a b)

/-- `addEdge`: asserts both endpoints, rejects self-loops, silently ignores an
already-present edge, rejects an edge whose reverse is already reachable, and
otherwise appends `b` to `a`'s outgoing set (and `a` to `b`'s incoming set,
which is derived here). -/
def addEdge (g : DAG K V) (a b : K) : DAG K V × Option (DAGError K) :=
  if ¬ hasNode g a then (g, some (.nodeMissing a))
  else if ¬ hasNode g b then (g, some (.nodeMissing b))
  else if a = b then (g, some (.selfLoop a b))
  else
    let ts := targets g a
    if b ∈ ts then (g, none)
    else if hasPathB g b a then (g, some (.cycleEdge a b))
    else (⟨g.nodes, setA g.adj a (ts ++ [b])⟩, none)

/-- `inDegree` body: `incoming.get(id).size`, i.e. the number of distinct
parents, recomputed from the outgoing adjacency. -/
def inDegOf (g : DAG K V) (id : K) : Nat :=
  (g.adj.filter (fun e => id ∈ e.2)).length

/-- `outDegree` body. -/
def outDegOf (g : DAG K V) (id : K) : Nat := (targets g id).length

/-- `successors` body (its `assertNodeExists` guard holds at every in-repo
call site, which all look the node up first). -/
def successors (g : DAG K V) (id : K) : List K := targets g id

/-- `predecessors` body: the keys whose outgoing set contains `id`, which is
exactly the content of the synchronised `incoming` set. -/
def predecessors (g : DAG K V) (id : K) : List K :=
  ((g.adj.filter (fun e => id ∈ e.2)).map Prod.fst)

/-- `roots`. -/
def roots (g : DAG K V) : List K :=
  ((g.nodes.map Prod.fst).filter (fun id => inDegOf g id = 0))

/-- `leaves`. -/
def leaves (g : DAG K V) : List K :=
  ((g.nodes.map Prod.fst).filter (fun id => (targets g id).length = 0))

/-- Inner `for (const next of this.outgoing.get(current))` loop of
`topologicalSort`: decrement each target's tracked in-degree (the JS number
may go negative, hence `Int`) and enqueue the targets that reach exactly 0. -/
def decTargets : List K → List (K × Int) → List K → List (K × Int) × List K
  | [], indeg, zeros => (indeg, zeros)
  | t :: ts, indeg, zeros =>
      let d : Int := (getA indeg t).getD 0 - 1
      if d = 0 then decTargets ts (setA indeg t d) (zeros ++ [t])
      else decTargets ts (setA indeg t d) zeros

/-- Outer `while (index < queue.length)` loop of `topologicalSort` (Kahn's
algorithm).  The JS queue is an array read through an advancing index, i.e. a
FIFO; a node is enqueued at most once, so `g.size + 1` units of fuel are never
exhausted on a well-formed graph (proved below). -/
def kahnLoop (g : DAG K V) : Nat → List K → List (K × Int) → List K → List K
  | 0, _, _, order => order
  | _ + 1, [], _, order => order
  | fuel + 1, q :: rest, indeg, order =>
      kahnLoop g fuel (rest ++ (decTargets (targets g q) indeg []).2)
        (decTargets (targets g q) indeg []).1 (order ++ [q])

/-- `topologicalSort`. -/
def topologicalSort (g : DAG K V) : Except (DAGError K) (List K) :=
  let indeg0 := g.nodes.map (fun p => (p.1, (inDegOf g p.1 : Int)))
  let q0 := (indeg0.filter (fun e => e.2 = 0)).map Prod.fst
  let order := kahnLoop g (g.size + 1) q0 indeg0 []
  if order.length ≠ g.size then .error .notADAG else .ok order

/-- `DAGSerialized` (`serialize()` output: node list plus edge list). -/
structure Serialized (K : Type u) (V : Type v) where
  nodes : List (K × V)
  edges : List (K × K)

/-- `nodes()`. -/
def nodesList (g : DAG K V) : List (K × V) := g.nodes

/-- `edges()`: flatten the outgoing adjacency in iteration order. -/
def edgesList (g : DAG K V) : List (K × K) :=
  g.adj.flatMap (fun e => e.2.map (fun t => (e.1, t)))

/-- `serialize()`. -/
def serialize (g : DAG K V) : Serialized K V := ⟨nodesList g, edgesList g⟩

/-- Node-insertion loop of the constructor (`for (const node of options.nodes)
this.addNode(...)`); a thrown `DAGError` propagates. -/
def addNodesE (g : DAG K V) : List (K × V) → Except (DAGError K) (DAG K V)
  | [] => .ok g
  | (k, v) :: rest =>
      match addNode g k v with
      | (g', none) => addNodesE g' rest
      | (_, some e) => .error e

/-- Edge-insertion loop of the constructor. -/
def addEdgesE (g : DAG K V) : List (K × K) → Except (DAGError K) (DAG K V)
  | [] => .ok g
  | (a, b) :: rest =>
      match addEdge g a b with
      | (g', none) => addEdgesE g' rest
      | (_, some e) => .error e

/-- `new DAG(options)` / `DAG.from(serialized)`: insert all nodes, then all
edges, starting from the empty graph. -/
def ofOptions (ns : List (K × V)) (es : List (K × K)) : Except (DAGError K) (DAG K V) := do
  let g ← addNodesE empty ns
  addEdgesE g es

/-- `DAG.from`. -/
def fromSerialized (s : Serialized K V) : Except (DAGError K) (DAG K V) :=
  ofOptions s.nodes s.edges

/-- `clone()`. -/
def clone (g : DAG K V) : Except (DAGError K) (DAG K V) :=
  fromSerialized (serialize g)

end DAG

end DAGDefs

section DAGSemantics

variable {K : Type u} {V : Type v} [DecidableEq K]

theorem getA_mem {l : List (K × A)} {k : K} {a : A} (h : getA l k = some a) :
    (k, a) ∈ l := by
  induction l with
  | nil => simp [getA] at h
  | cons p rest ih =>
    obtain ⟨k', b⟩ := p
    by_cases hk : k = k'
    · subst hk
      simp [getA] at h
      simp [h]
    · simp only [getA, if_neg hk] at h
      exact List.mem_cons_of_mem _ (ih h)

namespace DAG

/-- The node identifiers of a graph, in insertion order. -/
def keysOf (g : DAG K V) : List K := g.nodes.map Prod.fst

/-- The directed-edge relation of a graph. -/
def EdgeOf (g : DAG K V) (a b : K) : Prop := b ∈ targets g a

/-- Reflexive-transitive reachability along directed edges (what `hasPath`
computes, and the relation the spec's acyclicity invariant speaks about). -/
inductive Reach (g : DAG K V) : K → K → Prop
  | refl (a : K) : Reach g a a
  | step {a b c : K} : EdgeOf g a b → Reach g b c → Reach g a c

/-- Acyclicity: no edge is part of a directed cycle. -/
def Acyclic (g : DAG K V) : Prop := ∀ a b, EdgeOf g a b → ¬ Reach g b a

/-- Structural well-formedness maintained by the class: the outgoing map has
exactly the node keys (in insertion order), node keys are unique, every
outgoing set is duplicate-free, only mentions existing nodes, and contains no
self-loop. -/
structure WF (g : DAG K V) : Prop where
  keys_eq : g.adj.map Prod.fst = g.nodes.map Prod.fst
  nodup : (g.nodes.map Prod.fst).Nodup
  targets_nodup : ∀ e ∈ g.adj, e.2.Nodup
  targets_mem : ∀ e ∈ g.adj, ∀ t ∈ e.2, t ∈ g.nodes.map Prod.fst
  no_self : ∀ e ∈ g.adj, e.1 ∉ e.2

theorem Reach.trans {g : DAG K V} {a b c : K}
    (h₁ : Reach g a b) (h₂ : Reach g b c) : Reach g a c := by
  induction h₁ with
  | refl => exact h₂
  | step e _ ih => exact Reach.step e (ih h₂)

theorem Reach.single {g : DAG K V} {a b : K} (h : EdgeOf g a b) : Reach g a b :=
  Reach.step h (Reach.refl b)

theorem Reach.mono {g g' : DAG K V}
    (hsub : ∀ x y, EdgeOf g x y → EdgeOf g' x y) {a b : K}
    (h : Reach g a b) : Reach g' a b := by
  induction h with
  | refl => exact Reach.refl _
  | step e _ ih => exact Reach.step (hsub _ _ e) ih

theorem Acyclic.anti {g g' : DAG K V}
    (hsub : ∀ x y, EdgeOf g x y → EdgeOf g' x y)
    (h : Acyclic g') : Acyclic g := fun a b e hr =>
  h a b (hsub _ _ e) (Reach.mono hsub hr)

theorem hasNode_iff {g : DAG K V} {id : K} :
    hasNode g id = true ↔ id ∈ keysOf g := by
  simp [hasNode, keysOf, getA_isSome_iff]

theorem WF.adj_keys {g : DAG K V} (h : WF g) {id : K} :
    (getA g.adj id).isSome = true ↔ id ∈ keysOf g := by
  rw [getA_isSome_iff, h.keys_eq]; rfl

theorem WF.targets_sub {g : DAG K V} (h : WF g) {id : K} :
    ∀ t ∈ targets g id, t ∈ keysOf g := by
  intro t ht
  unfold targets at ht
  cases hg : getA g.adj id with
  | none => rw [hg] at ht; simp at ht
  | some ts =>
    rw [hg] at ht
    exact h.targets_mem _ (getA_mem hg) t ht

theorem WF.targets_nodup' {g : DAG K V} (h : WF g) (id : K) :
    (targets g id).Nodup := by
  unfold targets
  cases hg : getA g.adj id with
  | none => simp
  | some ts => exact h.targets_nodup _ (getA_mem hg)

theorem WF.self_not_target {g : DAG K V} (h : WF g) (id : K) :
    id ∉ targets g id := by
  unfold targets
  cases hg : getA g.adj id with
  | none => simp
  | some ts => exact h.no_self _ (getA_mem hg)

theorem WF.edge_src_mem {g : DAG K V} (h : WF g) {a b : K}
    (e : EdgeOf g a b) : a ∈ keysOf g := by
  unfold EdgeOf targets at e
  cases hg : getA g.adj a with
  | none => rw [hg] at e; simp at e
  | some ts =>
    have := getA_mem hg
    have : a ∈ g.adj.map Prod.fst := List.mem_map_of_mem Prod.fst this
    rwa [h.keys_eq] at this

end DAG

end DAGSemantics

section DFSProofs

variable {K : Type u} {V : Type v} [DecidableEq K]

namespace DAG

theorem dfsVisit_fst_true_iff (dst : K) (ts vis st : List K) :
    (dfsVisit dst ts vis st).1 = true ↔ dst ∈ ts := by
  induction ts generalizing vis st with
  | nil => simp [dfsVisit]
  | cons t ts ih =>
    by_cases h : t = dst
    · subst h; simp [dfsVisit]
    · have hne : ¬ dst = t := fun hh => h hh.symm
      by_cases hv : t ∈ vis
      · simp [dfsVisit, h, hv, ih, hne]
      · simp [dfsVisit, h, hv, ih, hne]

/-- When the inner scan does not find `dst`, it extends the visited set and the
stack by the same block of previously-unvisited targets. -/
theorem dfsVisit_spec (dst : K) (ts vis st : List K) (h : dst ∉ ts) :
    ∃ new : List K,
      dfsVisit dst ts vis st = (false, new ++ vis, new ++ st) ∧
      (∀ x ∈ new, x ∈ ts ∧ x ∉ vis) ∧
      (∀ x ∈ ts, x ∈ new ∨ x ∈ vis) ∧
      new.Nodup := by
  induction ts generalizing vis st with
  | nil => exact ⟨[], by simp [dfsVisit]⟩
  | cons t ts ih =>
    have ht : ¬ t = dst := fun hh => h (hh ▸ List.mem_cons_self t ts)
    have hts : dst ∉ ts := fun hh => h (List.mem_cons_of_mem _ hh)
    by_cases hv : t ∈ vis
    · obtain ⟨new, heq, hnew, hcov, hnd⟩ := ih vis st hts
      refine ⟨new, by simp [dfsVisit, ht, hv, heq], ?_, ?_, hnd⟩
      · intro x hx
        exact ⟨List.mem_cons_of_mem _ (hnew x hx).1, (hnew x hx).2⟩
      · intro x hx
        rcases List.mem_cons.mp hx with rfl | hx'
        · exact Or.inr hv
        · exact hcov x hx'
    · obtain ⟨new, heq, hnew, hcov, hnd⟩ := ih (t :: vis) (t :: st) hts
      refine ⟨new ++ [t], ?_, ?_, ?_, ?_⟩
      · simp [dfsVisit, ht, hv, heq]
      · intro x hx
        rcases List.mem_append.mp hx with hx' | hx'
        · obtain ⟨h1, h2⟩ := hnew x hx'
          exact ⟨List.mem_cons_of_mem _ h1, fun hc => h2 (List.mem_cons_of_mem _ hc)⟩
        · simp only [List.mem_singleton] at hx'
          subst hx'
          exact ⟨List.mem_cons_self _ _, hv⟩
      · intro x hx
        rcases List.mem_cons.mp hx with rfl | hx'
        · exact Or.inl (List.mem_append.mpr (Or.inr (by simp)))
        · rcases hcov x hx' with h1 | h1
          · exact Or.inl (List.mem_append.mpr (Or.inl h1))
          · rcases List.mem_cons.mp h1 with rfl | h2
            · exact Or.inl (List.mem_append.mpr (Or.inr (by simp)))
            · exact Or.inr h2
      · rw [List.nodup_append]
        refine ⟨hnd, List.nodup_singleton t, ?_⟩
        intro x hx
        have := (hnew x hx).2
        simp only [List.mem_singleton]
        intro hc
        subst hc
        exact this (List.mem_cons_self _ _)

theorem dfsLoop_sound {g : DAG K V} {a dst : K} :
    ∀ (fuel : Nat) (vis st : List K),
      (∀ x ∈ vis, Reach g a x) → (∀ x ∈ st, x ∈ vis) →
      dfsLoop g dst fuel vis st = true → Reach g a dst := by
  intro fuel
  induction fuel with
  | zero => intro vis st _ _ h; simp [dfsLoop] at h
  | succ fuel ih =>
    intro vis st hreach hsub h
    match hst : st with
    | [] => simp [dfsLoop] at h
    | cur :: rest =>
      have hcur : Reach g a cur := hreach cur (hsub cur (List.mem_cons_self _ _))
      rw [dfsLoop] at h
      cases hvisit : dfsVisit dst (targets g cur) vis rest with
      | mk found p =>
        cases found with
        | true =>
          have : dst ∈ targets g cur := by
            rw [← dfsVisit_fst_true_iff dst (targets g cur) vis rest, hvisit]
          exact hcur.trans (Reach.single this)
        | false =>
          obtain ⟨vis', st'⟩ := p
          rw [hvisit] at h
          simp only at h
          have hdst : dst ∉ targets g cur := by
            intro hc
            have := (dfsVisit_fst_true_iff dst (targets g cur) vis rest).mpr hc
            rw [hvisit] at this
            simp at this
          obtain ⟨new, heq, hnew, _, _⟩ := dfsVisit_spec dst (targets g cur) vis rest hdst
          rw [hvisit] at heq
          simp only [Prod.mk.injEq, true_and] at heq
          obtain ⟨h1, h2⟩ := heq
          subst h1; subst h2
          refine ih (new ++ vis) (new ++ rest) ?_ ?_ h
          · intro x hx
            rcases List.mem_append.mp hx with hx' | hx'
            · exact hcur.trans (Reach.single (hnew x hx').1)
            · exact hreach x hx'
          · intro x hx
            rcases List.mem_append.mp hx with hx' | hx'
            · exact List.mem_append.mpr (Or.inl hx')
            · exact List.mem_append.mpr
                (Or.inr (hsub x (List.mem_cons_of_mem _ hx')))

end DAG

end DFSProofs

section DFSComplete

variable {K : Type u} {V : Type v} [DecidableEq K]

namespace DAG

/-- Loop invariant of `hasPath`'s outer DFS loop (searching from `a` for
`dst`): everything visited is reachable from `a`, and every visited node not
still awaiting expansion on the stack has fully-visited targets none of which
is `dst`. -/
structure DfsInv (g : DAG K V) (a dst : K) (vis st : List K) : Prop where
  a_mem : a ∈ vis
  dst_not : dst ∉ vis
  st_sub : ∀ x ∈ st, x ∈ vis
  vis_nodup : vis.Nodup
  vis_sub : ∀ x ∈ vis, x ∈ keysOf g
  reach : ∀ x ∈ vis, Reach g a x
  closed : ∀ v ∈ vis, v ∉ st → (∀ t ∈ targets g v, t ∈ vis) ∧ dst ∉ targets g v

theorem not_reach_of_closed {g : DAG K V} {dst : K} {vis : List K}
    (hcl : ∀ v ∈ vis, (∀ t ∈ targets g v, t ∈ vis) ∧ dst ∉ targets g v)
    (hdst : dst ∉ vis) :
    ∀ x, Reach g x dst → x ∉ vis := by
  have key : ∀ x y, Reach g x y → y = dst → x ∉ vis := by
    intro x y hr
    induction hr with
    | refl =>
      intro h
      subst h
      exact hdst
    | @step a' b' c' e hr ih =>
      intro h hx
      obtain ⟨hsub, hnot⟩ := hcl a' hx
      exact ih h (hsub b' e)
  exact fun x hr => key x dst hr rfl

theorem dfsLoop_complete {g : DAG K V} {a dst : K} (hwf : WF g) :
    ∀ (fuel : Nat) (vis st : List K),
      DfsInv g a dst vis st →
      st.length + (keysOf g).length + 1 ≤ fuel + vis.length →
      dfsLoop g dst fuel vis st = false → ¬ Reach g a dst := by
  intro fuel
  induction fuel with
  | zero =>
    intro vis st hinv hfuel _
    exfalso
    have hlen : vis.length ≤ (keysOf g).length :=
      List.Subperm.length_le (List.subperm_of_subset hinv.vis_nodup hinv.vis_sub)
    omega
  | succ fuel ih =>
    intro vis st hinv hfuel hfalse
    match hst : st with
    | [] =>
      have hcl : ∀ v ∈ vis, (∀ t ∈ targets g v, t ∈ vis) ∧ dst ∉ targets g v := by
        intro v hv
        exact hinv.closed v hv (by simp [hst])
      intro hr
      exact not_reach_of_closed hcl hinv.dst_not a hr hinv.a_mem
    | cur :: rest =>
      subst hst
      rw [dfsLoop] at hfalse
      cases hvisit : dfsVisit dst (targets g cur) vis rest with
      | mk found p =>
        cases found with
        | true => rw [hvisit] at hfalse; simp at hfalse
        | false =>
          obtain ⟨vis', st'⟩ := p
          rw [hvisit] at hfalse
          simp only at hfalse
          have hcur_vis : cur ∈ vis := hinv.st_sub cur (List.mem_cons_self _ _)
          have hdst : dst ∉ targets g cur := by
            intro hc
            have := (dfsVisit_fst_true_iff dst (targets g cur) vis rest).mpr hc
            rw [hvisit] at this
            simp at this
          obtain ⟨new, heq, hnew, hcov, hnd⟩ :=
            dfsVisit_spec dst (targets g cur) vis rest hdst
          rw [hvisit] at heq
          simp only [Prod.mk.injEq, true_and] at heq
          obtain ⟨h1, h2⟩ := heq
          subst h1; subst h2
          have hnewsub : ∀ x ∈ new, x ∈ targets g cur := fun x hx => (hnew x hx).1
          refine ih (new ++ vis) (new ++ rest) ?_ ?_ hfalse
          · refine ⟨?_, ?_, ?_, ?_, ?_, ?_, ?_⟩
            · exact List.mem_append.mpr (Or.inr hinv.a_mem)
            · intro hc
              rcases List.mem_append.mp hc with hc' | hc'
              · exact hdst (hnewsub dst hc')
              · exact hinv.dst_not hc'
            · intro x hx
              rcases List.mem_append.mp hx with hx' | hx'
              · exact List.mem_append.mpr (Or.inl hx')
              · exact List.mem_append.mpr
                  (Or.inr (hinv.st_sub x (List.mem_cons_of_mem _ hx')))
            · rw [List.nodup_append]
              exact ⟨hnd, hinv.vis_nodup, fun x hx => (hnew x hx).2⟩
            · intro x hx
              rcases List.mem_append.mp hx with hx' | hx'
              · exact hwf.targets_sub x (hnewsub x hx')
              · exact hinv.vis_sub x hx'
            · intro x hx
              rcases List.mem_append.mp hx with hx' | hx'
              · exact (hinv.reach cur hcur_vis).trans
                  (Reach.single (hnewsub x hx'))
              · exact hinv.reach x hx'
            · intro v hv hvst
              rcases List.mem_append.mp hv with hv' | hv'
              · exact absurd (List.mem_append.mpr (Or.inl hv')) hvst
              · by_cases hvc : v = cur
                · subst hvc
                  refine ⟨?_, hdst⟩
                  intro t ht
                  rcases hcov t ht with h' | h'
                  · exact List.mem_append.mpr (Or.inl h')
                  · exact List.mem_append.mpr (Or.inr h')
                · have hvrest : v ∉ rest := fun hc =>
                    hvst (List.mem_append.mpr (Or.inr hc))
                  have : v ∉ cur :: rest := by
                    intro hc
                    rcases List.mem_cons.mp hc with hc' | hc'
                    · exact hvc hc'
                    · exact hvrest hc'
                  obtain ⟨hs, hn⟩ := hinv.closed v hv' this
                  refine ⟨fun t ht => List.mem_append.mpr (Or.inr (hs t ht)), hn⟩
          · have : new.length ≤ new.length := le_refl _
            simp only [List.length_append] at hfuel ⊢
            simp only [List.length_cons] at hfuel
            omega

/-- `hasPath(from, to)` returns `true` exactly when `to` is reachable from
`from`, provided the graph is well-formed and `from` is a node. -/
theorem hasPathB_correct {g : DAG K V} (hwf : WF g) {a b : K}
    (ha : a ∈ keysOf g) :
    hasPathB g a b = true ↔ Reach g a b := by
  unfold hasPathB
  by_cases hab : a = b
  · subst hab; simp [Reach.refl]
  · simp only [if_neg hab]
    constructor
    · intro h
      refine dfsLoop_sound (g.nodes.length + 1) [a] [a] ?_ ?_ h
      · intro x hx
        rcases List.mem_singleton.mp hx with rfl
        exact Reach.refl _
      · intro x hx; exact hx
    · intro hr
      by_contra hfalse
      have hfalse' : dfsLoop g b (g.nodes.length + 1) [a] [a] = false := by
        cases h : dfsLoop g b (g.nodes.length + 1) [a] [a]
        · rfl
        · exact absurd h hfalse
      have hinv : DfsInv g a b [a] [a] := by
        refine ⟨List.mem_singleton_self a, ?_, ?_, List.nodup_singleton a, ?_, ?_, ?_⟩
        · intro hc
          rcases List.mem_singleton.mp hc with rfl
          exact hab rfl
        · intro x hx; exact hx
        · intro x hx
          rcases List.mem_singleton.mp hx with rfl
          exact ha
        · intro x hx
          rcases List.mem_singleton.mp hx with rfl
          exact Reach.refl _
        · intro v hv hvst
          exfalso
          exact hvst hv
      have hkeys : (keysOf g).length = g.nodes.length := by
        simp [keysOf]
      exact dfsLoop_complete hwf (g.nodes.length + 1) [a] [a] hinv
        (by simp only [List.length_singleton, hkeys]; omega) hfalse' hr

end DAG

end DFSComplete

section Preservation

variable {K : Type u} {V : Type v} [DecidableEq K]

theorem mem_setA {l : List (K × A)} {k : K} {a : A} :
    ∀ e ∈ setA l k a, e ∈ l ∨ e = (k, a) := by
  induction l with
  | nil => intro e he; simp [setA] at he; simp [he]
  | cons p rest ih =>
    obtain ⟨k', b⟩ := p
    intro e he
    by_cases hk : k = k'
    · subst hk
      simp only [setA, if_true, eq_self_iff_true, List.mem_cons] at he
      rcases he with h | he
      · exact Or.inr h
      · exact Or.inl (List.mem_cons_of_mem _ he)
    · simp only [setA, if_neg hk, List.mem_cons] at he
      rcases he with h | he
      · exact Or.inl (h ▸ List.mem_cons_self _ _)
      · rcases ih e he with h | h
        · exact Or.inl (List.mem_cons_of_mem _ h)
        · exact Or.inr h

theorem mem_delA {l : List (K × A)} {k : K} : ∀ e ∈ delA l k, e ∈ l := by
  induction l with
  | nil => intro e he; simp [delA] at he
  | cons p rest ih =>
    obtain ⟨k', b⟩ := p
    intro e he
    by_cases hk : k = k'
    · subst hk
      simp only [delA, if_true, eq_self_iff_true] at he
      exact List.mem_cons_of_mem _ (ih e he)
    · simp only [delA, if_neg hk, List.mem_cons] at he
      rcases he with h | he
      · exact h ▸ List.mem_cons_self _ _
      · exact List.mem_cons_of_mem _ (ih e he)

namespace DAG

theorem WF.empty : WF (empty : DAG K V) := by
  refine ⟨rfl, List.nodup_nil, ?_, ?_, ?_⟩ <;> intro e he <;> simp [DAG.empty] at he

theorem acyclic_empty : Acyclic (empty : DAG K V) := by
  intro a b e
  simp [EdgeOf, targets, DAG.empty, getA] at e

theorem targets_addNode {g : DAG K V} (hwf : WF g) {id : K} (v : V) (x : K) :
    targets (addNode g id v).1 x = targets g x := by
  unfold addNode
  by_cases h : hasNode g id
  · simp [h]
  · simp only [h, Bool.false_eq_true, if_false]
    have hid : getA g.adj id = none := by
      rw [getA_eq_none_iff, hwf.keys_eq]
      rw [hasNode_iff] at h
      exact h
    show targets ⟨setA g.nodes id v, setA g.adj id []⟩ x = targets g x
    unfold targets
    simp only
    rw [getA_setA]
    by_cases hx : x = id
    · subst hx
      simp [hid]
    · simp [hx]

theorem WF.addNode {g : DAG K V} (hwf : WF g) (id : K) (v : V) :
    WF (DAG.addNode g id v).1 := by
  unfold DAG.addNode
  by_cases h : hasNode g id
  · simpa [h] using hwf
  · simp only [h, Bool.false_eq_true, if_false]
    have hmem : id ∉ g.nodes.map Prod.fst := by
      rw [hasNode_iff] at h
      exact h
    have hnid : getA g.nodes id = none := (getA_eq_none_iff _ _).mpr hmem
    have haid : getA g.adj id = none := by
      rw [getA_eq_none_iff, hwf.keys_eq]
      exact hmem
    constructor
    · show (setA g.adj id []).map Prod.fst = (setA g.nodes id v).map Prod.fst
      rw [setA_of_absent _ _ _ hnid, setA_of_absent _ _ _ haid]
      simp [hwf.keys_eq]
    · show ((setA g.nodes id v).map Prod.fst).Nodup
      rw [setA_of_absent _ _ _ hnid]
      simp only [List.map_append, List.map_cons, List.map_nil]
      rw [List.nodup_append]
      exact ⟨hwf.nodup, List.nodup_singleton id,
        by intro x hx; simp only [List.mem_singleton]; intro hc; subst hc; exact hmem hx⟩
    · intro e he
      rcases mem_setA e he with h' | h'
      · exact hwf.targets_nodup e h'
      · subst h'; simp
    · intro e he t ht
      have : t ∈ g.nodes.map Prod.fst → t ∈ (setA g.nodes id v).map Prod.fst := by
        intro hmem'
        rw [setA_of_absent _ _ _ hnid]
        simp [hmem']
      rcases mem_setA e he with h' | h'
      · exact this (hwf.targets_mem e h' t ht)
      · subst h'; simp at ht
    · intro e he
      rcases mem_setA e he with h' | h'
      · exact hwf.no_self e h'
      · subst h'; simp

theorem targets_upsertNode {g : DAG K V} (hwf : WF g) {id : K} (v : V) (x : K) :
    targets (upsertNode g id v) x = targets g x := by
  unfold upsertNode
  by_cases h : hasNode g id
  · simp only [h, if_true]
    rfl
  · simp only [h, Bool.false_eq_true, if_false]
    have haid : getA g.adj id = none := by
      rw [getA_eq_none_iff, hwf.keys_eq]
      rw [hasNode_iff] at h
      exact h
    show targets ⟨setA g.nodes id v, setA g.adj id []⟩ x = targets g x
    unfold targets
    simp only
    rw [getA_setA]
    by_cases hx : x = id
    · subst hx; simp [haid]
    · simp [hx]

theorem WF.upsertNode {g : DAG K V} (hwf : WF g) (id : K) (v : V) :
    WF (DAG.upsertNode g id v) := by
  unfold DAG.upsertNode
  by_cases h : hasNode g id
  · simp only [h, if_true]
    have hk : id ∈ g.nodes.map Prod.fst := hasNode_iff.mp h
    constructor
    · show g.adj.map Prod.fst = (setA g.nodes id v).map Prod.fst
      rw [map_fst_setA_present _ _ _ hk, hwf.keys_eq]
    · show ((setA g.nodes id v).map Prod.fst).Nodup
      rw [map_fst_setA_present _ _ _ hk]
      exact hwf.nodup
    · exact hwf.targets_nodup
    · intro e he t ht
      show t ∈ (setA g.nodes id v).map Prod.fst
      rw [map_fst_setA_present _ _ _ hk]
      exact hwf.targets_mem e he t ht
    · exact hwf.no_self
  · simp only [h, Bool.false_eq_true, if_false]
    have hmem : id ∉ g.nodes.map Prod.fst := by
      rw [hasNode_iff] at h
      exact h
    have hnid : getA g.nodes id = none := (getA_eq_none_iff _ _).mpr hmem
    have haid : getA g.adj id = none := by
      rw [getA_eq_none_iff, hwf.keys_eq]
      exact hmem
    constructor
    · show (setA g.adj id []).map Prod.fst = (setA g.nodes id v).map Prod.fst
      rw [setA_of_absent _ _ _ hnid, setA_of_absent _ _ _ haid]
      simp [hwf.keys_eq]
    · show ((setA g.nodes id v).map Prod.fst).Nodup
      rw [setA_of_absent _ _ _ hnid]
      simp only [List.map_append, List.map_cons, List.map_nil]
      rw [List.nodup_append]
      exact ⟨hwf.nodup, List.nodup_singleton id,
        by intro x hx; simp only [List.mem_singleton]; intro hc; subst hc; exact hmem hx⟩
    · intro e he
      rcases mem_setA e he with h' | h'
      · exact hwf.targets_nodup e h'
      · subst h'; simp
    · intro e he t ht
      have hgrow : t ∈ g.nodes.map Prod.fst → t ∈ (setA g.nodes id v).map Prod.fst := by
        intro hmem'
        rw [setA_of_absent _ _ _ hnid]
        simp [hmem']
      rcases mem_setA e he with h' | h'
      · exact hgrow (hwf.targets_mem e h' t ht)
      · subst h'; simp at ht
    · intro e he
      rcases mem_setA e he with h' | h'
      · exact hwf.no_self e h'
      · subst h'; simp

end DAG

end Preservation

section EdgePreservation

variable {K : Type u} {V : Type v} [DecidableEq K]

namespace DAG

/-- The graph resulting from `addEdge g a b` inserted with the guards spelled out. -/
def addEdgeGraph (g : DAG K V) (a b : K) : DAG K V :=
  ⟨g.nodes, setA g.adj a (targets g a ++ [b])⟩

theorem addEdge_missing_src {g : DAG K V} {a : K} (b : K)
    (ha : ¬ hasNode g a = true) :
    addEdge g a b = (g, some (.nodeMissing a)) := by
  simp [addEdge, ha]

theorem addEdge_missing_tgt {g : DAG K V} {a b : K}
    (ha : hasNode g a = true) (hb : ¬ hasNode g b = true) :
    addEdge g a b = (g, some (.nodeMissing b)) := by
  simp [addEdge, ha, hb]

theorem addEdge_self {g : DAG K V} {a : K}
    (ha : hasNode g a = true) :
    addEdge g a a = (g, some (.selfLoop a a)) := by
  simp [addEdge, ha]

theorem addEdge_dup {g : DAG K V} {a b : K}
    (ha : hasNode g a = true) (hb : hasNode g b = true) (hab : a ≠ b)
    (hmem : b ∈ targets g a) :
    addEdge g a b = (g, none) := by
  simp [addEdge, ha, hb, hab, hmem]

theorem addEdge_cycle {g : DAG K V} {a b : K}
    (ha : hasNode g a = true) (hb : hasNode g b = true) (hab : a ≠ b)
    (hmem : b ∉ targets g a) (hpath : hasPathB g b a = true) :
    addEdge g a b = (g, some (.cycleEdge a b)) := by
  simp [addEdge, ha, hb, hab, hmem, hpath]

theorem addEdge_success {g : DAG K V} {a b : K}
    (ha : hasNode g a = true) (hb : hasNode g b = true) (hab : a ≠ b)
    (hmem : b ∉ targets g a) (hpath : hasPathB g b a = false) :
    addEdge g a b = (addEdgeGraph g a b, none) := by
  simp [addEdge, addEdgeGraph, ha, hb, hab, hmem, hpath]

/-- Either `addEdge` leaves the graph untouched, or all five guards passed and
it appended the single edge `a → b`. -/
theorem addEdge_graph_cases (g : DAG K V) (a b : K) :
    (addEdge g a b).1 = g ∨
    ((addEdge g a b).1 = addEdgeGraph g a b ∧
      hasNode g a = true ∧ hasNode g b = true ∧ a ≠ b ∧
      b ∉ targets g a ∧ hasPathB g b a = false) := by
  by_cases ha : hasNode g a = true
  · by_cases hb : hasNode g b = true
    · by_cases hab : a = b
      · subst hab
        left
        rw [addEdge_self ha]
      · by_cases hmem : b ∈ targets g a
        · left
          rw [addEdge_dup ha hb hab hmem]
        · by_cases hpath : hasPathB g b a = true
          · left
            rw [addEdge_cycle ha hb hab hmem hpath]
          · have hp : hasPathB g b a = false := by
              cases h : hasPathB g b a
              · rfl
              · exact absurd h hpath
            right
            rw [addEdge_success ha hb hab hmem hp]
            exact ⟨rfl, ha, hb, hab, hmem, hp⟩
    · left
      rw [addEdge_missing_tgt ha hb]
  · left
    rw [addEdge_missing_src b ha]

/-- A failed `addEdge` throws before mutating anything. -/
theorem addEdge_error_unchanged (g : DAG K V) (a b : K) {e : DAGError K}
    (h : (addEdge g a b).2 = some e) : (addEdge g a b).1 = g := by
  rcases addEdge_graph_cases g a b with h' | ⟨h', ha, hb, hab, hmem, hpath⟩
  · exact h'
  · rw [addEdge_success ha hb hab hmem hpath] at h
    simp at h

/-- The successful branch of `addEdge` adds exactly the edge `a → b`. -/
theorem EdgeOf_addEdgeGraph {g : DAG K V} (hwf : WF g) {a b : K}
    (ha : hasNode g a = true) :
    ∀ x y, EdgeOf (addEdgeGraph g a b) x y ↔ EdgeOf g x y ∨ (x = a ∧ y = b) := by
  intro x y
  have hka : a ∈ g.adj.map Prod.fst := by
    rw [hwf.keys_eq]
    exact hasNode_iff.mp ha
  unfold addEdgeGraph EdgeOf targets
  simp only
  rw [getA_setA]
  by_cases hx : x = a
  · subst hx
    rw [if_pos rfl]
    simp only [Option.getD_some]
    constructor
    · intro hy
      rcases List.mem_append.mp hy with h | h
      · exact Or.inl h
      · simp only [List.mem_singleton] at h
        exact Or.inr ⟨trivial, h⟩
    · intro hy
      rcases hy with h | h
      · exact List.mem_append.mpr (Or.inl h)
      · exact List.mem_append.mpr (Or.inr (by simp [h.2]))
  · simp only [if_neg hx]
    constructor
    · exact Or.inl
    · intro hy
      rcases hy with h | h
      · exact h
      · exact absurd h.1 hx

theorem WF.addEdge {g : DAG K V} (hwf : WF g) (a b : K) :
    WF (DAG.addEdge g a b).1 := by
  rcases addEdge_graph_cases g a b with h | ⟨h, ha, hb, hab, hmem, hpath⟩
  · rw [h]; exact hwf
  rw [h]
  have hka : a ∈ g.adj.map Prod.fst := by
    rw [hwf.keys_eq]; exact hasNode_iff.mp ha
  have hts : ∀ t ∈ targets g a ++ [b], t ∈ g.nodes.map Prod.fst := by
    intro t ht
    rcases List.mem_append.mp ht with h' | h'
    · exact hwf.targets_sub t h'
    · simp only [List.mem_singleton] at h'
      subst h'
      exact hasNode_iff.mp hb
  constructor
  · show (setA g.adj a (targets g a ++ [b])).map Prod.fst = g.nodes.map Prod.fst
    rw [map_fst_setA_present _ _ _ hka, hwf.keys_eq]
  · exact hwf.nodup
  · intro e he
    rcases mem_setA e he with h' | h'
    · exact hwf.targets_nodup e h'
    · subst h'
      simp only
      rw [List.nodup_append]
      exact ⟨hwf.targets_nodup' a, List.nodup_singleton b,
        by intro x hx; simp only [List.mem_singleton]; intro hc; subst hc; exact hmem hx⟩
  · intro e he t ht
    rcases mem_setA e he with h' | h'
    · exact hwf.targets_mem e h' t ht
    · subst h'
      exact hts t ht
  · intro e he
    rcases mem_setA e he with h' | h'
    · exact hwf.no_self e h'
    · subst h'
      simp only
      intro hc
      rcases List.mem_append.mp hc with h' | h'
      · exact hwf.self_not_target a h'
      · simp only [List.mem_singleton] at h'
        exact hab h'

/-- Splitting reachability in `g` plus the new edge `a → b`: a path either
avoids the new edge or threads through it. -/
theorem reach_addEdge_split {g g' : DAG K V} {a b : K}
    (hedge : ∀ x y, EdgeOf g' x y ↔ EdgeOf g x y ∨ (x = a ∧ y = b))
    (hnr : ¬ Reach g b a) :
    ∀ x y, Reach g' x y → Reach g x y ∨ (Reach g x a ∧ Reach g b y) := by
  intro x y h
  induction h with
  | refl => exact Or.inl (Reach.refl _)
  | @step x' m y' e hrest ih =>
    rcases (hedge x' m).mp e with he | hm
    · rcases ih with h' | ⟨h1, h2⟩
      · exact Or.inl (Reach.step he h')
      · exact Or.inr ⟨Reach.step he h1, h2⟩
    · obtain ⟨hx', hm'⟩ := hm
      subst hx'; subst hm'
      rcases ih with h' | ⟨h1, h2⟩
      · exact Or.inr ⟨Reach.refl _, h'⟩
      · exact absurd h1 hnr

theorem acyclic_addEdge {g : DAG K V} (hwf : WF g) (hacy : Acyclic g) (a b : K) :
    Acyclic (DAG.addEdge g a b).1 := by
  rcases addEdge_graph_cases g a b with h | ⟨h, ha, hb, hab, hmem, hpath⟩
  · rw [h]; exact hacy
  rw [h]
  have hnr : ¬ Reach g b a := by
    intro hr
    have := (hasPathB_correct hwf (hasNode_iff.mp hb)).mpr hr
    rw [hpath] at this
    exact Bool.false_ne_true this
  have hedge := @EdgeOf_addEdgeGraph K V _ g hwf a b ha
  intro x y e hr
  rcases (hedge x y).mp e with he | hm
  · rcases reach_addEdge_split hedge hnr y x hr with h' | ⟨h1, h2⟩
    · exact hacy x y he h'
    · exact hnr (h2.trans ((Reach.single he).trans h1))
  · obtain ⟨hx, hy⟩ := hm
    subst hx; subst hy
    rcases reach_addEdge_split hedge hnr _ _ hr with h' | ⟨h1, h2⟩
    · exact hnr h'
    · exact hnr h1

end DAG

end EdgePreservation

section RemovePreservation

variable {K : Type u} {V : Type v} [DecidableEq K]

namespace DAG

theorem targets_removeNode {g : DAG K V} {id : K} (hn : hasNode g id = true) (x : K) :
    targets (removeNode g id).1 x =
      if x = id then [] else (targets g x).filter (fun t => ¬ t = id) := by
  unfold removeNode
  simp only [hn, if_true]
  show targets ⟨delA g.nodes id,
      delA (g.adj.map (fun e => (e.1, e.2.filter (fun t => ¬ t = id)))) id⟩ x = _
  unfold targets
  simp only
  rw [getA_delA]
  by_cases hx : x = id
  · simp [hx]
  · simp only [if_neg hx]
    rw [getA_map_snd g.adj (fun _ ts => ts.filter (fun t => ¬ t = id)) x]
    cases getA g.adj x <;> simp

theorem WF.removeNode {g : DAG K V} (hwf : WF g) (id : K) :
    WF (DAG.removeNode g id).1 := by
  unfold DAG.removeNode
  by_cases hn : hasNode g id = true
  swap
  · simpa [hn] using hwf
  simp only [hn, if_true]
  have hkeys : (delA (g.adj.map (fun e => (e.1, e.2.filter (fun t => ¬ t = id)))) id).map
      Prod.fst = (delA g.nodes id).map Prod.fst := by
    rw [map_fst_delA, map_fst_delA]
    have : (g.adj.map (fun e => (e.1, e.2.filter (fun t => ¬ t = id)))).map Prod.fst
        = g.adj.map Prod.fst := by
      simp [Function.comp]
    rw [this, hwf.keys_eq]
  constructor
  · exact hkeys
  · show ((delA g.nodes id).map Prod.fst).Nodup
    rw [map_fst_delA]
    exact hwf.nodup.filter _
  · intro e he
    have he' := mem_delA e he
    rcases List.mem_map.mp he' with ⟨e₀, he₀, rfl⟩
    exact (hwf.targets_nodup e₀ he₀).filter _
  · intro e he t ht
    have he' := mem_delA e he
    rcases List.mem_map.mp he' with ⟨e₀, he₀, rfl⟩
    simp only at ht
    have htmem := List.mem_of_mem_filter ht
    have htne : ¬ t = id := by
      have := (List.mem_filter.mp ht).2
      simpa using this
    show t ∈ (delA g.nodes id).map Prod.fst
    rw [map_fst_delA]
    refine List.mem_filter.mpr ⟨hwf.targets_mem e₀ he₀ t htmem, by simpa using htne⟩
  · intro e he hc
    have he' := mem_delA e he
    rcases List.mem_map.mp he' with ⟨e₀, he₀, heq⟩
    have h1 : e.1 = e₀.1 := by rw [← heq]
    have h2 : e.2 = e₀.2.filter (fun t => ¬ t = id) := by rw [← heq]
    rw [h2] at hc
    rw [h1] at hc
    exact hwf.no_self e₀ he₀ (List.mem_of_mem_filter hc)

theorem acyclic_removeNode {g : DAG K V} (hwf : WF g) (hacy : Acyclic g) (id : K) :
    Acyclic (DAG.removeNode g id).1 := by
  by_cases hn : hasNode g id = true
  swap
  · unfold DAG.removeNode; simpa [hn] using hacy
  refine Acyclic.anti ?_ hacy
  intro x y e
  unfold EdgeOf at e ⊢
  rw [targets_removeNode hn] at e
  by_cases hx : x = id
  · rw [if_pos hx] at e; simp at e
  · rw [if_neg hx] at e
    exact List.mem_of_mem_filter e

theorem targets_removeEdge {g : DAG K V} {a b : K} {ts : List K}
    (hget : getA g.adj a = some ts) (hmem : b ∈ ts) (x : K) :
    targets (removeEdge g a b).1 x =
      if x = a then ts.filter (fun t => ¬ t = b) else targets g x := by
  unfold removeEdge
  rw [hget]
  simp only [hmem, if_true]
  show targets ⟨g.nodes, setA g.adj a (ts.filter (fun t => ¬ t = b))⟩ x = _
  unfold targets
  simp only
  rw [getA_setA]
  by_cases hx : x = a
  · simp [hx]
  · simp [hx]

theorem WF.removeEdge {g : DAG K V} (hwf : WF g) (a b : K) :
    WF (DAG.removeEdge g a b).1 := by
  unfold DAG.removeEdge
  cases hget : getA g.adj a with
  | none => exact hwf
  | some ts =>
    by_cases hmem : b ∈ ts
    swap
    · simpa [hmem] using hwf
    simp only [hmem, if_true]
    have hka : a ∈ g.adj.map Prod.fst :=
      List.mem_map_of_mem Prod.fst (getA_mem hget)
    constructor
    · show (setA g.adj a (ts.filter (fun t => ¬ t = b))).map Prod.fst = _
      rw [map_fst_setA_present _ _ _ hka, hwf.keys_eq]
    · exact hwf.nodup
    · intro e he
      rcases mem_setA e he with h | h
      · exact hwf.targets_nodup e h
      · subst h
        exact (hwf.targets_nodup _ (getA_mem hget)).filter _
    · intro e he t ht
      rcases mem_setA e he with h | h
      · exact hwf.targets_mem e h t ht
      · subst h
        simp only at ht
        exact hwf.targets_mem _ (getA_mem hget) t (List.mem_of_mem_filter ht)
    · intro e he hc
      rcases mem_setA e he with h | h
      · exact hwf.no_self e h hc
      · subst h
        simp only at hc
        exact hwf.no_self _ (getA_mem hget) (List.mem_of_mem_filter hc)

theorem acyclic_removeEdge {g : DAG K V} (hacy : Acyclic g) (a b : K) :
    Acyclic (DAG.removeEdge g a b).1 := by
  unfold DAG.removeEdge
  cases hget : getA g.adj a with
  | none => exact hacy
  | some ts =>
    by_cases hmem : b ∈ ts
    swap
    · simpa [hmem] using hacy
    simp only [hmem, if_true]
    refine Acyclic.anti ?_ hacy
    intro x y e
    unfold EdgeOf targets at e ⊢
    simp only at e
    rw [getA_setA] at e
    by_cases hx : x = a
    · subst hx
      simp only [if_true, eq_self_iff_true, Option.getD_some] at e
      rw [hget]
      exact List.mem_of_mem_filter e
    · rw [if_neg hx] at e
      exact e

/-- Graphs reachable from `new DAG()` through the public mutating API. -/
inductive Built : DAG K V → Prop
  | empty : Built empty
  | addNode {g : DAG K V} (id : K) (v : V) : Built g → Built (DAG.addNode g id v).1
  | upsertNode {g : DAG K V} (id : K) (v : V) : Built g → Built (DAG.upsertNode g id v)
  | addEdge {g : DAG K V} (a b : K) : Built g → Built (DAG.addEdge g a b).1
  | removeNode {g : DAG K V} (id : K) : Built g → Built (DAG.removeNode g id).1
  | removeEdge {g : DAG K V} (a b : K) : Built g → Built (DAG.removeEdge g a b).1
  | clear {g : DAG K V} (g₀ : DAG K V) : Built g → Built (DAG.clear g₀)

/-- Every graph built through the public API is well-formed and acyclic. -/
theorem Built.wf_acyclic {g : DAG K V} (h : Built g) : WF g ∧ Acyclic g := by
  induction h with
  | empty => exact ⟨WF.empty, acyclic_empty⟩
  | addNode id v _ ih =>
    refine ⟨ih.1.addNode id v, ?_⟩
    refine Acyclic.anti ?_ ih.2
    intro x y e
    unfold EdgeOf at e ⊢
    rwa [targets_addNode ih.1 v] at e
  | upsertNode id v _ ih =>
    refine ⟨ih.1.upsertNode id v, ?_⟩
    refine Acyclic.anti ?_ ih.2
    intro x y e
    unfold EdgeOf at e ⊢
    rwa [targets_upsertNode ih.1 v] at e
  | addEdge a b _ ih => exact ⟨ih.1.addEdge a b, acyclic_addEdge ih.1 ih.2 a b⟩
  | removeNode id _ ih => exact ⟨ih.1.removeNode id, acyclic_removeNode ih.1 ih.2 id⟩
  | removeEdge a b _ ih => exact ⟨ih.1.removeEdge a b, acyclic_removeEdge ih.2 a b⟩
  | clear g₀ _ _ => exact ⟨WF.empty, acyclic_empty⟩

end DAG

end RemovePreservation

section KahnProofs

variable {K : Type u} {V : Type v} [DecidableEq K]

theorem getA_of_mem_nodup {l : List (K × A)} (hnd : (l.map Prod.fst).Nodup)
    {k : K} {a : A} (h : (k, a) ∈ l) : getA l k = some a := by
  induction l with
  | nil => simp at h
  | cons p rest ih =>
    obtain ⟨k', b⟩ := p
    rcases List.mem_cons.mp h with h' | h'
    · obtain ⟨h1, h2⟩ := Prod.mk.injEq .. ▸ h'
      subst h1; subst h2
      simp [getA]
    · have hnd2 := hnd
      simp only [List.map_cons, List.nodup_cons] at hnd2
      have hk : ¬ k = k' := by
        intro hc
        subst hc
        exact hnd2.1 (List.mem_map_of_mem Prod.fst h')
      simp only [getA, if_neg hk]
      exact ih hnd2.2 h'

namespace DAG

/-- The predecessor list of `n` (the content of the synchronised `incoming`
set): the keys whose outgoing set contains `n`. -/
def predsList (g : DAG K V) (n : K) : List K :=
  (g.adj.filter (fun e => n ∈ e.2)).map Prod.fst

theorem inDegOf_eq_length_predsList (g : DAG K V) (n : K) :
    inDegOf g n = (predsList g n).length := by
  simp [inDegOf, predsList]

theorem predsList_nodup {g : DAG K V} (hwf : WF g) (n : K) :
    (predsList g n).Nodup := by
  unfold predsList
  have hadj : (g.adj.map Prod.fst).Nodup := by
    rw [hwf.keys_eq]; exact hwf.nodup
  have hsubl : (g.adj.filter (fun e => n ∈ e.2)).map Prod.fst |>.Sublist
      (g.adj.map Prod.fst) := (List.filter_sublist _).map Prod.fst
  exact hadj.sublist hsubl

theorem predsList_sub {g : DAG K V} (hwf : WF g) (n : K) :
    ∀ p ∈ predsList g n, p ∈ keysOf g := by
  intro p hp
  unfold predsList at hp
  rcases List.mem_map.mp hp with ⟨e, he, rfl⟩
  have := List.mem_of_mem_filter he
  have : e.1 ∈ g.adj.map Prod.fst := List.mem_map_of_mem Prod.fst this
  rwa [hwf.keys_eq] at this

theorem mem_predsList_iff {g : DAG K V} (hwf : WF g) (n p : K) :
    p ∈ predsList g n ↔ EdgeOf g p n := by
  have hadj : (g.adj.map Prod.fst).Nodup := by
    rw [hwf.keys_eq]; exact hwf.nodup
  constructor
  · intro hp
    rcases List.mem_map.mp hp with ⟨e, he, rfl⟩
    have hmem := List.mem_of_mem_filter he
    have htgt : n ∈ e.2 := by
      have := (List.mem_filter.mp he).2
      simpa using this
    unfold EdgeOf targets
    obtain ⟨k, ts⟩ := e
    rw [getA_of_mem_nodup hadj hmem]
    simpa using htgt
  · intro he
    unfold EdgeOf targets at he
    cases hget : getA g.adj p with
    | none => rw [hget] at he; simp at he
    | some ts =>
      rw [hget] at he
      simp only [Option.getD_some] at he
      have : (p, ts) ∈ g.adj.filter (fun e => n ∈ e.2) :=
        List.mem_filter.mpr ⟨getA_mem hget, by simpa using he⟩
      exact List.mem_map_of_mem Prod.fst this

/-- The predecessors of `n` not yet emitted by the Kahn loop; its length is the
value the loop tracks for `n` in its in-degree map. -/
def unproc (g : DAG K V) (processed : List K) (n : K) : List K :=
  (predsList g n).filter (fun p => p ∉ processed)

theorem unproc_nil (g : DAG K V) (n : K) : unproc g [] n = predsList g n := by
  simp [unproc]

theorem unproc_append_of_not_edge {g : DAG K V} (hwf : WF g)
    {q n : K} (hq : ¬ EdgeOf g q n) (processed : List K) :
    unproc g (processed ++ [q]) n = unproc g processed n := by
  unfold unproc
  apply List.filter_congr
  intro p hp
  have hpq : ¬ p = q := by
    intro hc
    subst hc
    exact hq ((mem_predsList_iff hwf n p).mp hp)
  simp [List.mem_append, hpq]

theorem unproc_append_of_edge {g : DAG K V} (hwf : WF g)
    {q n : K} (hq : EdgeOf g q n) {processed : List K} (hqp : q ∉ processed) :
    q ∈ unproc g processed n ∧
    unproc g (processed ++ [q]) n = (unproc g processed n).filter (fun p => ¬ p = q) := by
  constructor
  · exact List.mem_filter.mpr ⟨(mem_predsList_iff hwf n q).mpr hq, by simpa using hqp⟩
  · unfold unproc
    rw [List.filter_filter]
    apply List.filter_congr
    intro p hp
    by_cases hpq : p = q
    · subst hpq
      simp [hqp]
    · simp [List.mem_append, hpq]

theorem length_filter_ne_of_nodup {l : List K} (hnd : l.Nodup) {q : K} (hq : q ∈ l) :
    (l.filter (fun p => ¬ p = q)).length + 1 = l.length := by
  have herase : l.erase q = l.filter (fun p => ¬ p = q) := by
    rw [hnd.erase_eq_filter]
    apply List.filter_congr
    intro p _
    by_cases h : p = q <;> simp [h]
  rw [← herase, List.length_erase_of_mem hq]
  have : 1 ≤ l.length := List.length_pos.mpr (List.ne_nil_of_mem hq)
  omega

theorem decTargets_spec (ts : List K) (indeg : List (K × Int)) (zacc : List K)
    (hnd : ts.Nodup) (hsub : ∀ t ∈ ts, t ∈ indeg.map Prod.fst) :
    (decTargets ts indeg zacc).1.map Prod.fst = indeg.map Prod.fst ∧
    (∀ n, getA (decTargets ts indeg zacc).1 n =
        if n ∈ ts then (getA indeg n).map (fun d => d - 1) else getA indeg n) ∧
    (decTargets ts indeg zacc).2 =
      zacc ++ ts.filter (fun t => getA indeg t = some 1) := by
  induction ts generalizing indeg zacc with
  | nil => simp [decTargets]
  | cons t ts ih =>
    have htk : t ∈ indeg.map Prod.fst := hsub t (List.mem_cons_self _ _)
    have hv : ∃ v, getA indeg t = some v := by
      have := (getA_isSome_iff indeg t).mpr htk
      exact Option.isSome_iff_exists.mp this
    obtain ⟨v, hv⟩ := hv
    have hd : (getA indeg t).getD 0 - 1 = v - 1 := by rw [hv]; rfl
    have hkeys1 : (setA indeg t (v - 1)).map Prod.fst = indeg.map Prod.fst :=
      map_fst_setA_present _ _ _ htk
    have hsub1 : ∀ x ∈ ts, x ∈ (setA indeg t (v - 1)).map Prod.fst := by
      intro x hx
      rw [hkeys1]
      exact hsub x (List.mem_cons_of_mem _ hx)
    have htts : t ∉ ts := (List.nodup_cons.mp hnd).1
    have hnd' : ts.Nodup := (List.nodup_cons.mp hnd).2
    obtain ⟨ihk, ihv, ihz⟩ := ih (setA indeg t (v - 1)) 
      (if v - 1 = 0 then zacc ++ [t] else zacc) hnd' hsub1
    have hfilter : ts.filter (fun x => getA (setA indeg t (v - 1)) x = some 1)
        = ts.filter (fun x => getA indeg x = some 1) := by
      apply List.filter_congr
      intro x hx
      have hxt : ¬ x = t := fun hc => htts (hc ▸ hx)
      rw [getA_setA]
      simp [hxt]
    have hstep : decTargets (t :: ts) indeg zacc =
        decTargets ts (setA indeg t (v - 1))
          (if v - 1 = 0 then zacc ++ [t] else zacc) := by
      show (if ((getA indeg t).getD 0 - 1) = 0 then
          decTargets ts (setA indeg t ((getA indeg t).getD 0 - 1)) (zacc ++ [t])
        else decTargets ts (setA indeg t ((getA indeg t).getD 0 - 1)) zacc) = _
      rw [hd]
      by_cases hz : v - 1 = 0
      · simp [hz]
      · simp [hz]
    refine ⟨?_, ?_, ?_⟩
    · rw [hstep, ihk, hkeys1]
    · intro n
      rw [hstep, ihv n]
      by_cases hnts : n ∈ ts
      · have hnt : ¬ n = t := fun hc => htts (hc ▸ hnts)
        simp only [hnts, if_true, List.mem_cons, hnt, false_or]
        rw [getA_setA, if_neg hnt]
      · by_cases hnt : n = t
        · subst hnt
          simp only [hnts, if_false, List.mem_cons, true_or, if_true]
          rw [getA_setA, if_pos rfl, hv]
          rfl
        · simp only [hnts, if_false, List.mem_cons, hnt, false_or]
          rw [getA_setA, if_neg hnt]
    · rw [hstep, ihz, hfilter]
      have : List.filter (fun t_1 => decide (getA indeg t_1 = some 1)) (t :: ts)
          = (if getA indeg t = some 1 then [t] else []) ++
            ts.filter (fun x => getA indeg x = some 1) := by
        rw [List.filter_cons]
        by_cases h1 : getA indeg t = some 1
        · simp [h1]
        · simp [h1]
      rw [this]
      have hveq : (v - 1 = 0) ↔ (getA indeg t = some 1) := by
        rw [hv]
        constructor
        · intro h
          have : v = 1 := by omega
          rw [this]
        · intro h
          have : v = 1 := by
            have := Option.some.injEq v 1 ▸ h
            simpa using h
          omega
      by_cases hz : v - 1 = 0
      · rw [if_pos hz, if_pos (hveq.mp hz)]
        simp
      · rw [if_neg hz, if_neg (fun hc => hz (hveq.mpr hc))]
        simp

end DAG

end KahnProofs

section CycleExtraction

variable {K : Type u} {V : Type v} [DecidableEq K]

namespace DAG

/-- A finite nonempty set of nodes each of which has a predecessor inside the
set contains a directed cycle. -/
theorem exists_cycle_of_all_preds {g : DAG K V} (R : List K) (hne : R ≠ [])
    (hpred : ∀ n ∈ R, ∃ p, p ∈ R ∧ EdgeOf g p n) :
    ∃ a b, EdgeOf g a b ∧ Reach g b a := by
  classical
  obtain ⟨r0, hr0⟩ : ∃ r, r ∈ R := by
    cases R with
    | nil => exact absurd rfl hne
    | cons x xs => exact ⟨x, List.mem_cons_self _ _⟩
  choose pf hpfR hpfE using hpred
  let f : Nat → {x : K // x ∈ R} := fun k =>
    Nat.rec ⟨r0, hr0⟩ (fun _ prev => ⟨pf prev.1 prev.2, hpfR prev.1 prev.2⟩) k
  have hedge : ∀ k, EdgeOf g (f (k + 1)).1 (f k).1 := fun k => hpfE (f k).1 (f k).2
  have hreach : ∀ (d i : Nat), Reach g (f (i + d)).1 (f i).1 := by
    intro d
    induction d with
    | zero => intro i; exact Reach.refl _
    | succ d ih =>
      intro i
      have heq : i + (d + 1) = (i + d) + 1 := by omega
      rw [heq]
      exact Reach.step (hedge (i + d)) (ih i)
  have key : ∀ (i j : Nat), i < j → (f i).1 = (f j).1 →
      ∃ a b, EdgeOf g a b ∧ Reach g b a := by
    intro i j hij heq
    refine ⟨(f (i + 1)).1, (f i).1, hedge i, ?_⟩
    obtain ⟨d, rfl⟩ : ∃ d, j = (i + 1) + d := ⟨j - (i + 1), by omega⟩
    have hr : Reach g (f ((i + 1) + d)).1 (f (i + 1)).1 := hreach d (i + 1)
    rw [heq]
    exact hr
  have hcard : (R.toFinset).card < (Finset.univ : Finset (Fin (R.length + 1))).card := by
    have h1 : R.toFinset.card ≤ R.length := R.toFinset_card_le
    have h2 : (Finset.univ : Finset (Fin (R.length + 1))).card = R.length + 1 := by
      simp
    omega
  obtain ⟨i, -, j, -, hij, hfeq⟩ :=
    Finset.exists_ne_map_eq_of_card_lt_of_maps_to hcard
      (fun (k : Fin (R.length + 1)) _ => List.mem_toFinset.mpr (f k.val).2)
  rcases Nat.lt_or_ge i.val j.val with hlt | hge
  · exact key i.val j.val hlt hfeq
  · rcases Nat.eq_or_lt_of_le hge with heq | hlt'
    · exact absurd (Fin.ext heq.symm) hij
    · exact key j.val i.val hlt' hfeq.symm

end DAG

end CycleExtraction

section KahnInvariant

variable {K : Type u} {V : Type v} [DecidableEq K]

namespace DAG

theorem unproc_nodup {g : DAG K V} (hwf : WF g) (processed : List K) (n : K) :
    (unproc g processed n).Nodup := (predsList_nodup hwf n).filter _

/-- Loop invariant of `topologicalSort`'s Kahn loop: the tracked in-degree of
every node counts its not-yet-emitted predecessors, emitted and queued nodes
are disjoint duplicate-free subsets of the node set, and a node has been
emitted or queued exactly when all its predecessors have been emitted. -/
structure KahnInv (g : DAG K V) (pending processed : List K)
    (indeg : List (K × Int)) : Prop where
  keys : indeg.map Prod.fst = keysOf g
  val : ∀ n ∈ keysOf g, getA indeg n = some (((unproc g processed n).length : Int))
  proc_sub : ∀ x ∈ processed, x ∈ keysOf g
  proc_nodup : processed.Nodup
  pend_sub : ∀ x ∈ pending, x ∈ keysOf g
  pend_nodup : pending.Nodup
  disj : ∀ x ∈ pending, x ∉ processed
  mem_iff : ∀ n ∈ keysOf g, (n ∈ processed ∨ n ∈ pending) ↔ unproc g processed n = []

theorem kahnLoop_spec {g : DAG K V} (hwf : WF g) (hacy : Acyclic g) :
    ∀ (fuel : Nat) (pending processed : List K) (indeg : List (K × Int)),
      KahnInv g pending processed indeg →
      (keysOf g).length + 1 ≤ fuel + processed.length →
      (kahnLoop g fuel pending indeg processed).Nodup ∧
      (∀ n, n ∈ kahnLoop g fuel pending indeg processed ↔ n ∈ keysOf g) := by
  intro fuel
  induction fuel with
  | zero =>
    intro pending processed indeg hinv hfuel
    exfalso
    have : processed.length ≤ (keysOf g).length :=
      List.Subperm.length_le (List.subperm_of_subset hinv.proc_nodup hinv.proc_sub)
    omega
  | succ fuel ih =>
    intro pending processed indeg hinv hfuel
    match pending with
    | [] =>
      rw [kahnLoop]
      refine ⟨hinv.proc_nodup, ?_⟩
      intro n
      constructor
      · exact fun hn => hinv.proc_sub n hn
      · intro hn
        by_contra hnp
        have hnR : n ∈ (keysOf g).filter (fun x => x ∉ processed) :=
          List.mem_filter.mpr ⟨hn, by simpa using hnp⟩
        have hRne : (keysOf g).filter (fun x => x ∉ processed) ≠ [] :=
          List.ne_nil_of_mem hnR
        have hpredR : ∀ m ∈ (keysOf g).filter (fun x => x ∉ processed),
            ∃ p, p ∈ (keysOf g).filter (fun x => x ∉ processed) ∧ EdgeOf g p m := by
          intro m hm
          obtain ⟨hmk, hmp⟩ := List.mem_filter.mp hm
          have hmp' : m ∉ processed := by simpa using hmp
          have hune : unproc g processed m ≠ [] := by
            intro hc
            rcases (hinv.mem_iff m hmk).mpr hc with h | h
            · exact hmp' h
            · simp at h
          obtain ⟨p, hp⟩ : ∃ p, p ∈ unproc g processed m := by
            cases hu : unproc g processed m with
            | nil => exact absurd hu hune
            | cons x xs => exact ⟨x, List.mem_cons_self _ _⟩
          obtain ⟨hp1, hp2⟩ := List.mem_filter.mp hp
          exact ⟨p, List.mem_filter.mpr ⟨predsList_sub hwf m p hp1, hp2⟩,
            (mem_predsList_iff hwf m p).mp hp1⟩
        obtain ⟨a, b, he, hr⟩ :=
          exists_cycle_of_all_preds _ hRne hpredR
        exact hacy a b he hr
    | q :: rest =>
      have hq_keys : q ∈ keysOf g := hinv.pend_sub q (List.mem_cons_self _ _)
      have hq_notproc : q ∉ processed := hinv.disj q (List.mem_cons_self _ _)
      have hq_notrest : q ∉ rest := (List.nodup_cons.mp hinv.pend_nodup).1
      have hrest_nodup : rest.Nodup := (List.nodup_cons.mp hinv.pend_nodup).2
      have hts_nodup : (targets g q).Nodup := hwf.targets_nodup' q
      have hts_sub : ∀ t ∈ targets g q, t ∈ keysOf g := hwf.targets_sub
      have hts_sub' : ∀ t ∈ targets g q, t ∈ indeg.map Prod.fst := by
        intro t ht
        rw [hinv.keys]
        exact hts_sub t ht
      obtain ⟨hk, hval, hz⟩ := decTargets_spec (targets g q) indeg [] hts_nodup hts_sub'
      have hqn_edge : ∀ n ∈ targets g q, EdgeOf g q n := fun n hn => hn
      have hstep_ts : ∀ n ∈ targets g q,
          q ∈ unproc g processed n ∧
          (unproc g (processed ++ [q]) n).length + 1 = (unproc g processed n).length := by
        intro n hn
        obtain ⟨hqin, hflt⟩ := unproc_append_of_edge hwf (hqn_edge n hn) hq_notproc
        refine ⟨hqin, ?_⟩
        rw [hflt]
        exact length_filter_ne_of_nodup (unproc_nodup hwf processed n) hqin
      have hts_not_old : ∀ n ∈ targets g q, n ∉ processed ∧ n ∉ q :: rest := by
        intro n hn
        have hune : unproc g processed n ≠ [] := by
          intro hc
          have := (hstep_ts n hn).1
          rw [hc] at this
          simp at this
        have hiff := hinv.mem_iff n (hts_sub n hn)
        exact ⟨fun hc => hune (hiff.mp (Or.inl hc)),
          fun hc => hune (hiff.mp (Or.inr hc))⟩
      have hzeros_mem : ∀ n, n ∈ (decTargets (targets g q) indeg []).2 ↔
          n ∈ targets g q ∧ getA indeg n = some 1 := by
        intro n
        rw [hz]
        simp [List.mem_filter]
      have hbridge : ∀ n ∈ keysOf g,
          (getA indeg n = some 1 ↔ (unproc g processed n).length = 1) := by
        intro n hn
        rw [hinv.val n hn]
        constructor
        · intro h
          have h' := Option.some.inj h
          exact_mod_cast h'
        · intro h
          rw [h]
          rfl
      have hred : kahnLoop g (fuel + 1) (q :: rest) indeg processed
          = kahnLoop g fuel (rest ++ (decTargets (targets g q) indeg []).2)
              (decTargets (targets g q) indeg []).1 (processed ++ [q]) := by
        rw [kahnLoop]
      rw [hred]
      have hq_self : q ∉ targets g q := hwf.self_not_target q
      refine ih (rest ++ (decTargets (targets g q) indeg []).2)
        (processed ++ [q]) (decTargets (targets g q) indeg []).1 ?_ ?_
      · constructor
        · rw [hk, hinv.keys]
        · -- val
          intro n hn
          rw [hval n]
          by_cases hnts : n ∈ targets g q
          · rw [if_pos hnts, hinv.val n hn]
            have h2 := (hstep_ts n hnts).2
            have h3 : ((unproc g processed n).length : Int) - 1
                = ((unproc g (processed ++ [q]) n).length : Int) := by
              omega
            show some (((unproc g processed n).length : Int) - 1)
                = some (((unproc g (processed ++ [q]) n).length : Int))
            rw [h3]
          · rw [if_neg hnts, hinv.val n hn,
              unproc_append_of_not_edge hwf hnts processed]
        · -- proc_sub
          intro x hx
          rcases List.mem_append.mp hx with h | h
          · exact hinv.proc_sub x h
          · simp only [List.mem_singleton] at h
            subst h
            exact hq_keys
        · -- proc_nodup
          rw [List.nodup_append]
          exact ⟨hinv.proc_nodup, List.nodup_singleton q,
            by intro x hx; simp only [List.mem_singleton]; intro hc; subst hc
               exact hq_notproc hx⟩
        · -- pend_sub
          intro x hx
          rcases List.mem_append.mp hx with h | h
          · exact hinv.pend_sub x (List.mem_cons_of_mem _ h)
          · exact hts_sub x ((hzeros_mem x).mp h).1
        · -- pend_nodup
          rw [List.nodup_append]
          refine ⟨hrest_nodup, ?_, ?_⟩
          · rw [hz]
            simp only [List.nil_append]
            exact hts_nodup.filter _
          · intro x hx
            intro hc
            exact (hts_not_old x ((hzeros_mem x).mp hc).1).2 (List.mem_cons_of_mem _ hx)
        · -- disj
          intro x hx
          rcases List.mem_append.mp hx with h | h
          · intro hc
            rcases List.mem_append.mp hc with h' | h'
            · exact hinv.disj x (List.mem_cons_of_mem _ h) h'
            · simp only [List.mem_singleton] at h'
              subst h'
              exact hq_notrest h
          · intro hc
            obtain ⟨hxts, -⟩ := (hzeros_mem x).mp h
            rcases List.mem_append.mp hc with h' | h'
            · exact (hts_not_old x hxts).1 h'
            · simp only [List.mem_singleton] at h'
              subst h'
              exact hq_self hxts
        · -- mem_iff
          intro n hn
          by_cases hnq : n = q
          · have hnpend : n ∈ q :: rest := by rw [hnq]; exact List.mem_cons_self _ _
            have hq_done : unproc g processed n = [] :=
              (hinv.mem_iff n hn).mp (Or.inr hnpend)
            have hnadd : ¬ EdgeOf g q n := by rw [hnq]; exact hq_self
            rw [unproc_append_of_not_edge hwf hnadd processed, hq_done]
            constructor
            · intro
              rfl
            · intro
              exact Or.inl (List.mem_append.mpr (Or.inr (by simp [hnq])))
          · by_cases hnts : n ∈ targets g q
            · obtain ⟨hnproc, hnpend⟩ := hts_not_old n hnts
              have h2 := (hstep_ts n hnts).2
              constructor
              · intro hmem
                rcases hmem with h | h
                · rcases List.mem_append.mp h with h' | h'
                  · exact absurd h' hnproc
                  · simp only [List.mem_singleton] at h'
                    exact absurd h' hnq
                · rcases List.mem_append.mp h with h' | h'
                  · exact absurd (List.mem_cons_of_mem _ h') hnpend
                  · obtain ⟨-, hval1⟩ := (hzeros_mem n).mp h'
                    have hlen1 := (hbridge n hn).mp hval1
                    have hlen0 : (unproc g (processed ++ [q]) n).length = 0 := by omega
                    exact List.eq_nil_of_length_eq_zero hlen0
              · intro hemp
                have hlen0 : (unproc g (processed ++ [q]) n).length = 0 := by
                  rw [hemp]
                  rfl
                exact Or.inr (List.mem_append.mpr (Or.inr ((hzeros_mem n).mpr
                  ⟨hnts, (hbridge n hn).mpr (by omega)⟩)))
            · rw [unproc_append_of_not_edge hwf hnts processed]
              have hbase := hinv.mem_iff n hn
              constructor
              · intro hmem
                rcases hmem with h | h
                · rcases List.mem_append.mp h with h' | h'
                  · exact hbase.mp (Or.inl h')
                  · simp only [List.mem_singleton] at h'
                    exact absurd h' hnq
                · rcases List.mem_append.mp h with h' | h'
                  · exact hbase.mp (Or.inr (List.mem_cons_of_mem _ h'))
                  · exact absurd ((hzeros_mem n).mp h').1 hnts
              · intro hemp
                rcases hbase.mpr hemp with h | h
                · exact Or.inl (List.mem_append.mpr (Or.inl h))
                · rcases List.mem_cons.mp h with h' | h'
                  · exact absurd h' hnq
                  · exact Or.inr (List.mem_append.mpr (Or.inl h'))
      · simp only [List.length_append, List.length_singleton]
        omega

end DAG

end KahnInvariant

section TopoSort

variable {K : Type u} {V : Type v} [DecidableEq K]

theorem getA_map_keyfun {B : Type w} (l : List (K × A)) (f : K → B) (n : K) :
    getA (l.map (fun p => (p.1, f p.1))) n = (getA l n).map (fun _ => f n) := by
  induction l with
  | nil => simp [getA]
  | cons p rest ih =>
    obtain ⟨k, a⟩ := p
    by_cases hk : n = k
    · subst hk; simp [getA]
    · simp [getA, hk, ih]

namespace DAG

theorem kahnInv_init {g : DAG K V} (hwf : WF g) :
    KahnInv g
      (((g.nodes.map (fun p => (p.1, (inDegOf g p.1 : Int)))).filter
          (fun e => e.2 = 0)).map Prod.fst)
      [] (g.nodes.map (fun p => (p.1, (inDegOf g p.1 : Int)))) := by
  have hkeys0 : (g.nodes.map (fun p => (p.1, (inDegOf g p.1 : Int)))).map Prod.fst
      = keysOf g := by
    simp [keysOf]
  have hget0 : ∀ n ∈ keysOf g,
      getA (g.nodes.map (fun p => (p.1, (inDegOf g p.1 : Int)))) n
        = some ((inDegOf g n : Int)) := by
    intro n hn
    rw [getA_map_keyfun g.nodes (fun k => (inDegOf g k : Int)) n]
    rcases Option.isSome_iff_exists.mp ((getA_isSome_iff g.nodes n).mpr hn) with ⟨v, hv⟩
    rw [hv]
    rfl
  constructor
  · exact hkeys0
  · intro n hn
    rw [hget0 n hn, unproc_nil, inDegOf_eq_length_predsList]
  · intro x hx; simp at hx
  · exact List.nodup_nil
  · intro x hx
    rcases List.mem_map.mp hx with ⟨e, he, rfl⟩
    have := List.mem_of_mem_filter he
    have : e.1 ∈ (g.nodes.map (fun p => (p.1, (inDegOf g p.1 : Int)))).map Prod.fst :=
      List.mem_map_of_mem Prod.fst this
    rwa [hkeys0] at this
  · have hnd : ((g.nodes.map (fun p => (p.1, (inDegOf g p.1 : Int)))).map Prod.fst).Nodup := by
      rw [hkeys0]; exact hwf.nodup
    exact hnd.sublist ((List.filter_sublist _).map Prod.fst)
  · intro x hx
    exact List.not_mem_nil x
  · intro n hn
    rw [unproc_nil]
    constructor
    · intro hq0
      have hq : n ∈ ((g.nodes.map (fun p => (p.1, (inDegOf g p.1 : Int)))).filter
          (fun e => e.2 = 0)).map Prod.fst := by
        rcases hq0 with h | h
        · exact absurd h (List.not_mem_nil n)
        · exact h
      rcases List.mem_map.mp hq with ⟨e, he, rfl⟩
      obtain ⟨hemem, hez⟩ := List.mem_filter.mp he
      rcases List.mem_map.mp hemem with ⟨p, hp, rfl⟩
      have : inDegOf g p.1 = 0 := by
        simpa using hez
      have hlen : (predsList g p.1).length = 0 := by
        rw [← inDegOf_eq_length_predsList, this]
      exact List.eq_nil_of_length_eq_zero hlen
    · intro hnil
      refine Or.inr ?_
      have hdeg : inDegOf g n = 0 := by
        rw [inDegOf_eq_length_predsList, hnil]
        rfl
      rcases Option.isSome_iff_exists.mp ((getA_isSome_iff g.nodes n).mpr hn) with ⟨v, hv⟩
      have hmem : (n, v) ∈ g.nodes := getA_mem hv
      have : (n, (inDegOf g n : Int)) ∈
          g.nodes.map (fun p => (p.1, (inDegOf g p.1 : Int))) := by
        rcases List.mem_map.mp (List.mem_map_of_mem
          (fun p : K × V => (p.1, (inDegOf g p.1 : Int))) hmem) with ⟨e, he, heq⟩
        exact List.mem_map_of_mem _ hmem
      refine List.mem_map_of_mem Prod.fst (List.mem_filter.mpr ⟨this, ?_⟩)
      simp [hdeg]

/-- On a well-formed acyclic graph, `topologicalSort` succeeds and the order it
returns has exactly one entry per node. -/
theorem topologicalSort_complete {g : DAG K V} (hwf : WF g) (hacy : Acyclic g) :
    ∃ ord, topologicalSort g = .ok ord ∧ ord.length = g.size ∧
      ord.Nodup ∧ (∀ n, n ∈ ord ↔ n ∈ keysOf g) := by
  have hklen : (keysOf g).length = g.size := by
    simp [keysOf, size]
  obtain ⟨hnodup, hmem⟩ := kahnLoop_spec hwf hacy (g.size + 1)
    (((g.nodes.map (fun p => (p.1, (inDegOf g p.1 : Int)))).filter
        (fun e => e.2 = 0)).map Prod.fst)
    [] (g.nodes.map (fun p => (p.1, (inDegOf g p.1 : Int))))
    (kahnInv_init hwf) (by simp [hklen])
  set ord := kahnLoop g (g.size + 1)
    (((g.nodes.map (fun p => (p.1, (inDegOf g p.1 : Int)))).filter
        (fun e => e.2 = 0)).map Prod.fst)
    (g.nodes.map (fun p => (p.1, (inDegOf g p.1 : Int)))) [] with hord
  have hlen : ord.length = g.size := by
    have h1 : ord.length ≤ (keysOf g).length :=
      List.Subperm.length_le
        (List.subperm_of_subset hnodup (fun x hx => (hmem x).mp hx))
    have h2 : (keysOf g).length ≤ ord.length :=
      List.Subperm.length_le
        (List.subperm_of_subset hwf.nodup (fun x hx => (hmem x).mpr hx))
    omega
  refine ⟨ord, ?_, hlen, hnodup, hmem⟩
  have hts : topologicalSort g =
      if ord.length ≠ g.size then Except.error DAGError.notADAG else Except.ok ord := rfl
  rw [hts, if_neg (by rw [hlen]; exact fun h => h rfl)]

end DAG

end TopoSort

section RoundTrip

variable {K : Type u} {V : Type v} [DecidableEq K]

theorem getA_append (l₁ l₂ : List (K × A)) (k : K) :
    getA (l₁ ++ l₂) k = match getA l₁ k with
      | some v => some v
      | none => getA l₂ k := by
  induction l₁ with
  | nil => simp [getA]
  | cons p rest ih =>
    obtain ⟨k', a⟩ := p
    by_cases hk : k = k'
    · subst hk; simp [getA]
    · simp [getA, hk, ih]

theorem getA_middle (pre suf : List (K × A)) {a : K} (d : A)
    (hnp : a ∉ pre.map Prod.fst) :
    getA (pre ++ (a, d) :: suf) a = some d := by
  rw [getA_append]
  rw [(getA_eq_none_iff pre a).mpr hnp]
  simp [getA]

theorem setA_middle (pre suf : List (K × A)) {a : K} (d v : A)
    (hnp : a ∉ pre.map Prod.fst) :
    setA (pre ++ (a, d) :: suf) a v = pre ++ (a, v) :: suf := by
  induction pre with
  | nil => simp [setA]
  | cons p rest ih =>
    obtain ⟨k', b⟩ := p
    have hk : ¬ a = k' := by
      intro hc
      exact hnp (by simp [hc])
    have hnp' : a ∉ rest.map Prod.fst := fun hc => hnp (by simp [hc])
    simp [setA, hk, ih hnp']

namespace DAG

theorem addNodesE_spec (ns : List (K × V)) :
    ∀ (h : DAG K V),
      (h.nodes.map Prod.fst ++ ns.map Prod.fst).Nodup →
      h.adj.map Prod.fst = h.nodes.map Prod.fst →
      addNodesE h ns = .ok ⟨h.nodes ++ ns, h.adj ++ ns.map (fun p => (p.1, []))⟩ := by
  induction ns with
  | nil =>
    intro h _ _
    show Except.ok h = _
    cases h with
    | mk nodes adj => simp
  | cons p rest ih =>
    intro h hnd hkeys
    obtain ⟨k, v⟩ := p
    have hknot : k ∉ h.nodes.map Prod.fst := by
      rw [List.nodup_append] at hnd
      intro hc
      exact hnd.2.2 hc (by simp)
    have hn : hasNode h k = false := by
      unfold hasNode
      rw [(getA_eq_none_iff h.nodes k).mpr hknot]
      rfl
    have hadd : addNode h k v =
        (⟨h.nodes ++ [(k, v)], h.adj ++ [(k, [])]⟩, none) := by
      unfold addNode
      rw [hn]
      simp only [Bool.false_eq_true, if_false]
      rw [setA_of_absent _ _ _ ((getA_eq_none_iff h.nodes k).mpr hknot),
        setA_of_absent _ _ _ ((getA_eq_none_iff h.adj k).mpr (hkeys ▸ hknot))]
    show (match addNode h k v with
      | (g', none) => addNodesE g' rest
      | (_, some e) => Except.error e) = _
    rw [hadd]
    have hres := ih ⟨h.nodes ++ [(k, v)], h.adj ++ [(k, [])]⟩
      (by simpa using hnd) (by simp [hkeys])
    show addNodesE ⟨h.nodes ++ [(k, v)], h.adj ++ [(k, [])]⟩ rest = _
    rw [hres]
    simp

theorem addEdgesE_append (l₁ l₂ : List (K × K)) :
    ∀ (h h' : DAG K V), addEdgesE h l₁ = .ok h' →
      addEdgesE h (l₁ ++ l₂) = addEdgesE h' l₂ := by
  induction l₁ with
  | nil =>
    intro h h' heq
    cases heq
    rfl
  | cons p rest ih =>
    intro h h' heq
    obtain ⟨a, b⟩ := p
    show (match addEdge h a b with
      | (g', none) => addEdgesE g' (rest ++ l₂)
      | (_, some e) => Except.error e) = _
    cases hab : addEdge h a b with
    | mk g₁ err =>
      cases err with
      | none =>
        have heq' : addEdgesE g₁ rest = .ok h' := by
          unfold addEdgesE at heq
          rw [hab] at heq
          exact heq
        exact ih g₁ h' heq'
      | some e =>
        unfold addEdgesE at heq
        rw [hab] at heq
        simp at heq

/-- Re-inserting one source node's serialized out-edges into a partially
rebuilt graph restores that source's full target list. -/
theorem addEdgesE_source {g : DAG K V} (hwf : WF g) (hacy : Acyclic g)
    {a : K} {full : List K} (hafull : getA g.adj a = some full) :
    ∀ (todo done : List K) (pre suf : List (K × List K)),
      full = done ++ todo →
      a ∉ pre.map Prod.fst →
      WF (⟨g.nodes, pre ++ (a, done) :: suf⟩ : DAG K V) →
      (∀ x y, EdgeOf (⟨g.nodes, pre ++ (a, done) :: suf⟩ : DAG K V) x y → EdgeOf g x y) →
      addEdgesE (⟨g.nodes, pre ++ (a, done) :: suf⟩ : DAG K V)
          (todo.map (fun t => (a, t)))
        = .ok ⟨g.nodes, pre ++ (a, full) :: suf⟩ := by
  have hamem : a ∈ keysOf g := by
    have : a ∈ g.adj.map Prod.fst :=
      List.mem_map_of_mem Prod.fst (getA_mem hafull)
    rwa [hwf.keys_eq] at this
  have hfullsub : ∀ t ∈ full, t ∈ keysOf g := by
    intro t ht
    refine @WF.targets_sub K V _ g hwf a t ?_
    unfold targets
    rw [hafull]
    simpa using ht
  have hfullnodup : full.Nodup := hwf.targets_nodup _ (getA_mem hafull)
  have hafullne : a ∉ full := hwf.no_self _ (getA_mem hafull)
  intro todo
  induction todo with
  | nil =>
    intro done pre suf hfull hnp _ _
    rw [List.append_nil] at hfull
    subst hfull
    rfl
  | cons t todo ih =>
    intro done pre suf hfull hnp hwfc hsub
    have htfull : t ∈ full := by rw [hfull]; simp
    have htmem : t ∈ keysOf g := hfullsub t htfull
    have hat : a ≠ t := fun hc => hafullne (hc ▸ htfull)
    have htdone : t ∉ done := by
      rw [hfull, List.nodup_append] at hfullnodup
      intro hc
      exact hfullnodup.2.2 hc (by simp)
    have hnodesc : (⟨g.nodes, pre ++ (a, done) :: suf⟩ : DAG K V).nodes = g.nodes := rfl
    have hha : hasNode (⟨g.nodes, pre ++ (a, done) :: suf⟩ : DAG K V) a = true := by
      unfold hasNode
      rw [hnodesc]
      exact (hasNode_iff (g := g)).mpr hamem
    have hht : hasNode (⟨g.nodes, pre ++ (a, done) :: suf⟩ : DAG K V) t = true := by
      unfold hasNode
      rw [hnodesc]
      exact (hasNode_iff (g := g)).mpr htmem
    have htgts : targets (⟨g.nodes, pre ++ (a, done) :: suf⟩ : DAG K V) a = done := by
      unfold targets
      show (getA (pre ++ (a, done) :: suf) a).getD [] = done
      rw [getA_middle pre suf done hnp]
      rfl
    have hedgegat : EdgeOf g a t := by
      unfold EdgeOf targets
      rw [hafull]
      simpa using htfull
    have hpath : hasPathB (⟨g.nodes, pre ++ (a, done) :: suf⟩ : DAG K V) t a = false := by
      by_contra hc
      have hc' : hasPathB (⟨g.nodes, pre ++ (a, done) :: suf⟩ : DAG K V) t a = true := by
        cases h : hasPathB (⟨g.nodes, pre ++ (a, done) :: suf⟩ : DAG K V) t a
        · exact absurd h hc
        · rfl
      have hkc : keysOf (⟨g.nodes, pre ++ (a, done) :: suf⟩ : DAG K V) = keysOf g := rfl
      have hr : Reach (⟨g.nodes, pre ++ (a, done) :: suf⟩ : DAG K V) t a :=
        (hasPathB_correct hwfc (by rw [hkc]; exact htmem)).mp hc'
      exact hacy a t hedgegat (Reach.mono hsub hr)
    have hgeq : addEdgeGraph (⟨g.nodes, pre ++ (a, done) :: suf⟩ : DAG K V) a t
        = ⟨g.nodes, pre ++ (a, done ++ [t]) :: suf⟩ := by
      unfold addEdgeGraph
      rw [htgts]
      show (⟨g.nodes, setA (pre ++ (a, done) :: suf) a (done ++ [t])⟩ : DAG K V) = _
      rw [setA_middle pre suf done (done ++ [t]) hnp]
    have hstep : addEdge (⟨g.nodes, pre ++ (a, done) :: suf⟩ : DAG K V) a t
        = (⟨g.nodes, pre ++ (a, done ++ [t]) :: suf⟩, none) := by
      rw [addEdge_success hha hht hat (by rw [htgts]; exact htdone) hpath, hgeq]
    show (match addEdge (⟨g.nodes, pre ++ (a, done) :: suf⟩ : DAG K V) a t with
      | (g', none) => addEdgesE g' (todo.map (fun t => (a, t)))
      | (_, some e) => Except.error e) = _
    rw [hstep]
    have hwfc' : WF (⟨g.nodes, pre ++ (a, done ++ [t]) :: suf⟩ : DAG K V) := by
      have h' := hwfc.addEdge a t
      rwa [hstep] at h'
    have hsub' : ∀ x y,
        EdgeOf (⟨g.nodes, pre ++ (a, done ++ [t]) :: suf⟩ : DAG K V) x y →
        EdgeOf g x y := by
      intro x y he
      rw [← hgeq] at he
      rcases (EdgeOf_addEdgeGraph hwfc hha x y).mp he with h' | h'
      · exact hsub x y h'
      · obtain ⟨hx, hy⟩ := h'
        subst hx
        subst hy
        exact hedgegat
    exact ih (done ++ [t]) pre suf (by rw [hfull]; simp) hnp hwfc' hsub'

end DAG

end RoundTrip

section RoundTrip2

variable {K : Type u} {V : Type v} [DecidableEq K]

namespace DAG

theorem WF_partial {g : DAG K V} (hwf : WF g)
    (pre suf : List (K × List K)) (hsplit : g.adj = pre ++ suf) :
    WF (⟨g.nodes, pre ++ suf.map (fun e => (e.1, []))⟩ : DAG K V) := by
  have hkeys : (pre ++ suf.map (fun e => (e.1, ([] : List K)))).map Prod.fst
      = g.adj.map Prod.fst := by
    rw [hsplit]
    simp [Function.comp]
  constructor
  · show (pre ++ suf.map (fun e => (e.1, ([] : List K)))).map Prod.fst = _
    rw [hkeys, hwf.keys_eq]
  · exact hwf.nodup
  · intro e he
    rcases List.mem_append.mp he with h | h
    · exact hwf.targets_nodup e (by rw [hsplit]; exact List.mem_append.mpr (Or.inl h))
    · rcases List.mem_map.mp h with ⟨e₀, -, rfl⟩
      simp
  · intro e he t ht
    rcases List.mem_append.mp he with h | h
    · exact hwf.targets_mem e (by rw [hsplit]; exact List.mem_append.mpr (Or.inl h)) t ht
    · rcases List.mem_map.mp h with ⟨e₀, -, rfl⟩
      simp at ht
  · intro e he
    rcases List.mem_append.mp he with h | h
    · exact hwf.no_self e (by rw [hsplit]; exact List.mem_append.mpr (Or.inl h))
    · rcases List.mem_map.mp h with ⟨e₀, -, rfl⟩
      simp

theorem EdgeOf_partial {g : DAG K V} (hwf : WF g)
    (pre suf : List (K × List K)) (hsplit : g.adj = pre ++ suf) :
    ∀ x y, EdgeOf (⟨g.nodes, pre ++ suf.map (fun e => (e.1, []))⟩ : DAG K V) x y →
      EdgeOf g x y := by
  intro x y he
  unfold EdgeOf targets at he ⊢
  show y ∈ (getA g.adj x).getD []
  rw [hsplit, getA_append]
  rw [show (⟨g.nodes, pre ++ suf.map (fun e => (e.1, []))⟩ : DAG K V).adj
    = pre ++ suf.map (fun e => (e.1, [])) from rfl, getA_append] at he
  cases hget : getA pre x with
  | some ts =>
    rw [hget] at he
    simpa using he
  | none =>
    rw [hget] at he
    simp only at he
    rw [getA_map_snd suf (fun _ _ => ([] : List K)) x] at he
    cases h2 : getA suf x with
    | none => rw [h2] at he; simp at he
    | some ts => rw [h2] at he; simp at he

/-- Re-inserting the serialized edges of the suffix `suf` of the adjacency
list, starting from the graph whose suffix sources have no edges yet, restores
the graph. -/
theorem addEdgesE_rebuild {g : DAG K V} (hwf : WF g) (hacy : Acyclic g) :
    ∀ (suf pre : List (K × List K)), g.adj = pre ++ suf →
      addEdgesE (⟨g.nodes, pre ++ suf.map (fun e => (e.1, []))⟩ : DAG K V)
          (suf.flatMap (fun e => e.2.map (fun t => (e.1, t))))
        = .ok g := by
  intro suf
  induction suf with
  | nil =>
    intro pre hsplit
    show Except.ok (⟨g.nodes, pre ++ []⟩ : DAG K V) = Except.ok g
    rw [List.append_nil] at hsplit ⊢
    rw [← hsplit]
  | cons e suf ih =>
    intro pre hsplit
    obtain ⟨a, ts⟩ := e
    have hadjnd : (g.adj.map Prod.fst).Nodup := by
      rw [hwf.keys_eq]; exact hwf.nodup
    have hnp : a ∉ pre.map Prod.fst := by
      rw [hsplit] at hadjnd
      simp only [List.map_append, List.map_cons, List.nodup_append] at hadjnd
      intro hc
      exact hadjnd.2.2 hc (by simp)
    have hafull : getA g.adj a = some ts := by
      rw [hsplit]
      exact getA_middle pre suf ts hnp
    have hflat : ((a, ts) :: suf).flatMap (fun e => e.2.map (fun t => (e.1, t)))
        = ts.map (fun t => (a, t)) ++ suf.flatMap (fun e => e.2.map (fun t => (e.1, t))) := by
      simp
    have hshape : pre ++ ((a, ts) :: suf).map (fun e => (e.1, []))
        = pre ++ (a, ([] : List K)) :: suf.map (fun e => (e.1, [])) := by
      simp
    have hwfc : WF (⟨g.nodes, pre ++ (a, ([] : List K)) :: suf.map (fun e => (e.1, []))⟩
        : DAG K V) := by
      have := WF_partial hwf pre ((a, ts) :: suf) hsplit
      rwa [hshape] at this
    have hsubc : ∀ x y, EdgeOf (⟨g.nodes,
        pre ++ (a, ([] : List K)) :: suf.map (fun e => (e.1, []))⟩ : DAG K V) x y →
        EdgeOf g x y := by
      have := EdgeOf_partial hwf pre ((a, ts) :: suf) hsplit
      rwa [hshape] at this
    have hsrc := addEdgesE_source hwf hacy hafull ts [] pre
      (suf.map (fun e => (e.1, []))) (by simp) hnp hwfc hsubc
    show addEdgesE (⟨g.nodes, pre ++ ((a, ts) :: suf).map (fun e => (e.1, []))⟩ : DAG K V)
      (((a, ts) :: suf).flatMap (fun e => e.2.map (fun t => (e.1, t)))) = Except.ok g
    rw [hflat, hshape]
    rw [addEdgesE_append _ _ _ _ hsrc]
    have hresplit : g.adj = (pre ++ [(a, ts)]) ++ suf := by
      rw [hsplit]; simp
    have := ih (pre ++ [(a, ts)]) hresplit
    rw [show (pre ++ [(a, ts)]) ++ suf.map (fun e => (e.1, []))
      = pre ++ (a, ts) :: suf.map (fun e => (e.1, [])) from by simp] at this
    exact this

/-- `new DAG(dag.serialize())` (= `DAG.from`, = `clone`) rebuilds the graph
exactly, for any well-formed acyclic graph. -/
theorem fromSerialized_roundtrip {g : DAG K V} (hwf : WF g) (hacy : Acyclic g) :
    fromSerialized (serialize g) = .ok g := by
  unfold fromSerialized ofOptions serialize
  have hnodes := addNodesE_spec g.nodes empty (by simpa using hwf.nodup) rfl
  have hempty : (empty : DAG K V).nodes = [] := rfl
  have hadjmap : ([] : List (K × List K)) ++ g.nodes.map (fun p => (p.1, ([] : List K)))
      = g.adj.map (fun e => (e.1, ([] : List K))) := by
    have h1 : g.nodes.map (fun p => (p.1, ([] : List K)))
        = (g.nodes.map Prod.fst).map (fun k => (k, ([] : List K))) := by
      simp [Function.comp]
    have h2 : g.adj.map (fun e => (e.1, ([] : List K)))
        = (g.adj.map Prod.fst).map (fun k => (k, ([] : List K))) := by
      simp [Function.comp]
    rw [h1, h2, hwf.keys_eq]
    simp
  have hedges := addEdgesE_rebuild hwf hacy g.adj [] rfl
  show (do
    let g₀ ← addNodesE empty (nodesList g)
    addEdgesE g₀ (edgesList g)) = Except.ok g
  rw [show nodesList g = g.nodes from rfl, hnodes]
  show addEdgesE (⟨(empty : DAG K V).nodes ++ g.nodes,
      (empty : DAG K V).adj ++ g.nodes.map (fun p => (p.1, []))⟩ : DAG K V)
    (edgesList g) = Except.ok g
  rw [show ((empty : DAG K V).nodes ++ g.nodes : List (K × V)) = g.nodes from by
      rw [hempty]; simp]
  rw [show ((empty : DAG K V).adj ++ g.nodes.map (fun p => (p.1, []))
      : List (K × List K)) = [] ++ g.nodes.map (fun p => (p.1, [])) from rfl]
  rw [hadjmap]
  rw [show g.adj.map (fun e => (e.1, ([] : List K)))
      = [] ++ g.adj.map (fun e => (e.1, ([] : List K))) from by simp]
  exact hedges

end DAG

end RoundTrip2

section GalPlayDefs

namespace GalPlay

/-- `NodeId` from the shared type declarations. -/
abbrev NodeId := String

/-- `VariableValue = string | number | boolean`.  A JS number is modelled as
`Option ℚ`: `some q` is a finite double (overflow and rounding of doubles are
outside the scripts' range of use), `none` is `NaN`. -/
inductive VariableValue where
  | str (s : String)
  | num (q : Option ℚ)
  | bool (b : Bool)
  deriving DecidableEq

/-- `VariableOperation = 'set' | 'add' | 'subtract' | 'toggle'`. -/
inductive VariableOperation where
  | set
  | add
  | subtract
  | toggle
  deriving DecidableEq

/-- `ConditionOperator = '==' | '!=' | '>' | '<' | '>=' | '<='`. -/
inductive ConditionOperator where
  | eq
  | ne
  | gt
  | lt
  | ge
  | le
  deriving DecidableEq

/-- `Condition` (`variable` is a Lean keyword, so the field is `varKey`). -/
structure Condition where
  varKey : String
  operator : ConditionOperator
  value : VariableValue
  deriving DecidableEq

/-- `Choice`; `effects` entries are the `{key, value}` records. -/
structure Choice where
  text : String
  targetNodeId : NodeId
  conditions : Option (List Condition)
  effects : Option (List (String × VariableValue))
  deriving DecidableEq

/-- One branch of a `ConditionalTransition`. -/
structure CondBranch where
  conditions : List Condition
  targetNodeId : NodeId
  deriving DecidableEq

/-- `Transition` (`end` is a Lean keyword, so that constructor is `ending`;
the `endingType` enum of four literals is kept as its string). -/
inductive Transition where
  | auto (targetNodeId : NodeId)
  | choice (prompt : Option String) (choices : List Choice)
  | conditional (branches : List CondBranch) (fallbackNodeId : Option NodeId)
  | ending (endingName : Option String) (endingType : Option String)
  deriving DecidableEq

/-- `SceneCommand` (all thirteen command kinds; fields not read by the engine
are kept only where cheap, asset paths are strings). -/
inductive SceneCommand where
  | dialogue (characterId : String) (expression : Option String) (text : String)
      (voice : Option String)
  | narration (text : String)
  | showCharacter (characterId : String) (expression : String) (position : String)
  | hideCharacter (characterId : String)
  | setBackground (image : String)
  | playBGM (audio : String)
  | stopBGM
  | playSE (audio : String)
  | playVoice (audio : String) (characterId : Option String)
  | setVariable (key : String) (value : VariableValue)
      (operation : Option VariableOperation)
  | showEffect (effect : String)
  | wait (duration : Nat)
  | aiGenerate (prompt : String)
  deriving DecidableEq

/-- `SceneNodeData` (the free-form `metadata` record, which no engine or
validator code reads, is omitted). -/
structure SceneNodeData where
  title : String
  description : Option String
  commands : List SceneCommand
  transition : Option Transition
  tags : Option (List String)
  deriving DecidableEq

/-- `CharacterExpression`. -/
structure CharacterExpression where
  name : String
  image : String
  deriving DecidableEq

/-- `Character`. -/
structure Character where
  id : String
  name : String
  nameColor : Option String
  avatar : Option String
  expressions : List CharacterExpression
  deriving DecidableEq

/-- `VariableDefinition`. -/
structure VariableDefinition where
  key : String
  defaultValue : VariableValue
  description : Option String
  deriving DecidableEq

/-- `GameScript`; `nodes` entries are the `{id, value}` records (`variables`
is a reserved token in Lean, so that field is `vars`). -/
structure GameScript where
  id : String
  title : String
  version : String
  author : Option String
  characters : List Character
  vars : List VariableDefinition
  entryNodeId : NodeId
  nodes : List (NodeId × SceneNodeData)
  edges : List (NodeId × NodeId)
  deriving DecidableEq

/-- One entry of `GameState.dialogueHistory`. -/
structure HistoryEntry where
  characterId : Option String
  text : String
  timestamp : Nat
  deriving DecidableEq

/-- `GameState`.  The `variables` record is an insertion-ordered string map
(`variables` is a reserved token in Lean, so the field is `vars`). -/
structure GameState where
  currentNodeId : NodeId
  commandIndex : Nat
  vars : List (String × VariableValue)
  visitedNodes : List NodeId
  dialogueHistory : List HistoryEntry
  savedAt : Option Nat
  deriving DecidableEq

/-- The events of `GalEventMap`, payloads included.  A `choiceRequest` carries
each choice with its `visible` flag; the optional raw `error` cause of an
error event (unused by the engine itself) is omitted. -/
inductive GalEvent where
  | command (cmd : SceneCommand) (index : Nat) (nodeId : NodeId)
  | choiceRequest (prompt : Option String) (choices : List (Choice × Bool))
      (nodeId : NodeId)
  | nodeEnd (nodeId : NodeId)
  | ending (endingName : Option String) (endingType : Option String) (nodeId : NodeId)
  | autoAdvance (fromNodeId : NodeId) (toNodeId : NodeId)
  | stateChange (state : GameState)
  | error (message : String)
  deriving DecidableEq

/-- The `GalPlayDAG` class.  Each method is modelled as a function from the
engine to the engine after the call paired with the list of events it emitted,
in emission order (the listener registry `on`/`off`/`emit` delivers exactly
these events synchronously).  `now` stands for the ambient `Date.now()` clock
read during the call. -/
structure Engine where
  dag : DAG NodeId SceneNodeData
  state : GameState
  characters : List (String × Character)
  variableDefs : List (String × VariableDefinition)
  playing : Bool
  paused : Bool
  ended : Bool
  now : Nat

/-- Whitespace for `Number(string)` trimming. -/
def isWS (c : Char) : Bool := c = ' ' ∨ c = '\t' ∨ c = '\n' ∨ c = '\r'

def trimWS (cs : List Char) : List Char :=
  ((cs.dropWhile isWS).reverse.dropWhile isWS).reverse

def digitsToNat (cs : List Char) : Option Nat :=
  cs.foldl
    (fun acc c =>
      match acc with
      | none => none
      | some n => if c.isDigit then some (n * 10 + (c.toNat - 48)) else none)
    (some 0)

/-- Models the JS `Number(string)` coercion on the decimal literals scripts
use: trimmed empty string is 0, an optional sign followed by digits with at
most one decimal point is its value, anything else is `NaN` (`none`). -/
def jsStrToNumber (s : String) : Option ℚ :=
  let cs := trimWS s.data
  if cs = [] then some 0
  else
    let isNeg : Bool := match cs with
      | '-' :: _ => true
      | _ => false
    let body : List Char := match cs with
      | '-' :: r => r
      | '+' :: r => r
      | _ => cs
    match body.splitOn '.' with
    | [ip] =>
        if ip = [] then none
        else (digitsToNat ip).map (fun n => if isNeg then -(n : ℚ) else (n : ℚ))
    | [ip, fp] =>
        if ip = [] ∧ fp = [] then none
        else
          match digitsToNat ip, digitsToNat fp with
          | some i, some f =>
              let v : ℚ := (i : ℚ) + (f : ℚ) / ((10 : ℚ) ^ fp.length)
              some (if isNeg then -v else v)
          | _, _ => none
    | _ => none

/-- `Number(v)` on a `VariableValue`. -/
def toNumber : VariableValue → Option ℚ
  | .str s => jsStrToNumber s
  | .num q => q
  | .bool b => some (if b then 1 else 0)

/-- `Number(v)` with `undefined` (an unbound variable) mapping to `NaN`. -/
def toNumberU : Option VariableValue → Option ℚ
  | none => none
  | some v => toNumber v

/-- JS `==` between two numbers: `NaN` equals nothing. -/
def numEqB : Option ℚ → Option ℚ → Bool
  | some a, some b => a = b
  | _, _ => false

/-- JS loose equality `==` restricted to `string | number | boolean`: same
types compare directly, booleans coerce to numbers, and a number–string pair
compares numerically. -/
def looseEq : VariableValue → VariableValue → Bool
  | .str a, .str b => a = b
  | .num a, .num b => numEqB a b
  | .bool a, .bool b => a = b
  | .num a, .str s => numEqB a (jsStrToNumber s)
  | .str s, .num b => numEqB (jsStrToNumber s) b
  | .bool a, y => numEqB (some (if a then 1 else 0)) (toNumber y)
  | x, .bool b => numEqB (toNumber x) (some (if b then 1 else 0))

/-- JS `==` with a possibly-`undefined` left operand (an unbound variable is
loosely equal only to `null`/`undefined`, never to a `VariableValue`). -/
def looseEqU : Option VariableValue → VariableValue → Bool
  | none, _ => false
  | some v, w => looseEq v w

/-- JS ordering comparison: `false` whenever either side is `NaN`. -/
def numGtB : Option ℚ → Option ℚ → Bool
  | some a, some b => b < a
  | _, _ => false

def numLtB : Option ℚ → Option ℚ → Bool
  | some a, some b => a < b
  | _, _ => false

def numGeB : Option ℚ → Option ℚ → Bool
  | some a, some b => b ≤ a
  | _, _ => false

def numLeB : Option ℚ → Option ℚ → Bool
  | some a, some b => a ≤ b
  | _, _ => false

/-- JS truthiness of `this.state.variables[key]` (used by `toggle`). -/
def truthy : Option VariableValue → Bool
  | none => false
  | some (.str s) => ¬ s = ""
  | some (.num none) => false
  | some (.num (some q)) => ¬ q = 0
  | some (.bool b) => b

/-- `evaluateCondition`. -/
def evaluateCondition (vars : List (String × VariableValue)) (c : Condition) : Bool :=
  let current := getA vars c.varKey
  let target := c.value
  match c.operator with
  | .eq => looseEqU current target
  | .ne => !(looseEqU current target)
  | .gt => numGtB (toNumberU current) (toNumber target)
  | .lt => numLtB (toNumberU current) (toNumber target)
  | .ge => numGeB (toNumberU current) (toNumber target)
  | .le => numLeB (toNumberU current) (toNumber target)

/-- `evaluateConditions`: conjunctive over the list. -/
def evaluateConditions (vars : List (String × VariableValue))
    (conditions : List Condition) : Bool :=
  conditions.all (evaluateCondition vars)

/-- `evaluateChoiceVisible`. -/
def evaluateChoiceVisible (vars : List (String × VariableValue)) (choice : Choice) : Bool :=
  match choice.conditions with
  | none => true
  | some cs => if cs.length = 0 then true else evaluateConditions vars cs

/-- `applyVariable`. -/
def applyVariable (vars : List (String × VariableValue)) (key : String)
    (value : VariableValue) : VariableOperation → List (String × VariableValue)
  | .set => setA vars key value
  | .add =>
      match toNumber value with
      | some v => setA vars key (.num (some ((toNumberU (getA vars key)).getD 0 + v)))
      | none => setA vars key (.num none)
  | .subtract =>
      match toNumber value with
      | some v => setA vars key (.num (some ((toNumberU (getA vars key)).getD 0 - v)))
      | none => setA vars key (.num none)
  | .toggle => setA vars key (.bool (!truthy (getA vars key)))

/-- `getState` (the `structuredClone` deep copy is value copying here). -/
def getState (e : Engine) : GameState := e.state

/-- `executeCommand`: record dialogue/narration into history, apply a
`setVariable`, then emit the command event (with the pre-increment index). -/
def executeCommand (e : Engine) (cmd : SceneCommand) : Engine × List GalEvent :=
  let e₁ :=
    match cmd with
    | .dialogue cid _ text _ =>
        { e with state := { e.state with dialogueHistory :=
            e.state.dialogueHistory ++ [⟨some cid, text, e.now⟩] } }
    | .narration text =>
        { e with state := { e.state with dialogueHistory :=
            e.state.dialogueHistory ++ [⟨none, text, e.now⟩] } }
    | _ => e
  let e₂ :=
    match cmd with
    | .setVariable key value operation =>
        let newVars := applyVariable e₁.state.vars key value (operation.getD .set)
        { e₁ with state := { e₁.state with vars := newVars } }
    | _ => e₁
  (e₂, [.command cmd e.state.commandIndex e.state.currentNodeId])

/-- `jumpToNode`. -/
def jumpToNode (e : Engine) (targetId : NodeId) : Engine × List GalEvent :=
  if ¬ DAG.hasNode e.dag targetId then
    (e, [.error ("Target node not found: " ++ targetId)])
  else
    let visited :=
      if e.state.currentNodeId ∈ e.state.visitedNodes then e.state.visitedNodes
      else e.state.visitedNodes ++ [e.state.currentNodeId]
    let e' := { e with state := { e.state with
        visitedNodes := visited, currentNodeId := targetId, commandIndex := 0 } }
    (e', [.stateChange (getState e')])

/-- `doEnding`. -/
def doEnding (e : Engine) (endingName endingType : Option String) :
    Engine × List GalEvent :=
  let e' := { e with ended := true }
  (e', [.ending endingName endingType e'.state.currentNodeId])

/-- `handleAutoTransition`: the auto-advance event precedes the jump. -/
def handleAutoTransition (e : Engine) (targetId : NodeId) : Engine × List GalEvent :=
  let (e', evs) := jumpToNode e targetId
  (e', .autoAdvance e.state.currentNodeId targetId :: evs)

/-- `handleChoiceTransition`: annotate every choice with its visibility and
wait for `selectChoice`. -/
def handleChoiceTransition (e : Engine) (prompt : Option String)
    (choices : List Choice) : Engine × List GalEvent :=
  (e, [.choiceRequest prompt
    (choices.map (fun c => (c, evaluateChoiceVisible e.state.vars c)))
    e.state.currentNodeId])

/-- The `for (const branch of t.branches)` loop of
`handleConditionalTransition`, followed by the fallback check (`if
(t.fallbackNodeId)` is a JS truthiness test, so an empty-string fallback also
falls through to the error). -/
def condLoop (e : Engine) : List CondBranch → Option NodeId → Engine × List GalEvent
  | branch :: rest, fallback =>
      if evaluateConditions e.state.vars branch.conditions then
        jumpToNode e branch.targetNodeId
      else condLoop e rest fallback
  | [], fallback =>
      match fallback with
      | some f =>
          if ¬ f = "" then jumpToNode e f
          else (e, [.error ("No conditional branch matched and no fallback defined at node \"" ++ e.state.currentNodeId ++ "\"")])
      | none => (e, [.error ("No conditional branch matched and no fallback defined at node \"" ++ e.state.currentNodeId ++ "\"")])

/-- `handleTransition`. -/
def handleTransition (e : Engine) : Option Transition → Engine × List GalEvent
  | none =>
      match DAG.successors e.dag e.state.currentNodeId with
      | [t] => jumpToNode e t
      | [] => doEnding e none none
      | _ => (e, [.error ("Node \"" ++ e.state.currentNodeId ++ "\" has multiple successors but no transition defined")])
  | some (.auto target) => handleAutoTransition e target
  | some (.choice prompt choices) => handleChoiceTransition e prompt choices
  | some (.conditional branches fallback) => condLoop e branches fallback
  | some (.ending n ty) => doEnding e n ty

/-- `next`. -/
def next (e : Engine) : Engine × List GalEvent :=
  if e.ended then (e, [])
  else if e.paused then (e, [])
  else
    match DAG.getNodeValue e.dag e.state.currentNodeId with
    | none => (e, [.error ("Node not found: " ++ e.state.currentNodeId)])
    | some nodeData =>
        match nodeData.commands[e.state.commandIndex]? with
        | some cmd =>
            let (e₁, evs) := executeCommand e cmd
            let e₂ := { e₁ with state :=
              { e₁.state with commandIndex := e₁.state.commandIndex + 1 } }
            (e₂, evs ++ [.stateChange (getState e₂)])
        | none =>
            let (e', evs) := handleTransition e nodeData.transition
            (e', .nodeEnd e.state.currentNodeId :: evs)

/-- `selectChoice` (the JS index is a raw number, hence `Int`; the inner
`none` branch is unreachable because the index was range-checked). -/
def selectChoice (e : Engine) (choiceIndex : Int) : Engine × List GalEvent :=
  match DAG.getNodeValue e.dag e.state.currentNodeId with
  | none => (e, [.error "Current node is not a choice node"])
  | some nodeData =>
      match nodeData.transition with
      | some (.choice _ choices) =>
          let visibleChoices := choices.filter (evaluateChoiceVisible e.state.vars)
          if choiceIndex < 0 ∨ (visibleChoices.length : Int) ≤ choiceIndex then
            (e, [.error ("Invalid choice index: " ++ toString choiceIndex)])
          else
            match visibleChoices[choiceIndex.toNat]? with
            | none => (e, [])
            | some choice =>
                let e₁ :=
                  match choice.effects with
                  | none => e
                  | some effects =>
                      let newVars :=
                        effects.foldl (fun vs eff => setA vs eff.1 eff.2) e.state.vars
                      { e with state := { e.state with vars := newVars } }
                jumpToNode e₁ choice.targetNodeId
      | _ => (e, [.error "Current node is not a choice node"])

/-- `pause`. -/
def pause (e : Engine) : Engine := { e with paused := true }

/-- `resume`. -/
def resume (e : Engine) : Engine := { e with paused := false }

/-- `save`. -/
def save (e : Engine) : GameState := { getState e with savedAt := some e.now }

/-- `loadState`. -/
def loadState (e : Engine) (saved : GameState) : Engine × List GalEvent :=
  let e' := { e with state := saved, ended := false, paused := false }
  (e', [.stateChange (getState e')])

/-- `setVariable` (the external setter). -/
def setVariableExt (e : Engine) (key : String) (value : VariableValue) :
    Engine × List GalEvent :=
  let e' := { e with state :=
    { e.state with vars := setA e.state.vars key value } }
  (e', [.stateChange (getState e')])

/-- `getVariable`. -/
def getVariable (e : Engine) (key : String) : Option VariableValue :=
  getA e.state.vars key

/-- `loadScript`: builds the DAG (a constructor `DAGError` propagates),
repopulates the character and variable tables and resets the runtime state. -/
def loadScript (e : Engine) (script : GameScript) :
    Except (DAGError NodeId) Engine := do
  let dag ← DAG.ofOptions script.nodes script.edges
  let characters := script.characters.foldl (fun m c => setA m c.id c) []
  let variableDefs := script.vars.foldl (fun m d => setA m d.key d) []
  let initialVars := script.vars.foldl (fun m d => setA m d.key d.defaultValue) []
  pure
    { dag := dag
      state :=
        { currentNodeId := script.entryNodeId
          commandIndex := 0
          vars := initialVars
          visitedNodes := []
          dialogueHistory := []
          savedAt := none }
      characters := characters
      variableDefs := variableDefs
      playing := false
      paused := false
      ended := false
      now := e.now }

/-- Iterated `next` calls, collecting every emitted event in order (a harness
for stating the advance contract; not itself part of the class). -/
def nextN (e : Engine) : Nat → Engine × List GalEvent
  | 0 => (e, [])
  | n + 1 =>
      let (e₁, evs₁) := next e
      let (e₂, evs₂) := nextN e₁ n
      (e₂, evs₁ ++ evs₂)

def isCommandEvent : GalEvent → Bool
  | .command _ _ _ => true
  | _ => false

def isNodeEndEvent : GalEvent → Bool
  | .nodeEnd _ => true
  | _ => false

def isErrorEvent : GalEvent → Bool
  | .error _ => true
  | _ => false

end GalPlay

end GalPlayDefs

section LoadDAGDefs

namespace LoadDAGData

open GalPlay

/-- `ValidationResult`. -/
structure ValidationResult where
  valid : Bool
  errors : List String
  deriving DecidableEq

/-- Check 1 of `validate`: the node-id uniqueness loop.  An empty id (falsy in
JS) is reported and skipped; a duplicate is reported; otherwise the id joins
the set.  Returns the collected id set and the errors, both in order. -/
def nodeIdScan : List (NodeId × SceneNodeData) → List NodeId → List String →
    List NodeId × List String
  | [], seen, errs => (seen, errs)
  | (id, _) :: rest, seen, errs =>
      if id = "" then
        nodeIdScan rest seen (errs ++ ["Found a node with empty id"])
      else if id ∈ seen then
        nodeIdScan rest seen (errs ++ ["Duplicate node id: \"" ++ id ++ "\""])
      else nodeIdScan rest (seen ++ [id]) errs

/-- Checks 5 and 6 of `validate`: the shared duplicate-reporting loop over
variable keys and character ids. -/
def dupScan (mkMsg : String → String) :
    List String → List String → List String → List String
  | [], _, errs => errs
  | k :: rest, seen, errs =>
      if k ∈ seen then dupScan mkMsg rest seen (errs ++ [mkMsg k])
      else dupScan mkMsg rest (seen ++ [k]) errs

/-- Check 4 of `validate` for one node's transition: every transition target
must be a known node id (the conditional fallback is guarded by a JS
truthiness test, so an empty-string fallback is skipped). -/
def transitionErrors (nodeIds : List NodeId) (id : NodeId) :
    Option Transition → List String
  | none => []
  | some (.auto target) =>
      if target ∉ nodeIds then
        ["Node \"" ++ id ++ "\" auto-transition targets unknown node \"" ++ target ++ "\""]
      else []
  | some (.choice _ choices) =>
      choices.flatMap (fun c =>
        if c.targetNodeId ∉ nodeIds then
          ["Node \"" ++ id ++ "\" choice targets unknown node \"" ++ c.targetNodeId ++ "\""]
        else [])
  | some (.conditional branches fallback) =>
      branches.flatMap (fun br =>
        if br.targetNodeId ∉ nodeIds then
          ["Node \"" ++ id ++ "\" conditional branch targets unknown node \"" ++ br.targetNodeId ++ "\""]
        else []) ++
      (match fallback with
        | some f =>
            if ¬ f = "" ∧ f ∉ nodeIds then
              ["Node \"" ++ id ++ "\" conditional fallback targets unknown node \"" ++ f ++ "\""]
            else []
        | none => [])
  | some (.ending _ _) => []

/-- Check 7 of `validate`: build a DAG from the script and topologically sort
it inside a `try`; any thrown `DAGError` is reported as the cycle finding. -/
def cycleErrors (script : GameScript) : List String :=
  match DAG.ofOptions script.nodes script.edges with
  | .error _ => ["The node graph contains a cycle — it is not a valid DAG"]
  | .ok dag =>
      match DAG.topologicalSort dag with
      | .ok _ => []
      | .error _ => ["The node graph contains a cycle — it is not a valid DAG"]

/-- `LoadDAGData.validate`: the seven checks in order, all performed, all
findings concatenated. -/
def validate (script : GameScript) : ValidationResult :=
  let scan := nodeIdScan script.nodes [] []
  let nodeIds := scan.1
  let errs1 := scan.2
  let errs2 :=
    if script.entryNodeId ∈ nodeIds then []
    else ["entryNodeId \"" ++ script.entryNodeId ++ "\" does not match any node"]
  let errs3 := script.edges.flatMap (fun edge =>
    (if edge.1 ∉ nodeIds then
      ["Edge source \"" ++ edge.1 ++ "\" is not a valid node id"]
     else []) ++
    (if edge.2 ∉ nodeIds then
      ["Edge target \"" ++ edge.2 ++ "\" is not a valid node id"]
     else []))
  let errs4 := script.nodes.flatMap (fun n => transitionErrors nodeIds n.1 n.2.transition)
  let errs5 := dupScan (fun k => "Duplicate variable key: \"" ++ k ++ "\"")
    (script.vars.map (fun v => v.key)) [] []
  let errs6 := dupScan (fun c => "Duplicate character id: \"" ++ c ++ "\"")
    (script.characters.map (fun c => c.id)) [] []
  let errs7 := cycleErrors script
  let errors := errs1 ++ errs2 ++ errs3 ++ errs4 ++ errs5 ++ errs6 ++ errs7
  ⟨errors.length = 0, errors⟩

/-- The deep-validation stage of `LoadDAGData.parse` on an already-shaped
script (the scalar/array shape assertions of `parse` act on untyped JSON and
precede this): a rejected document throws a `LoadDAGError` carrying every
collected problem at once. -/
def parseChecked (script : GameScript) : Except String GameScript :=
  let validation := validate script
  if validation.valid then .ok script
  else .error ("Invalid GameScript:\n  - " ++ String.intercalate "\n  - " validation.errors)

/-- `LoadDAGData.buildDAG`. -/
def buildDAG (script : GameScript) :
    Except (DAGError NodeId) (DAG NodeId SceneNodeData) :=
  DAG.ofOptions script.nodes script.edges

end LoadDAGData

end LoadDAGDefs

section EngineLemmas

namespace GalPlay

/-- `executeCommand` emits exactly the command event and touches only the
history and variable components of the state. -/
theorem executeCommand_spec (e : Engine) (cmd : SceneCommand) :
    (executeCommand e cmd).1.state.commandIndex = e.state.commandIndex ∧
    (executeCommand e cmd).1.state.currentNodeId = e.state.currentNodeId ∧
    (executeCommand e cmd).1.state.visitedNodes = e.state.visitedNodes ∧
    (executeCommand e cmd).1.dag = e.dag ∧
    (executeCommand e cmd).1.ended = e.ended ∧
    (executeCommand e cmd).1.paused = e.paused ∧
    (executeCommand e cmd).2 = [.command cmd e.state.commandIndex e.state.currentNodeId] := by
  cases cmd <;> simp [executeCommand]

/-- One `next` call on a node with an unexecuted instruction: execute it,
advance the cursor by one, emit the command event then the state change. -/
theorem next_run_step {e : Engine} {node : SceneNodeData} {cmd : SceneCommand}
    (hend : e.ended = false) (hp : e.paused = false)
    (hnode : DAG.getNodeValue e.dag e.state.currentNodeId = some node)
    (hcmd : node.commands[e.state.commandIndex]? = some cmd) :
    (next e).1.state.commandIndex = e.state.commandIndex + 1 ∧
    (next e).1.state.currentNodeId = e.state.currentNodeId ∧
    (next e).1.dag = e.dag ∧
    (next e).1.ended = false ∧
    (next e).1.paused = false ∧
    (next e).2 = [.command cmd e.state.commandIndex e.state.currentNodeId,
      .stateChange (getState (next e).1)] := by
  have hspec := executeCommand_spec e cmd
  unfold next
  rw [hend, hp, hnode]
  simp only [Bool.false_eq_true, if_false, hcmd]
  refine ⟨?_, ?_, ?_, ?_, ?_, ?_⟩
  · show ((executeCommand e cmd).1.state.commandIndex + 1) = e.state.commandIndex + 1
    rw [hspec.1]
  · show (executeCommand e cmd).1.state.currentNodeId = e.state.currentNodeId
    exact hspec.2.1
  · show (executeCommand e cmd).1.dag = e.dag
    exact hspec.2.2.2.1
  · show (executeCommand e cmd).1.ended = false
    rw [hspec.2.2.2.2.1, hend]
  · show (executeCommand e cmd).1.paused = false
    rw [hspec.2.2.2.2.2.1, hp]
  · show (executeCommand e cmd).2 ++ [.stateChange _] = _
    rw [hspec.2.2.2.2.2.2]
    rfl

/-- One `next` call on a node whose instructions are exhausted: emit the
node-end event and resolve the transition. -/
theorem next_exhausted {e : Engine} {node : SceneNodeData}
    (hend : e.ended = false) (hp : e.paused = false)
    (hnode : DAG.getNodeValue e.dag e.state.currentNodeId = some node)
    (hexh : node.commands.length ≤ e.state.commandIndex) :
    next e = ((handleTransition e node.transition).1,
      .nodeEnd e.state.currentNodeId :: (handleTransition e node.transition).2) := by
  have hnone : node.commands[e.state.commandIndex]? = none :=
    List.getElem?_eq_none hexh
  unfold next
  rw [hend, hp, hnode]
  simp only [Bool.false_eq_true, if_false, hnone]

theorem countP_command_pair (c : SceneCommand) (i : Nat) (n : NodeId) (st : GameState) :
    List.countP isCommandEvent [GalEvent.command c i n, GalEvent.stateChange st] = 1 := rfl

theorem countP_nodeEnd_pair (c : SceneCommand) (i : Nat) (n : NodeId) (st : GameState) :
    List.countP isNodeEndEvent [GalEvent.command c i n, GalEvent.stateChange st] = 0 := rfl

/-- Running `j` more instructions from cursor position `i` with `i + j` within
the instruction list: each call emits exactly one command event and no
node-end event, and advances the cursor by one. -/
theorem nextN_run (node : SceneNodeData) :
    ∀ (j : Nat) (e : Engine), e.ended = false → e.paused = false →
      DAG.getNodeValue e.dag e.state.currentNodeId = some node →
      e.state.commandIndex + j ≤ node.commands.length →
      (nextN e j).1.state.commandIndex = e.state.commandIndex + j ∧
      (nextN e j).1.state.currentNodeId = e.state.currentNodeId ∧
      (nextN e j).1.dag = e.dag ∧
      (nextN e j).1.ended = false ∧
      (nextN e j).1.paused = false ∧
      (nextN e j).2.countP isCommandEvent = j ∧
      (nextN e j).2.countP isNodeEndEvent = 0 := by
  intro j
  induction j with
  | zero =>
    intro e hend hp hnode hle
    exact ⟨by simp [nextN], rfl, rfl, hend, hp, by simp [nextN], by simp [nextN]⟩
  | succ j ih =>
    intro e hend hp hnode hle
    have hlt : e.state.commandIndex < node.commands.length := by omega
    have hcmd : node.commands[e.state.commandIndex]? =
        some (node.commands.get ⟨e.state.commandIndex, hlt⟩) :=
      List.getElem?_eq_getElem hlt
    obtain ⟨h1, h2, h3, h4, h5, h6⟩ := next_run_step hend hp hnode hcmd
    have hnode' : DAG.getNodeValue (next e).1.dag (next e).1.state.currentNodeId
        = some node := by
      rw [h3, h2]
      exact hnode
    have hle' : (next e).1.state.commandIndex + j ≤ node.commands.length := by
      rw [h1]
      omega
    obtain ⟨g1, g2, g3, g4, g5, g6, g7⟩ := ih (next e).1 h4 h5 hnode' hle'
    have hsplit : nextN e (j + 1) = ((nextN (next e).1 j).1,
        (next e).2 ++ (nextN (next e).1 j).2) := rfl
    rw [hsplit]
    refine ⟨?_, ?_, ?_, g4, g5, ?_, ?_⟩
    · simp only [g1, h1]
      omega
    · rw [g2, h2]
    · rw [g3, h3]
    · rw [List.countP_append, g6, h6, countP_command_pair]
      omega
    · rw [List.countP_append, g7, h6, countP_nodeEnd_pair]

/-- The branch loop of `handleConditionalTransition` selects the first branch
whose conjunction of conditions holds, in declared order. -/
theorem condLoop_eq_find (e : Engine) (fallback : Option NodeId) :
    ∀ branches : List CondBranch,
      condLoop e branches fallback =
        match branches.find? (fun b => evaluateConditions e.state.vars b.conditions) with
        | some br => jumpToNode e br.targetNodeId
        | none =>
            match fallback with
            | some f =>
                if ¬ f = "" then jumpToNode e f
                else (e, [.error ("No conditional branch matched and no fallback defined at node \"" ++ e.state.currentNodeId ++ "\"")])
            | none => (e, [.error ("No conditional branch matched and no fallback defined at node \"" ++ e.state.currentNodeId ++ "\"")]) := by
  intro branches
  induction branches with
  | nil => rfl
  | cons br rest ih =>
    by_cases h : evaluateConditions e.state.vars br.conditions = true
    · simp [condLoop, h, List.find?]
    · have h' : evaluateConditions e.state.vars br.conditions = false := by
        cases hc : evaluateConditions e.state.vars br.conditions
        · rfl
        · exact absurd hc h
      simp only [condLoop, h', Bool.false_eq_true, if_false, List.find?, ih]

end GalPlay

end EngineLemmas

section Fixtures

namespace Demo

/-- A small graph built through the public API: nodes 1, 2 and the edge 1 → 2. -/
def dagDemo : DAG Nat Nat :=
  (DAG.addEdge (DAG.addNode (DAG.addNode DAG.empty 1 10).1 2 20).1 1 2).1

theorem dagDemo_built : DAG.Built dagDemo :=
  DAG.Built.addEdge 1 2 (DAG.Built.addNode 2 20 (DAG.Built.addNode 1 10 DAG.Built.empty))

end Demo

end Fixtures

section ClaimsDAG

/-- **C1.** For every graph built solely through the public Graph Container
API (`addNode`/`upsertNode`/`addEdge`/`removeNode`/`removeEdge`/`clear`), the
edge relation is acyclic — no node is reachable from any of its own
descendants — and `topologicalSort` returns an ordering whose length equals
the node count, never reporting a cycle error. -/
theorem claim_C1 {K : Type u} {V : Type v} [DecidableEq K] {g : DAG K V}
    (hbuilt : DAG.Built g) :
    (∀ n d, (∃ m, DAG.EdgeOf g n m ∧ DAG.Reach g m d) → ¬ DAG.Reach g d n) ∧
    (∃ ord, DAG.topologicalSort g = Except.ok ord ∧ ord.length = g.size) := by
  obtain ⟨hwf, hacy⟩ := hbuilt.wf_acyclic
  constructor
  · rintro n d ⟨m, hedge, hreach⟩ hback
    exact hacy n m hedge (hreach.trans hback)
  · obtain ⟨ord, h1, h2, -, -⟩ := DAG.topologicalSort_complete hwf hacy
    exact ⟨ord, h1, h2⟩

theorem claim_C1_witness :
    (∀ n d, (∃ m, DAG.EdgeOf Demo.dagDemo n m ∧ DAG.Reach Demo.dagDemo m d) →
      ¬ DAG.Reach Demo.dagDemo d n) ∧
    (∃ ord, DAG.topologicalSort Demo.dagDemo = Except.ok ord ∧
      ord.length = Demo.dagDemo.size) :=
  claim_C1 Demo.dagDemo_built

/-- **C2.** For every API-built graph and every pair of node ids, `addEdge`
fails when an endpoint is absent, when the ends coincide, or when a path
already runs from `to` back to `from`; every failed `addEdge` leaves the graph
unchanged; and `addEdge` of an already-present edge is a silent no-op. -/
theorem claim_C2 {K : Type u} {V : Type v} [DecidableEq K] {g : DAG K V}
    (hbuilt : DAG.Built g) (a b : K) :
    ((¬ DAG.hasNode g a = true ∨ ¬ DAG.hasNode g b = true) →
      ∃ err, DAG.addEdge g a b = (g, some err)) ∧
    (a = b → ∃ err, DAG.addEdge g a b = (g, some err)) ∧
    (a ≠ b → DAG.Reach g b a → ∃ err, DAG.addEdge g a b = (g, some err)) ∧
    (∀ err, (DAG.addEdge g a b).2 = some err → (DAG.addEdge g a b).1 = g) ∧
    (DAG.hasEdge g a b = true → DAG.addEdge g a b = (g, none)) := by
  obtain ⟨hwf, hacy⟩ := hbuilt.wf_acyclic
  refine ⟨?_, ?_, ?_, ?_, ?_⟩
  · intro h
    by_cases ha : DAG.hasNode g a = true
    · have hb : ¬ DAG.hasNode g b = true := by tauto
      exact ⟨_, DAG.addEdge_missing_tgt ha hb⟩
    · exact ⟨_, DAG.addEdge_missing_src b ha⟩
  · intro hab
    subst hab
    by_cases ha : DAG.hasNode g a = true
    · exact ⟨_, DAG.addEdge_self ha⟩
    · exact ⟨_, DAG.addEdge_missing_src a ha⟩
  · intro hab hreach
    by_cases ha : DAG.hasNode g a = true
    swap
    · exact ⟨_, DAG.addEdge_missing_src b ha⟩
    by_cases hb : DAG.hasNode g b = true
    swap
    · exact ⟨_, DAG.addEdge_missing_tgt ha hb⟩
    have hmem : b ∉ DAG.targets g a := fun hc => hacy a b hc hreach
    have hpath : DAG.hasPathB g b a = true :=
      (DAG.hasPathB_correct hwf (DAG.hasNode_iff.mp hb)).mpr hreach
    exact ⟨_, DAG.addEdge_cycle ha hb hab hmem hpath⟩
  · intro err h
    exact DAG.addEdge_error_unchanged g a b h
  · intro hedge
    have hmem : b ∈ DAG.targets g a := by
      have := hedge
      unfold DAG.hasEdge at this
      simpa using this
    obtain ⟨ts, hts⟩ : ∃ ts, getA g.adj a = some ts := by
      cases hget : getA g.adj a with
      | none =>
        unfold DAG.targets at hmem
        rw [hget] at hmem
        simp at hmem
      | some ts => exact ⟨ts, rfl⟩
    have ha : DAG.hasNode g a = true := by
      rw [DAG.hasNode_iff]
      have : a ∈ g.adj.map Prod.fst := List.mem_map_of_mem Prod.fst (getA_mem hts)
      rwa [hwf.keys_eq] at this
    have hb : DAG.hasNode g b = true := by
      rw [DAG.hasNode_iff]
      exact hwf.targets_sub b hmem
    have hab : a ≠ b := by
      intro hc
      subst hc
      exact hwf.self_not_target a hmem
    exact DAG.addEdge_dup ha hb hab hmem

theorem claim_C2_witness :
    ((¬ DAG.hasNode Demo.dagDemo 2 = true ∨ ¬ DAG.hasNode Demo.dagDemo 1 = true) →
      ∃ err, DAG.addEdge Demo.dagDemo 2 1 = (Demo.dagDemo, some err)) ∧
    ((2 : Nat) = 1 → ∃ err, DAG.addEdge Demo.dagDemo 2 1 = (Demo.dagDemo, some err)) ∧
    ((2 : Nat) ≠ 1 → DAG.Reach Demo.dagDemo 1 2 →
      ∃ err, DAG.addEdge Demo.dagDemo 2 1 = (Demo.dagDemo, some err)) ∧
    (∀ err, (DAG.addEdge Demo.dagDemo 2 1).2 = some err →
      (DAG.addEdge Demo.dagDemo 2 1).1 = Demo.dagDemo) ∧
    (DAG.hasEdge Demo.dagDemo 2 1 = true → DAG.addEdge Demo.dagDemo 2 1 = (Demo.dagDemo, none)) :=
  claim_C2 Demo.dagDemo_built 2 1

/-- **C9.** Serialising an API-built graph, reconstructing a graph from the
serialised form, and serialising again yields the same nodes and edges as the
first serialisation — the reconstruction is in fact the identical graph, and
`clone` rebuilds it exactly. -/
theorem claim_C9 {K : Type u} {V : Type v} [DecidableEq K] {g : DAG K V}
    (hbuilt : DAG.Built g) :
    ∃ g', DAG.fromSerialized (DAG.serialize g) = Except.ok g' ∧
      (DAG.serialize g').nodes = (DAG.serialize g).nodes ∧
      (DAG.serialize g').edges = (DAG.serialize g).edges ∧
      DAG.clone g = Except.ok g' := by
  obtain ⟨hwf, hacy⟩ := hbuilt.wf_acyclic
  exact ⟨g, DAG.fromSerialized_roundtrip hwf hacy, rfl, rfl,
    DAG.fromSerialized_roundtrip hwf hacy⟩

theorem claim_C9_witness :
    ∃ g', DAG.fromSerialized (DAG.serialize Demo.dagDemo) = Except.ok g' ∧
      (DAG.serialize g').nodes = (DAG.serialize Demo.dagDemo).nodes ∧
      (DAG.serialize g').edges = (DAG.serialize Demo.dagDemo).edges ∧
      DAG.clone Demo.dagDemo = Except.ok g' :=
  claim_C9 Demo.dagDemo_built

end ClaimsDAG

section ClaimsEngine1

namespace GalPlay

theorem jumpToNode_success {e : Engine} {t : NodeId}
    (ht : DAG.hasNode e.dag t = true) :
    (jumpToNode e t).1.state.currentNodeId = t ∧
    (jumpToNode e t).1.state.commandIndex = 0 ∧
    (jumpToNode e t).1.state.vars = e.state.vars ∧
    (jumpToNode e t).1.state.dialogueHistory = e.state.dialogueHistory ∧
    (jumpToNode e t).1.ended = e.ended ∧
    (jumpToNode e t).1.paused = e.paused ∧
    (jumpToNode e t).1.dag = e.dag ∧
    (jumpToNode e t).2 = [.stateChange (getState (jumpToNode e t).1)] := by
  unfold jumpToNode
  simp [ht]

theorem jumpToNode_missing {e : Engine} {t : NodeId}
    (ht : ¬ DAG.hasNode e.dag t = true) :
    jumpToNode e t = (e, [.error ("Target node not found: " ++ t)]) := by
  unfold jumpToNode
  simp [ht]

end GalPlay

/-- **C3.** For every loaded script and every current node with `N`
instructions, repeated `next` calls from cursor 0 emit exactly `N` command
events — one per call, each advancing the cursor by one — and no node-end
event; the `(N+1)`-th call then emits the node-end event and resolves the
node's transition, regardless of the instructions' content. -/
theorem claim_C3 {e : GalPlay.Engine} {node : GalPlay.SceneNodeData} (N : Nat)
    (hend : e.ended = false) (hp : e.paused = false)
    (hnode : DAG.getNodeValue e.dag e.state.currentNodeId = some node)
    (hlen : node.commands.length = N)
    (hidx : e.state.commandIndex = 0) :
    ((GalPlay.nextN e N).2.countP GalPlay.isCommandEvent = N) ∧
    ((GalPlay.nextN e N).2.countP GalPlay.isNodeEndEvent = 0) ∧
    (∀ k, k ≤ N → ((GalPlay.nextN e k).2.countP GalPlay.isCommandEvent = k) ∧
      ((GalPlay.nextN e k).1.state.commandIndex = k)) ∧
    ((GalPlay.nextN e N).1.state.currentNodeId = e.state.currentNodeId) ∧
    (GalPlay.next (GalPlay.nextN e N).1
      = ((GalPlay.handleTransition (GalPlay.nextN e N).1 node.transition).1,
        .nodeEnd e.state.currentNodeId ::
          (GalPlay.handleTransition (GalPlay.nextN e N).1 node.transition).2)) := by
  have hrunN := GalPlay.nextN_run node N e hend hp hnode (by omega)
  obtain ⟨r1, r2, r3, r4, r5, r6, r7⟩ := hrunN
  refine ⟨r6, r7, ?_, r2, ?_⟩
  · intro k hk
    have hrunk := GalPlay.nextN_run node k e hend hp hnode (by omega)
    refine ⟨hrunk.2.2.2.2.2.1, ?_⟩
    rw [hrunk.1, hidx]
    omega
  · have hnode' : DAG.getNodeValue (GalPlay.nextN e N).1.dag
        (GalPlay.nextN e N).1.state.currentNodeId = some node := by
      rw [r3, r2]
      exact hnode
    have hexh : node.commands.length ≤ (GalPlay.nextN e N).1.state.commandIndex := by
      rw [r1, hidx, hlen]
      omega
    have := GalPlay.next_exhausted r4 r5 hnode' hexh
    rw [this, r2]

/-- **C4.** When a node's instructions are exhausted and it has no transition
descriptor: with exactly one graph successor the engine jumps to it; with
zero successors it ends the story with no ending name or category; with more
than one successor it emits an error event and does not jump. -/
theorem claim_C4 {e : GalPlay.Engine} {node : GalPlay.SceneNodeData}
    (hend : e.ended = false) (hp : e.paused = false)
    (hnode : DAG.getNodeValue e.dag e.state.currentNodeId = some node)
    (hexh : node.commands.length ≤ e.state.commandIndex)
    (htr : node.transition = none) :
    (∀ t, DAG.successors e.dag e.state.currentNodeId = [t] →
      DAG.hasNode e.dag t = true →
      (GalPlay.next e).1.state.currentNodeId = t ∧
      (GalPlay.next e).1.state.commandIndex = 0 ∧
      (GalPlay.next e).1.ended = false ∧
      (GalPlay.next e).2 = [.nodeEnd e.state.currentNodeId,
        .stateChange (GalPlay.getState (GalPlay.next e).1)]) ∧
    (DAG.successors e.dag e.state.currentNodeId = [] →
      (GalPlay.next e).1.ended = true ∧
      (GalPlay.next e).1.state = e.state ∧
      (GalPlay.next e).2 = [.nodeEnd e.state.currentNodeId,
        .ending none none e.state.currentNodeId]) ∧
    (∀ t₁ t₂ rest, DAG.successors e.dag e.state.currentNodeId = t₁ :: t₂ :: rest →
      (GalPlay.next e).1 = e ∧
      (GalPlay.next e).2 = [.nodeEnd e.state.currentNodeId,
        .error ("Node \"" ++ e.state.currentNodeId ++ "\" has multiple successors but no transition defined")]) := by
  have hnext := GalPlay.next_exhausted hend hp hnode hexh
  rw [htr] at hnext
  refine ⟨?_, ?_, ?_⟩
  · intro t hsucc ht
    have hht : GalPlay.handleTransition e none = GalPlay.jumpToNode e t := by
      unfold GalPlay.handleTransition
      rw [hsucc]
    rw [hnext, hht]
    obtain ⟨j1, j2, -, -, j5, -, -, j8⟩ := GalPlay.jumpToNode_success ht
    exact ⟨j1, j2, by rw [j5, hend], by rw [j8]⟩
  · intro hsucc
    have hht : GalPlay.handleTransition e none = GalPlay.doEnding e none none := by
      unfold GalPlay.handleTransition
      rw [hsucc]
    rw [hnext, hht]
    exact ⟨rfl, rfl, rfl⟩
  · intro t₁ t₂ rest hsucc
    have hht : GalPlay.handleTransition e none
        = (e, [.error ("Node \"" ++ e.state.currentNodeId ++ "\" has multiple successors but no transition defined")]) := by
      unfold GalPlay.handleTransition
      rw [hsucc]
    rw [hnext, hht]
    exact ⟨rfl, rfl⟩

/-- The variable side-effects of a selected choice, as `selectChoice` applies
them. -/
def GalPlay.applyEffects :
    Option (List (String × GalPlay.VariableValue)) →
    List (String × GalPlay.VariableValue) → List (String × GalPlay.VariableValue)
  | none, vs => vs
  | some effects, vs => effects.foldl (fun acc eff => setA acc eff.1 eff.2) vs

/-- An in-range `selectChoice` applies the selected choice's effects and then
jumps to its target. -/
theorem GalPlay.selectChoice_spec {e : GalPlay.Engine} {node : GalPlay.SceneNodeData}
    {prompt : Option String} {choices : List GalPlay.Choice} {i : Int}
    {choice : GalPlay.Choice}
    (hnode : DAG.getNodeValue e.dag e.state.currentNodeId = some node)
    (htr : node.transition = some (.choice prompt choices))
    (hi0 : 0 ≤ i)
    (hget : (choices.filter (GalPlay.evaluateChoiceVisible e.state.vars))[i.toNat]? = some choice) :
    GalPlay.selectChoice e i =
      GalPlay.jumpToNode { e with state := { e.state with vars := GalPlay.applyEffects choice.effects e.state.vars } } choice.targetNodeId := by
  have hlt : i.toNat < (choices.filter (GalPlay.evaluateChoiceVisible e.state.vars)).length := by
    by_contra hc
    rw [List.getElem?_eq_none (by omega)] at hget
    exact Option.noConfusion hget
  have hcond : ¬ (i < 0 ∨ ((choices.filter (GalPlay.evaluateChoiceVisible e.state.vars)).length : Int) ≤ i) := by
    push_neg
    omega
  unfold GalPlay.selectChoice
  rw [hnode]
  dsimp only
  rw [htr]
  dsimp only
  rw [if_neg hcond, hget]
  dsimp only
  cases heff : choice.effects with
  | none =>
    dsimp only
    rfl
  | some effects =>
    dsimp only
    rfl

/-- An out-of-range `selectChoice` on a choice node reports an invalid index
and changes nothing. -/
theorem GalPlay.selectChoice_outOfRange {e : GalPlay.Engine} {node : GalPlay.SceneNodeData}
    {prompt : Option String} {choices : List GalPlay.Choice} {i : Int}
    (hnode : DAG.getNodeValue e.dag e.state.currentNodeId = some node)
    (htr : node.transition = some (.choice prompt choices))
    (hcond : i < 0 ∨ ((choices.filter (GalPlay.evaluateChoiceVisible e.state.vars)).length : Int) ≤ i) :
    GalPlay.selectChoice e i = (e, [.error ("Invalid choice index: " ++ toString i)]) := by
  unfold GalPlay.selectChoice
  rw [hnode]
  dsimp only
  rw [htr]
  dsimp only
  rw [if_pos hcond]

/-- **C5.** After a choice transition, `selectChoice` with an index into the
visibility-filtered choice list applies that choice's variable side-effects
and then jumps to its (existing) target node; an index outside that range
emits an error event and leaves the engine unchanged. -/
theorem claim_C5 {e : GalPlay.Engine} {node : GalPlay.SceneNodeData}
    {prompt : Option String} {choices : List GalPlay.Choice} (i : Int)
    (hnode : DAG.getNodeValue e.dag e.state.currentNodeId = some node)
    (htr : node.transition = some (.choice prompt choices)) :
    (∀ choice,
      (choices.filter (GalPlay.evaluateChoiceVisible e.state.vars))[i.toNat]? = some choice →
      0 ≤ i →
      DAG.hasNode e.dag choice.targetNodeId = true →
      (GalPlay.selectChoice e i).1.state.currentNodeId = choice.targetNodeId ∧
      (GalPlay.selectChoice e i).1.state.commandIndex = 0 ∧
      (GalPlay.selectChoice e i).1.state.vars
        = GalPlay.applyEffects choice.effects e.state.vars ∧
      (GalPlay.selectChoice e i).2
        = [.stateChange (GalPlay.getState (GalPlay.selectChoice e i).1)]) ∧
    ((i < 0 ∨ ((choices.filter (GalPlay.evaluateChoiceVisible e.state.vars)).length : Int) ≤ i) →
      GalPlay.selectChoice e i
        = (e, [.error ("Invalid choice index: " ++ toString i)])) := by
  constructor
  · intro choice hget hi0 htarget
    rw [GalPlay.selectChoice_spec hnode htr hi0 hget]
    obtain ⟨j1, j2, j3, -, -, -, -, j8⟩ :=
      @GalPlay.jumpToNode_success { e with state := { e.state with vars := GalPlay.applyEffects choice.effects e.state.vars } } choice.targetNodeId htarget
    exact ⟨j1, j2, j3, j8⟩
  · exact GalPlay.selectChoice_outOfRange hnode htr

end ClaimsEngine1

section ClaimsEngine2

/-- **C6 (amended).** Every listed playback error emits an error event and
leaves the runtime state (current node, instruction cursor, variables,
visited list, history) unchanged — except that when the missing-jump-target
error is reached through `selectChoice`, the selected choice's variable
side-effects have already been applied before the jump is attempted, so the
variables retain those effects while every other state component is
unchanged. -/
theorem claim_C6 {e : GalPlay.Engine} (i : Int) :
    (e.ended = false → e.paused = false →
      DAG.getNodeValue e.dag e.state.currentNodeId = none →
      GalPlay.next e = (e, [.error ("Node not found: " ++ e.state.currentNodeId)])) ∧
    (∀ node t₁ t₂ rest, e.ended = false → e.paused = false →
      DAG.getNodeValue e.dag e.state.currentNodeId = some node →
      node.commands.length ≤ e.state.commandIndex →
      node.transition = none →
      DAG.successors e.dag e.state.currentNodeId = t₁ :: t₂ :: rest →
      (GalPlay.next e).1 = e ∧
      (GalPlay.next e).2 = [.nodeEnd e.state.currentNodeId,
        .error ("Node \"" ++ e.state.currentNodeId ++ "\" has multiple successors but no transition defined")]) ∧
    (∀ node branches, e.ended = false → e.paused = false →
      DAG.getNodeValue e.dag e.state.currentNodeId = some node →
      node.commands.length ≤ e.state.commandIndex →
      node.transition = some (.conditional branches none) →
      branches.find? (fun b => GalPlay.evaluateConditions e.state.vars b.conditions) = none →
      (GalPlay.next e).1 = e ∧
      (GalPlay.next e).2 = [.nodeEnd e.state.currentNodeId,
        .error ("No conditional branch matched and no fallback defined at node \"" ++ e.state.currentNodeId ++ "\"")]) ∧
    (∀ node prompt choices,
      DAG.getNodeValue e.dag e.state.currentNodeId = some node →
      node.transition = some (.choice prompt choices) →
      (i < 0 ∨ ((choices.filter (GalPlay.evaluateChoiceVisible e.state.vars)).length : Int) ≤ i) →
      GalPlay.selectChoice e i = (e, [.error ("Invalid choice index: " ++ toString i)])) ∧
    (DAG.getNodeValue e.dag e.state.currentNodeId = none →
      GalPlay.selectChoice e i = (e, [.error "Current node is not a choice node"])) ∧
    (∀ node, DAG.getNodeValue e.dag e.state.currentNodeId = some node →
      (∀ prompt choices, ¬ node.transition = some (.choice prompt choices)) →
      GalPlay.selectChoice e i = (e, [.error "Current node is not a choice node"])) ∧
    (∀ node t, e.ended = false → e.paused = false →
      DAG.getNodeValue e.dag e.state.currentNodeId = some node →
      node.commands.length ≤ e.state.commandIndex →
      node.transition = some (.auto t) →
      ¬ DAG.hasNode e.dag t = true →
      (GalPlay.next e).1 = e ∧
      (GalPlay.next e).2 = [.nodeEnd e.state.currentNodeId,
        .autoAdvance e.state.currentNodeId t,
        .error ("Target node not found: " ++ t)]) ∧
    (∀ node branches fallback br, e.ended = false → e.paused = false →
      DAG.getNodeValue e.dag e.state.currentNodeId = some node →
      node.commands.length ≤ e.state.commandIndex →
      node.transition = some (.conditional branches fallback) →
      branches.find? (fun b => GalPlay.evaluateConditions e.state.vars b.conditions) = some br →
      ¬ DAG.hasNode e.dag br.targetNodeId = true →
      (GalPlay.next e).1 = e ∧
      (GalPlay.next e).2 = [.nodeEnd e.state.currentNodeId,
        .error ("Target node not found: " ++ br.targetNodeId)]) ∧
    (∀ node prompt choices choice,
      DAG.getNodeValue e.dag e.state.currentNodeId = some node →
      node.transition = some (.choice prompt choices) →
      0 ≤ i →
      (choices.filter (GalPlay.evaluateChoiceVisible e.state.vars))[i.toNat]? = some choice →
      ¬ DAG.hasNode e.dag choice.targetNodeId = true →
      (GalPlay.selectChoice e i).1.state.currentNodeId = e.state.currentNodeId ∧
      (GalPlay.selectChoice e i).1.state.commandIndex = e.state.commandIndex ∧
      (GalPlay.selectChoice e i).1.state.visitedNodes = e.state.visitedNodes ∧
      (GalPlay.selectChoice e i).1.state.dialogueHistory = e.state.dialogueHistory ∧
      (GalPlay.selectChoice e i).1.state.vars
        = GalPlay.applyEffects choice.effects e.state.vars ∧
      (GalPlay.selectChoice e i).2
        = [.error ("Target node not found: " ++ choice.targetNodeId)]) := by
  refine ⟨?_, ?_, ?_, ?_, ?_, ?_, ?_, ?_, ?_⟩
  · intro hend hp hnone
    unfold GalPlay.next
    rw [hend, hp, hnone]
    rfl
  · intro node t₁ t₂ rest hend hp hnode hexh htr hsucc
    have hnext := GalPlay.next_exhausted hend hp hnode hexh
    rw [htr] at hnext
    have hht : GalPlay.handleTransition e none
        = (e, [.error ("Node \"" ++ e.state.currentNodeId ++ "\" has multiple successors but no transition defined")]) := by
      unfold GalPlay.handleTransition
      rw [hsucc]
    rw [hnext, hht]
    exact ⟨rfl, rfl⟩
  · intro node branches hend hp hnode hexh htr hfind
    have hnext := GalPlay.next_exhausted hend hp hnode hexh
    rw [htr] at hnext
    have hht : GalPlay.handleTransition e (some (.conditional branches none))
        = (e, [.error ("No conditional branch matched and no fallback defined at node \"" ++ e.state.currentNodeId ++ "\"")]) := by
      show GalPlay.condLoop e branches none = _
      rw [GalPlay.condLoop_eq_find e none branches, hfind]
    rw [hnext, hht]
    exact ⟨rfl, rfl⟩
  · intro node prompt choices hnode htr hcond
    exact GalPlay.selectChoice_outOfRange hnode htr hcond
  · intro hnone
    unfold GalPlay.selectChoice
    rw [hnone]
  · intro node hnode hnot
    unfold GalPlay.selectChoice
    rw [hnode]
    dsimp only
    cases htr : node.transition with
    | none => rfl
    | some t =>
      cases t with
      | auto target => rfl
      | choice prompt choices => exact absurd htr (hnot prompt choices)
      | conditional branches fallback => rfl
      | ending n ty => rfl
  · intro node t hend hp hnode hexh htr ht
    have hnext := GalPlay.next_exhausted hend hp hnode hexh
    rw [htr] at hnext
    have hht : GalPlay.handleTransition e (some (.auto t))
        = (e, [.autoAdvance e.state.currentNodeId t,
            .error ("Target node not found: " ++ t)]) := by
      show GalPlay.handleAutoTransition e t = _
      unfold GalPlay.handleAutoTransition
      rw [GalPlay.jumpToNode_missing ht]
    rw [hnext, hht]
    exact ⟨rfl, rfl⟩
  · intro node branches fallback br hend hp hnode hexh htr hfind ht
    have hnext := GalPlay.next_exhausted hend hp hnode hexh
    rw [htr] at hnext
    have hht : GalPlay.handleTransition e (some (.conditional branches fallback))
        = (e, [.error ("Target node not found: " ++ br.targetNodeId)]) := by
      show GalPlay.condLoop e branches fallback = _
      rw [GalPlay.condLoop_eq_find e fallback branches, hfind]
      exact GalPlay.jumpToNode_missing ht
    rw [hnext, hht]
    exact ⟨rfl, rfl⟩
  · intro node prompt choices choice hnode htr hi0 hget ht
    rw [GalPlay.selectChoice_spec hnode htr hi0 hget]
    rw [@GalPlay.jumpToNode_missing { e with state := { e.state with vars := GalPlay.applyEffects choice.effects e.state.vars } } choice.targetNodeId ht]
    exact ⟨rfl, rfl, rfl, rfl, rfl, rfl⟩

end ClaimsEngine2

section ClaimsEngine3

theorem find_eq_some_split {α : Type u} {p : α → Bool} :
    ∀ {l : List α} {a : α}, l.find? p = some a →
      p a = true ∧ ∃ pre suf, l = pre ++ a :: suf ∧ ∀ b ∈ pre, p b = false := by
  intro l
  induction l with
  | nil => intro a h; simp [List.find?] at h
  | cons x rest ih =>
    intro a h
    by_cases hx : p x = true
    · rw [List.find?_cons_of_pos _ hx] at h
      cases h
      exact ⟨hx, [], rest, rfl, by intro b hb; simp at hb⟩
    · have hx' : p x = false := by
        cases hc : p x
        · rfl
        · exact absurd hc hx
      rw [List.find?_cons_of_neg _ hx] at h
      obtain ⟨hpa, pre, suf, heq, hpre⟩ := ih h
      refine ⟨hpa, x :: pre, suf, by rw [heq]; rfl, ?_⟩
      intro b hb
      rcases List.mem_cons.mp hb with h' | h'
      · rw [h']; exact hx'
      · exact hpre b h'

/-- **C8.** A conditional transition evaluates its branches in declared order
with the conditions inside a branch conjoined; the engine jumps to the target
of the first branch whose conditions all hold, to the fallback when no branch
matches and one is present, and emits an error event otherwise; ordering
comparators coerce both operands to numeric form while `==`/`!=` use loose
(type-coercing) equality. -/
theorem claim_C8 {e : GalPlay.Engine} {node : GalPlay.SceneNodeData}
    {branches : List GalPlay.CondBranch} {fallback : Option GalPlay.NodeId}
    (hend : e.ended = false) (hp : e.paused = false)
    (hnode : DAG.getNodeValue e.dag e.state.currentNodeId = some node)
    (hexh : node.commands.length ≤ e.state.commandIndex)
    (htr : node.transition = some (.conditional branches fallback)) :
    (∀ br, branches.find? (fun b => GalPlay.evaluateConditions e.state.vars b.conditions) = some br →
      (GalPlay.next e
        = ((GalPlay.jumpToNode e br.targetNodeId).1,
          .nodeEnd e.state.currentNodeId :: (GalPlay.jumpToNode e br.targetNodeId).2)) ∧
      (GalPlay.evaluateConditions e.state.vars br.conditions = true ∧
        ∃ pre suf, branches = pre ++ br :: suf ∧
          ∀ b ∈ pre, GalPlay.evaluateConditions e.state.vars b.conditions = false) ∧
      (DAG.hasNode e.dag br.targetNodeId = true →
        (GalPlay.next e).1.state.currentNodeId = br.targetNodeId ∧
        (GalPlay.next e).1.state.commandIndex = 0)) ∧
    (branches.find? (fun b => GalPlay.evaluateConditions e.state.vars b.conditions) = none →
      ∀ f, fallback = some f → ¬ f = "" →
      GalPlay.next e
        = ((GalPlay.jumpToNode e f).1,
          .nodeEnd e.state.currentNodeId :: (GalPlay.jumpToNode e f).2)) ∧
    (branches.find? (fun b => GalPlay.evaluateConditions e.state.vars b.conditions) = none →
      fallback = none →
      (GalPlay.next e).1 = e ∧
      (GalPlay.next e).2 = [.nodeEnd e.state.currentNodeId,
        .error ("No conditional branch matched and no fallback defined at node \"" ++ e.state.currentNodeId ++ "\"")]) ∧
    (∀ cs : List GalPlay.Condition,
      GalPlay.evaluateConditions e.state.vars cs
        = cs.all (GalPlay.evaluateCondition e.state.vars)) ∧
    (∀ c : GalPlay.Condition, c.operator = .gt →
      GalPlay.evaluateCondition e.state.vars c
        = GalPlay.numGtB (GalPlay.toNumberU (getA e.state.vars c.varKey))
            (GalPlay.toNumber c.value)) ∧
    (∀ c : GalPlay.Condition, c.operator = .lt →
      GalPlay.evaluateCondition e.state.vars c
        = GalPlay.numLtB (GalPlay.toNumberU (getA e.state.vars c.varKey))
            (GalPlay.toNumber c.value)) ∧
    (∀ c : GalPlay.Condition, c.operator = .ge →
      GalPlay.evaluateCondition e.state.vars c
        = GalPlay.numGeB (GalPlay.toNumberU (getA e.state.vars c.varKey))
            (GalPlay.toNumber c.value)) ∧
    (∀ c : GalPlay.Condition, c.operator = .le →
      GalPlay.evaluateCondition e.state.vars c
        = GalPlay.numLeB (GalPlay.toNumberU (getA e.state.vars c.varKey))
            (GalPlay.toNumber c.value)) ∧
    (∀ c : GalPlay.Condition, c.operator = .eq →
      GalPlay.evaluateCondition e.state.vars c
        = GalPlay.looseEqU (getA e.state.vars c.varKey) c.value) ∧
    (∀ c : GalPlay.Condition, c.operator = .ne →
      GalPlay.evaluateCondition e.state.vars c
        = !(GalPlay.looseEqU (getA e.state.vars c.varKey) c.value)) ∧
    (GalPlay.looseEq (.num (some 1)) (.str "1") = true) ∧
    (GalPlay.numGtB (GalPlay.toNumber (.str "10")) (GalPlay.toNumber (.str "9")) = true) := by
  have hnext := GalPlay.next_exhausted hend hp hnode hexh
  rw [htr] at hnext
  have hcond : GalPlay.handleTransition e (some (.conditional branches fallback))
      = GalPlay.condLoop e branches fallback := rfl
  refine ⟨?_, ?_, ?_, ?_, ?_, ?_, ?_, ?_, ?_, ?_, ?_, ?_⟩
  · intro br hfind
    have hht : GalPlay.handleTransition e (some (.conditional branches fallback))
        = GalPlay.jumpToNode e br.targetNodeId := by
      rw [hcond, GalPlay.condLoop_eq_find e fallback branches, hfind]
    obtain ⟨hpa, pre, suf, heq, hpre⟩ := find_eq_some_split hfind
    refine ⟨by rw [hnext, hht], ⟨hpa, pre, suf, heq, hpre⟩, ?_⟩
    intro ht
    obtain ⟨j1, j2, -, -, -, -, -, -⟩ := GalPlay.jumpToNode_success ht
    rw [hnext, hht]
    exact ⟨j1, j2⟩
  · intro hfind f hf hfne
    have hht : GalPlay.handleTransition e (some (.conditional branches fallback))
        = GalPlay.jumpToNode e f := by
      rw [hcond, GalPlay.condLoop_eq_find e fallback branches, hfind, hf]
      simp [hfne]
    rw [hnext, hht]
  · intro hfind hf
    have hht : GalPlay.handleTransition e (some (.conditional branches fallback))
        = (e, [.error ("No conditional branch matched and no fallback defined at node \"" ++ e.state.currentNodeId ++ "\"")]) := by
      rw [hcond, GalPlay.condLoop_eq_find e fallback branches, hfind, hf]
    rw [hnext, hht]
    exact ⟨rfl, rfl⟩
  · intro cs
    rfl
  · intro c hop
    obtain ⟨k, op, v⟩ := c
    cases hop
    rfl
  · intro c hop
    obtain ⟨k, op, v⟩ := c
    cases hop
    rfl
  · intro c hop
    obtain ⟨k, op, v⟩ := c
    cases hop
    rfl
  · intro c hop
    obtain ⟨k, op, v⟩ := c
    cases hop
    rfl
  · intro c hop
    obtain ⟨k, op, v⟩ := c
    cases hop
    rfl
  · intro c hop
    obtain ⟨k, op, v⟩ := c
    cases hop
    rfl
  · decide
  · decide

/-- **C10.** The only gating precondition of `selectChoice` is that the
current node's transition is of choice type: with an in-range index into the
visible list recomputed from the variables at the moment of the call, it
applies the effects and jumps — even mid-instruction-list, even before any
choice-request event, and irrespective of the paused/ended flags. -/
theorem claim_C10 {e : GalPlay.Engine} {node : GalPlay.SceneNodeData}
    {prompt : Option String} {choices : List GalPlay.Choice} (i : Int)
    {choice : GalPlay.Choice}
    (hnode : DAG.getNodeValue e.dag e.state.currentNodeId = some node)
    (htr : node.transition = some (.choice prompt choices))
    (hi0 : 0 ≤ i)
    (hget : (choices.filter (GalPlay.evaluateChoiceVisible e.state.vars))[i.toNat]? = some choice)
    (htarget : DAG.hasNode e.dag choice.targetNodeId = true) :
    (GalPlay.selectChoice e i).1.state.currentNodeId = choice.targetNodeId ∧
    (GalPlay.selectChoice e i).1.state.commandIndex = 0 ∧
    (GalPlay.selectChoice e i).1.state.vars
      = GalPlay.applyEffects choice.effects e.state.vars ∧
    (GalPlay.selectChoice e i).2
      = [.stateChange (GalPlay.getState (GalPlay.selectChoice e i).1)] ∧
    (∀ j : Nat,
      (GalPlay.selectChoice { e with state := { e.state with commandIndex := j } } i).1.state.currentNodeId
        = choice.targetNodeId) ∧
    (∀ p₁ p₂ : Bool,
      (GalPlay.selectChoice { e with paused := p₁, ended := p₂ } i).1.state.currentNodeId
        = choice.targetNodeId) := by
  refine ⟨?_, ?_, ?_, ?_, ?_, ?_⟩
  · rw [GalPlay.selectChoice_spec hnode htr hi0 hget]
    exact (@GalPlay.jumpToNode_success { e with state := { e.state with vars := GalPlay.applyEffects choice.effects e.state.vars } } choice.targetNodeId htarget).1
  · rw [GalPlay.selectChoice_spec hnode htr hi0 hget]
    exact (@GalPlay.jumpToNode_success { e with state := { e.state with vars := GalPlay.applyEffects choice.effects e.state.vars } } choice.targetNodeId htarget).2.1
  · rw [GalPlay.selectChoice_spec hnode htr hi0 hget]
    exact (@GalPlay.jumpToNode_success { e with state := { e.state with vars := GalPlay.applyEffects choice.effects e.state.vars } } choice.targetNodeId htarget).2.2.1
  · rw [GalPlay.selectChoice_spec hnode htr hi0 hget]
    exact (@GalPlay.jumpToNode_success { e with state := { e.state with vars := GalPlay.applyEffects choice.effects e.state.vars } } choice.targetNodeId htarget).2.2.2.2.2.2.2
  · intro j
    rw [GalPlay.selectChoice_spec (e := { e with state := { e.state with commandIndex := j } }) hnode htr hi0 hget]
    exact (@GalPlay.jumpToNode_success { { e with state := { e.state with commandIndex := j } } with state := { ({ e with state := { e.state with commandIndex := j } } : GalPlay.Engine).state with vars := GalPlay.applyEffects choice.effects ({ e with state := { e.state with commandIndex := j } } : GalPlay.Engine).state.vars } } choice.targetNodeId htarget).1
  · intro p₁ p₂
    rw [GalPlay.selectChoice_spec (e := { e with paused := p₁, ended := p₂ }) hnode htr hi0 hget]
    exact (@GalPlay.jumpToNode_success { { e with paused := p₁, ended := p₂ } with state := { ({ e with paused := p₁, ended := p₂ } : GalPlay.Engine).state with vars := GalPlay.applyEffects choice.effects ({ e with paused := p₁, ended := p₂ } : GalPlay.Engine).state.vars } } choice.targetNodeId htarget).1

end ClaimsEngine3

section ConstructorEdges

variable {K : Type u} {V : Type v} [DecidableEq K]

namespace DAG

/-- Appending the edge `a → b` keeps every edge already present. -/
theorem EdgeOf_addEdgeGraph_mono {g : DAG K V} (a b : K) {x y : K}
    (h : EdgeOf g x y) : EdgeOf (addEdgeGraph g a b) x y := by
  unfold EdgeOf targets at h ⊢
  unfold addEdgeGraph
  simp only
  rw [getA_setA]
  by_cases hx : x = a
  · subst hx
    rw [if_pos rfl]
    simp only [Option.getD_some]
    exact List.mem_append_left _ h
  · rw [if_neg hx]
    exact h

/-- `addEdge` never removes an edge, whether it succeeds or throws. -/
theorem EdgeOf_addEdge_mono (g : DAG K V) (a b : K) {x y : K}
    (h : EdgeOf g x y) : EdgeOf (addEdge g a b).1 x y := by
  rcases addEdge_graph_cases g a b with hc | ⟨hc, -⟩
  · rw [hc]; exact h
  · rw [hc]; exact EdgeOf_addEdgeGraph_mono a b h

/-- After an `addEdge` call that did not throw, the edge `a → b` is present
(it was either just inserted or already there). -/
theorem EdgeOf_addEdge_none {g : DAG K V} {a b : K}
    (h : (addEdge g a b).2 = none) : EdgeOf (addEdge g a b).1 a b := by
  by_cases ha : hasNode g a = true
  · by_cases hb : hasNode g b = true
    · by_cases hab : a = b
      · subst hab
        rw [addEdge_self ha] at h
        simp at h
      · by_cases hmem : b ∈ targets g a
        · rw [addEdge_dup ha hb hab hmem]
          exact hmem
        · by_cases hpath : hasPathB g b a = true
          · rw [addEdge_cycle ha hb hab hmem hpath] at h
            simp at h
          · have hp : hasPathB g b a = false := by
              cases hc : hasPathB g b a
              · rfl
              · exact absurd hc hpath
            rw [addEdge_success ha hb hab hmem hp]
            unfold EdgeOf targets addEdgeGraph
            simp only
            rw [getA_setA, if_pos rfl]
            simp
    · rw [addEdge_missing_tgt ha hb] at h
      simp at h
  · rw [addEdge_missing_src b ha] at h
    simp at h

/-- A successful edge-insertion loop keeps the edges it started with and
ends with every listed edge present. -/
theorem addEdgesE_edges :
    ∀ {l : List (K × K)} {g g' : DAG K V}, addEdgesE g l = .ok g' →
      (∀ x y, EdgeOf g x y → EdgeOf g' x y) ∧ (∀ p ∈ l, EdgeOf g' p.1 p.2) := by
  intro l
  induction l with
  | nil =>
    intro g g' h
    cases h
    exact ⟨fun x y hxy => hxy, by intro p hp; simp at hp⟩
  | cons pr rest ih =>
    intro g g' h
    obtain ⟨a, b⟩ := pr
    unfold addEdgesE at h
    rcases hae : addEdge g a b with ⟨g₁, oe⟩
    rw [hae] at h
    cases oe with
    | some e => simp at h
    | none =>
      simp only at h
      obtain ⟨hmono, hall⟩ := ih h
      have h1 : (addEdge g a b).1 = g₁ := by rw [hae]
      have h2 : (addEdge g a b).2 = none := by rw [hae]
      constructor
      · intro x y hxy
        have := EdgeOf_addEdge_mono g a b hxy
        rw [h1] at this
        exact hmono x y this
      · intro p hp
        rcases List.mem_cons.mp hp with heq | hmem
        · subst heq
          have := EdgeOf_addEdge_none h2
          rw [h1] at this
          exact hmono a b this
        · exact hall p hmem

/-- A successful node-insertion loop starting from an API-built graph ends in
an API-built graph. -/
theorem addNodesE_built :
    ∀ {l : List (K × V)} {g g' : DAG K V}, Built g → addNodesE g l = .ok g' →
      Built g' := by
  intro l
  induction l with
  | nil =>
    intro g g' hb h
    cases h
    exact hb
  | cons pr rest ih =>
    intro g g' hb h
    obtain ⟨k, v⟩ := pr
    unfold addNodesE at h
    rcases han : addNode g k v with ⟨g₁, oe⟩
    rw [han] at h
    cases oe with
    | some e => simp at h
    | none =>
      simp only at h
      have h1 : (addNode g k v).1 = g₁ := by rw [han]
      have hb₁ : Built g₁ := by
        rw [← h1]
        exact Built.addNode k v hb
      exact ih hb₁ h

/-- A successful edge-insertion loop starting from an API-built graph ends in
an API-built graph. -/
theorem addEdgesE_built :
    ∀ {l : List (K × K)} {g g' : DAG K V}, Built g → addEdgesE g l = .ok g' →
      Built g' := by
  intro l
  induction l with
  | nil =>
    intro g g' hb h
    cases h
    exact hb
  | cons pr rest ih =>
    intro g g' hb h
    obtain ⟨a, b⟩ := pr
    unfold addEdgesE at h
    rcases hae : addEdge g a b with ⟨g₁, oe⟩
    rw [hae] at h
    cases oe with
    | some e => simp at h
    | none =>
      simp only at h
      have h1 : (addEdge g a b).1 = g₁ := by rw [hae]
      have hb₁ : Built g₁ := by
        rw [← h1]
        exact Built.addEdge a b hb
      exact ih hb₁ h

/-- The constructor pipeline as a `match` on its node stage. -/
theorem ofOptions_eq (ns : List (K × V)) (es : List (K × K)) :
    ofOptions ns es = (match addNodesE (empty : DAG K V) ns with
      | .ok g => addEdgesE g es
      | .error e => .error e) := by
  unfold ofOptions
  cases addNodesE (empty : DAG K V) ns <;> rfl

/-- A graph the constructor accepts is API-built. -/
theorem ofOptions_built {ns : List (K × V)} {es : List (K × K)} {g : DAG K V}
    (h : ofOptions ns es = .ok g) : Built g := by
  rw [ofOptions_eq] at h
  rcases hn : addNodesE (empty : DAG K V) ns with e | g₀
  · rw [hn] at h
    simp at h
  · rw [hn] at h
    simp only at h
    exact addEdgesE_built (addNodesE_built Built.empty hn) h

/-- Every edge listed in accepted constructor options is an edge of the
constructed graph. -/
theorem ofOptions_edges {ns : List (K × V)} {es : List (K × K)} {g : DAG K V}
    (h : ofOptions ns es = .ok g) : ∀ p ∈ es, EdgeOf g p.1 p.2 := by
  rw [ofOptions_eq] at h
  rcases hn : addNodesE (empty : DAG K V) ns with e | g₀
  · rw [hn] at h
    simp at h
  · rw [hn] at h
    simp only at h
    exact (addEdgesE_edges h).2

/-- Reachability along a plain edge list (the transitive-reflexive closure of
"the pair is listed"), used to state that a script's edge list has a cycle. -/
inductive EReach (es : List (K × K)) : K → K → Prop
  | refl (a : K) : EReach es a a
  | step {a b c : K} (hab : (a, b) ∈ es) (hbc : EReach es b c) : EReach es a c

/-- Edge-list reachability transfers to any graph holding all listed edges. -/
theorem EReach_to_Reach {g : DAG K V} {es : List (K × K)}
    (hpres : ∀ p ∈ es, EdgeOf g p.1 p.2) {x y : K}
    (h : EReach es x y) : Reach g x y := by
  induction h with
  | refl a => exact Reach.refl a
  | step hab _ ih => exact Reach.step (hpres _ hab) ih

end DAG

end ConstructorEdges

section ValidateProofs

namespace LoadDAGData

open GalPlay

/-- The node-id scan processes a concatenation by threading its id set and
findings through the first part. -/
theorem nodeIdScan_append (l₁ l₂ : List (NodeId × SceneNodeData))
    (seen : List NodeId) (errs : List String) :
    nodeIdScan (l₁ ++ l₂) seen errs =
      nodeIdScan l₂ (nodeIdScan l₁ seen errs).1 (nodeIdScan l₁ seen errs).2 := by
  induction l₁ generalizing seen errs with
  | nil => rfl
  | cons p rest ih =>
    obtain ⟨id, v⟩ := p
    by_cases h0 : id = ""
    · simp only [List.cons_append, nodeIdScan, if_pos h0]
      exact ih _ _
    · by_cases h1 : id ∈ seen
      · simp only [List.cons_append, nodeIdScan, if_neg h0, if_pos h1]
        exact ih _ _
      · simp only [List.cons_append, nodeIdScan, if_neg h0, if_neg h1]
        exact ih _ _

/-- The node-id scan only ever appends findings. -/
theorem nodeIdScan_errs_sub {m : String} :
    ∀ (l : List (NodeId × SceneNodeData)) (seen : List NodeId)
      (errs : List String), m ∈ errs → m ∈ (nodeIdScan l seen errs).2 := by
  intro l
  induction l with
  | nil => intro seen errs h; exact h
  | cons p rest ih =>
    intro seen errs h
    obtain ⟨id, v⟩ := p
    by_cases h0 : id = ""
    · simp only [nodeIdScan, if_pos h0]
      exact ih _ _ (List.mem_append_left _ h)
    · by_cases h1 : id ∈ seen
      · simp only [nodeIdScan, if_neg h0, if_pos h1]
        exact ih _ _ (List.mem_append_left _ h)
      · simp only [nodeIdScan, if_neg h0, if_neg h1]
        exact ih _ _ h

/-- The node-id scan only ever grows its id set. -/
theorem nodeIdScan_seen_sub {x : NodeId} :
    ∀ (l : List (NodeId × SceneNodeData)) (seen : List NodeId)
      (errs : List String), x ∈ seen → x ∈ (nodeIdScan l seen errs).1 := by
  intro l
  induction l with
  | nil => intro seen errs h; exact h
  | cons p rest ih =>
    intro seen errs h
    obtain ⟨id, v⟩ := p
    by_cases h0 : id = ""
    · simp only [nodeIdScan, if_pos h0]
      exact ih _ _ h
    · by_cases h1 : id ∈ seen
      · simp only [nodeIdScan, if_neg h0, if_pos h1]
        exact ih _ _ h
      · simp only [nodeIdScan, if_neg h0, if_neg h1]
        exact ih _ _ (List.mem_append_left _ h)

/-- Every listed non-empty node id ends up in the scan's id set. -/
theorem nodeIdScan_collects {id : NodeId} (h0 : ¬ id = "") :
    ∀ (l : List (NodeId × SceneNodeData)) (seen : List NodeId)
      (errs : List String), (∃ v, (id, v) ∈ l) →
      id ∈ (nodeIdScan l seen errs).1 := by
  intro l
  induction l with
  | nil =>
    rintro seen errs ⟨v, hv⟩
    simp at hv
  | cons p rest ih =>
    rintro seen errs ⟨v, hv⟩
    obtain ⟨pid, pv⟩ := p
    rcases List.mem_cons.mp hv with heq | hmem
    · injection heq with hid hval
      subst hid
      simp only [nodeIdScan, if_neg h0]
      by_cases h1 : id ∈ seen
      · rw [if_pos h1]
        exact nodeIdScan_seen_sub rest _ _ h1
      · rw [if_neg h1]
        exact nodeIdScan_seen_sub rest _ _ (List.mem_append_right _ (by simp))
    · simp only [nodeIdScan]
      by_cases ha : pid = ""
      · rw [if_pos ha]
        exact ih _ _ ⟨v, hmem⟩
      · rw [if_neg ha]
        by_cases hb : pid ∈ seen
        · rw [if_pos hb]
          exact ih _ _ ⟨v, hmem⟩
        · rw [if_neg hb]
          exact ih _ _ ⟨v, hmem⟩

/-- An id in the scan's output set was in the starting set or is a listed id. -/
theorem nodeIdScan_mem_map {x : NodeId} :
    ∀ (l : List (NodeId × SceneNodeData)) (seen : List NodeId)
      (errs : List String), x ∈ (nodeIdScan l seen errs).1 →
      x ∈ seen ∨ x ∈ l.map Prod.fst := by
  intro l
  induction l with
  | nil =>
    intro seen errs h
    exact Or.inl h
  | cons p rest ih =>
    intro seen errs h
    obtain ⟨pid, pv⟩ := p
    simp only [nodeIdScan] at h
    by_cases ha : pid = ""
    · rw [if_pos ha] at h
      rcases ih _ _ h with h' | h'
      · exact Or.inl h'
      · exact Or.inr (by simp [h'])
    · rw [if_neg ha] at h
      by_cases hb : pid ∈ seen
      · rw [if_pos hb] at h
        rcases ih _ _ h with h' | h'
        · exact Or.inl h'
        · exact Or.inr (by simp [h'])
      · rw [if_neg hb] at h
        rcases ih _ _ h with h' | h'
        · rcases List.mem_append.mp h' with h'' | h''
          · exact Or.inl h''
          · exact Or.inr (by simp [List.mem_singleton.mp h''])
        · exact Or.inr (by simp [h'])

/-- A listed non-empty node id that is already in the scan's id set produces
the duplicate finding. -/
theorem nodeIdScan_dup_emits {id : NodeId} (h0 : ¬ id = "") :
    ∀ (l : List (NodeId × SceneNodeData)) (seen : List NodeId)
      (errs : List String), id ∈ seen → (∃ v, (id, v) ∈ l) →
      ("Duplicate node id: \"" ++ id ++ "\"") ∈ (nodeIdScan l seen errs).2 := by
  intro l
  induction l with
  | nil =>
    rintro seen errs hseen ⟨v, hv⟩
    simp at hv
  | cons p rest ih =>
    rintro seen errs hseen ⟨v, hv⟩
    obtain ⟨pid, pv⟩ := p
    rcases List.mem_cons.mp hv with heq | hmem
    · injection heq with hid hval
      subst hid
      simp only [nodeIdScan, if_neg h0, if_pos hseen]
      exact nodeIdScan_errs_sub rest _ _ (List.mem_append_right _ (by simp))
    · simp only [nodeIdScan]
      by_cases ha : pid = ""
      · rw [if_pos ha]
        exact ih _ _ hseen ⟨v, hmem⟩
      · rw [if_neg ha]
        by_cases hb : pid ∈ seen
        · rw [if_pos hb]
          exact ih _ _ hseen ⟨v, hmem⟩
        · rw [if_neg hb]
          exact ih _ _ (List.mem_append_left _ hseen) ⟨v, hmem⟩

/-- The validator accepts exactly when it collected no findings. -/
theorem validate_valid_iff (script : GameScript) :
    (validate script).valid = true ↔ (validate script).errors = [] := by
  have h : (validate script).valid
      = decide ((validate script).errors.length = 0) := rfl
  rw [h]
  simp [List.length_eq_zero]

/-- The findings of `validate` are the concatenation of the seven checks'
findings, in check order. -/
theorem validate_errors_eq (script : GameScript) :
    (validate script).errors =
      (nodeIdScan script.nodes [] []).2 ++
      (if script.entryNodeId ∈ (nodeIdScan script.nodes [] []).1 then []
       else ["entryNodeId \"" ++ script.entryNodeId ++ "\" does not match any node"]) ++
      script.edges.flatMap (fun edge =>
        (if edge.1 ∉ (nodeIdScan script.nodes [] []).1 then
          ["Edge source \"" ++ edge.1 ++ "\" is not a valid node id"]
         else []) ++
        (if edge.2 ∉ (nodeIdScan script.nodes [] []).1 then
          ["Edge target \"" ++ edge.2 ++ "\" is not a valid node id"]
         else [])) ++
      script.nodes.flatMap (fun n =>
        transitionErrors (nodeIdScan script.nodes [] []).1 n.1 n.2.transition) ++
      dupScan (fun k => "Duplicate variable key: \"" ++ k ++ "\"")
        (script.vars.map (fun v => v.key)) [] [] ++
      dupScan (fun c => "Duplicate character id: \"" ++ c ++ "\"")
        (script.characters.map (fun c => c.id)) [] [] ++
      cycleErrors script := rfl

/-- An id absent from the script's node list is absent from the scan's id
set. -/
theorem notin_scan {l : List (NodeId × SceneNodeData)} {x : NodeId}
    (hx : x ∉ l.map Prod.fst) : x ∉ (nodeIdScan l [] []).1 := by
  intro hc
  rcases nodeIdScan_mem_map _ _ _ hc with h' | h'
  · simp at h'
  · exact hx h'

/-- Any finding of check 4 about a listed node is among the validator's
findings. -/
theorem mem_validate_of_transitionErrors {script : GameScript} {m : String}
    {nid : NodeId} {nd : SceneNodeData} (hmem : (nid, nd) ∈ script.nodes)
    (h : m ∈ transitionErrors (nodeIdScan script.nodes [] []).1 nid nd.transition) :
    m ∈ (validate script).errors := by
  rw [validate_errors_eq]
  refine List.mem_append_left _ (List.mem_append_left _ (List.mem_append_left _
    (List.mem_append_right _ ?_)))
  exact List.mem_flatMap.mpr ⟨(nid, nd), hmem, h⟩

/-- A cyclic edge list makes check 7 report the cycle finding: the
constructor either throws while replaying the edges or would otherwise
produce an acyclic graph containing the cycle, which is impossible. -/
theorem cycleErrors_of_cycle {script : GameScript}
    (h : ∃ a b, (a, b) ∈ script.edges ∧ DAG.EReach script.edges b a) :
    cycleErrors script
      = ["The node graph contains a cycle — it is not a valid DAG"] := by
  obtain ⟨a, b, hab, hr⟩ := h
  unfold cycleErrors
  cases hof : DAG.ofOptions script.nodes script.edges with
  | error e => rfl
  | ok dag =>
    exfalso
    obtain ⟨hwf, hacy⟩ := (DAG.ofOptions_built hof).wf_acyclic
    have hedges := DAG.ofOptions_edges hof
    exact hacy a b (hedges (a, b) hab) (DAG.EReach_to_Reach hedges hr)

end LoadDAGData

end ValidateProofs

section ClaimsValidate

/-- **C7 (amended).** `LoadDAGData.validate` performs all seven checks and
concatenates every finding, so a rejected document's failure carries every
problem at once (each guarantee below holds regardless of what other problems
the script has, and acceptance is exactly the absence of findings); a script
with a duplicate node id, a dangling edge target, or a dangling transition
target of any kind — an auto target, a choice target, a conditional branch
target, or a non-empty conditional fallback (an empty fallback is falsy in JS
and skipped by the validator) — is rejected with a message that names the
offending id; a script whose edge list contains a cycle is rejected with the
fixed message `The node graph contains a cycle — it is not a valid DAG`,
which — unlike the duplicate and dangling findings — names no offending
id. -/
theorem claim_C7 (script : GalPlay.GameScript) :
    ((LoadDAGData.validate script).valid = true ↔
      (LoadDAGData.validate script).errors = []) ∧
    (∀ (id : GalPlay.NodeId) (v w : GalPlay.SceneNodeData)
        (pre mid suf : List (GalPlay.NodeId × GalPlay.SceneNodeData)),
      ¬ id = "" →
      script.nodes = pre ++ (id, v) :: mid ++ (id, w) :: suf →
      ("Duplicate node id: \"" ++ id ++ "\"") ∈ (LoadDAGData.validate script).errors ∧
      List.IsInfix id.data ("Duplicate node id: \"" ++ id ++ "\"").data) ∧
    (∀ a b : GalPlay.NodeId, (a, b) ∈ script.edges →
      b ∉ script.nodes.map Prod.fst →
      ("Edge target \"" ++ b ++ "\" is not a valid node id")
        ∈ (LoadDAGData.validate script).errors ∧
      List.IsInfix b.data ("Edge target \"" ++ b ++ "\" is not a valid node id").data) ∧
    (∀ (nid : GalPlay.NodeId) (nd : GalPlay.SceneNodeData) (t : GalPlay.NodeId),
      (nid, nd) ∈ script.nodes →
      nd.transition = some (.auto t) →
      t ∉ script.nodes.map Prod.fst →
      ("Node \"" ++ nid ++ "\" auto-transition targets unknown node \"" ++ t ++ "\"")
        ∈ (LoadDAGData.validate script).errors ∧
      List.IsInfix t.data
        ("Node \"" ++ nid ++ "\" auto-transition targets unknown node \"" ++ t ++ "\"").data) ∧
    (∀ (nid : GalPlay.NodeId) (nd : GalPlay.SceneNodeData) (prompt : Option String)
        (choices : List GalPlay.Choice) (c : GalPlay.Choice),
      (nid, nd) ∈ script.nodes →
      nd.transition = some (.choice prompt choices) →
      c ∈ choices →
      c.targetNodeId ∉ script.nodes.map Prod.fst →
      ("Node \"" ++ nid ++ "\" choice targets unknown node \"" ++ c.targetNodeId ++ "\"")
        ∈ (LoadDAGData.validate script).errors ∧
      List.IsInfix c.targetNodeId.data
        ("Node \"" ++ nid ++ "\" choice targets unknown node \"" ++ c.targetNodeId ++ "\"").data) ∧
    (∀ (nid : GalPlay.NodeId) (nd : GalPlay.SceneNodeData)
        (branches : List GalPlay.CondBranch) (fallback : Option GalPlay.NodeId)
        (br : GalPlay.CondBranch),
      (nid, nd) ∈ script.nodes →
      nd.transition = some (.conditional branches fallback) →
      br ∈ branches →
      br.targetNodeId ∉ script.nodes.map Prod.fst →
      ("Node \"" ++ nid ++ "\" conditional branch targets unknown node \"" ++ br.targetNodeId ++ "\"")
        ∈ (LoadDAGData.validate script).errors ∧
      List.IsInfix br.targetNodeId.data
        ("Node \"" ++ nid ++ "\" conditional branch targets unknown node \"" ++ br.targetNodeId ++ "\"").data) ∧
    (∀ (nid : GalPlay.NodeId) (nd : GalPlay.SceneNodeData)
        (branches : List GalPlay.CondBranch) (f : GalPlay.NodeId),
      (nid, nd) ∈ script.nodes →
      nd.transition = some (.conditional branches (some f)) →
      ¬ f = "" →
      f ∉ script.nodes.map Prod.fst →
      ("Node \"" ++ nid ++ "\" conditional fallback targets unknown node \"" ++ f ++ "\"")
        ∈ (LoadDAGData.validate script).errors ∧
      List.IsInfix f.data
        ("Node \"" ++ nid ++ "\" conditional fallback targets unknown node \"" ++ f ++ "\"").data) ∧
    ((∃ a b, (a, b) ∈ script.edges ∧ DAG.EReach script.edges b a) →
      ("The node graph contains a cycle — it is not a valid DAG")
        ∈ (LoadDAGData.validate script).errors) := by
  have herr := LoadDAGData.validate_errors_eq script
  refine ⟨LoadDAGData.validate_valid_iff script, ?_, ?_, ?_, ?_, ?_, ?_, ?_⟩
  · intro id v w pre mid suf h0 hsplit
    refine ⟨?_, ("Duplicate node id: \"" : String).data, ("\"" : String).data, by simp⟩
    rw [herr]
    have hmem1 : ("Duplicate node id: \"" ++ id ++ "\"")
        ∈ (LoadDAGData.nodeIdScan script.nodes [] []).2 := by
      rw [hsplit]
      have hre : pre ++ (id, v) :: mid ++ (id, w) :: suf
          = (pre ++ [(id, v)]) ++ (mid ++ (id, w) :: suf) := by simp
      rw [hre, LoadDAGData.nodeIdScan_append]
      refine LoadDAGData.nodeIdScan_dup_emits h0 _ _ _ ?_ ⟨w, by simp⟩
      exact LoadDAGData.nodeIdScan_collects h0 _ _ _ ⟨v, by simp⟩
    exact List.mem_append_left _ (List.mem_append_left _ (List.mem_append_left _
      (List.mem_append_left _ (List.mem_append_left _ (List.mem_append_left _ hmem1)))))
  · intro a b hedge hb
    refine ⟨?_, ("Edge target \"" : String).data,
      ("\" is not a valid node id" : String).data, by simp⟩
    rw [herr]
    have hmem3 : ("Edge target \"" ++ b ++ "\" is not a valid node id")
        ∈ script.edges.flatMap (fun edge =>
          (if edge.1 ∉ (LoadDAGData.nodeIdScan script.nodes [] []).1 then
            ["Edge source \"" ++ edge.1 ++ "\" is not a valid node id"]
           else []) ++
          (if edge.2 ∉ (LoadDAGData.nodeIdScan script.nodes [] []).1 then
            ["Edge target \"" ++ edge.2 ++ "\" is not a valid node id"]
           else [])) := by
      refine List.mem_flatMap.mpr ⟨(a, b), hedge, ?_⟩
      refine List.mem_append_right _ ?_
      rw [if_pos (LoadDAGData.notin_scan hb)]
      simp
    exact List.mem_append_left _ (List.mem_append_left _ (List.mem_append_left _
      (List.mem_append_left _ (List.mem_append_right _ hmem3))))
  · intro nid nd t hmem htr ht
    refine ⟨?_, ("Node \"" ++ nid ++ "\" auto-transition targets unknown node \"").data,
      ("\"" : String).data, by simp⟩
    refine LoadDAGData.mem_validate_of_transitionErrors hmem ?_
    rw [htr]
    simp only [LoadDAGData.transitionErrors]
    rw [if_pos (LoadDAGData.notin_scan ht)]
    simp
  · intro nid nd prompt choices c hmem htr hc ht
    refine ⟨?_, ("Node \"" ++ nid ++ "\" choice targets unknown node \"").data,
      ("\"" : String).data, by simp⟩
    refine LoadDAGData.mem_validate_of_transitionErrors hmem ?_
    rw [htr]
    simp only [LoadDAGData.transitionErrors]
    refine List.mem_flatMap.mpr ⟨c, hc, ?_⟩
    rw [if_pos (LoadDAGData.notin_scan ht)]
    simp
  · intro nid nd branches fallback br hmem htr hbr ht
    refine ⟨?_, ("Node \"" ++ nid ++ "\" conditional branch targets unknown node \"").data,
      ("\"" : String).data, by simp⟩
    refine LoadDAGData.mem_validate_of_transitionErrors hmem ?_
    rw [htr]
    simp only [LoadDAGData.transitionErrors]
    refine List.mem_append_left _ ?_
    refine List.mem_flatMap.mpr ⟨br, hbr, ?_⟩
    rw [if_pos (LoadDAGData.notin_scan ht)]
    simp
  · intro nid nd branches f hmem htr hfne ht
    refine ⟨?_, ("Node \"" ++ nid ++ "\" conditional fallback targets unknown node \"").data,
      ("\"" : String).data, by simp⟩
    refine LoadDAGData.mem_validate_of_transitionErrors hmem ?_
    rw [htr]
    simp only [LoadDAGData.transitionErrors]
    refine List.mem_append_right _ ?_
    rw [if_pos ⟨hfne, LoadDAGData.notin_scan ht⟩]
    simp
  · intro hcyc
    rw [herr]
    have h7 := LoadDAGData.cycleErrors_of_cycle hcyc
    refine List.mem_append_right _ ?_
    rw [h7]
    simp

end ClaimsValidate

section Fixtures2

namespace Demo

/-- An empty scene with no instructions and no transition descriptor. -/
def sceneEmpty : GalPlay.SceneNodeData := ⟨"scene", none, [], none, none⟩

/-- A two-node script whose edge list is the 2-cycle `n1 → n2 → n1`; its only
validation problem is the cycle. -/
def cyclicScript : GalPlay.GameScript :=
  ⟨"s1", "demo", "1.0", none, [], [], "n1",
    [("n1", sceneEmpty), ("n2", sceneEmpty)],
    [("n1", "n2"), ("n2", "n1")]⟩

/-- A scene holding a single choice whose target node `zz` does not exist and
whose effects set the variable `x` to 1. -/
def sceneBadChoice : GalPlay.SceneNodeData :=
  ⟨"bad", none, [],
    some (.choice none [⟨"go", "zz", none, some [("x", .num (some 1))]⟩]), none⟩

/-- An engine sitting on the bad-choice scene with an empty variable table. -/
def engC6 : GalPlay.Engine :=
  ⟨⟨[("c", sceneBadChoice)], [("c", [])]⟩,
    ⟨"c", 0, [], ["c"], [], none⟩, [], [], true, false, false, 0⟩

end Demo

end Fixtures2

section Counterexamples

/-- A script whose only problem is a cycle is rejected with a single finding
that names neither of the two offending node ids — refuting the original
claim that every such rejection message names the offending id. -/
theorem claim_C7_counterexample :
    (LoadDAGData.validate Demo.cyclicScript).valid = false ∧
    (LoadDAGData.validate Demo.cyclicScript).errors
      = ["The node graph contains a cycle — it is not a valid DAG"] ∧
    ¬ List.IsInfix ("n1" : String).data
      ("The node graph contains a cycle — it is not a valid DAG" : String).data ∧
    ¬ List.IsInfix ("n2" : String).data
      ("The node graph contains a cycle — it is not a valid DAG" : String).data := by
  refine ⟨by decide, by decide, by decide, by decide⟩

/-- `selectChoice` on a choice whose target is missing emits the error event
yet leaves the variable table changed (the choice's effects were applied
before the jump was attempted) — refuting the original claim that every
playback error leaves the runtime state unchanged. -/
theorem claim_C6_counterexample :
    (GalPlay.selectChoice Demo.engC6 0).2
      = [.error ("Target node not found: zz")] ∧
    (GalPlay.selectChoice Demo.engC6 0).1.state.vars
      = [("x", GalPlay.VariableValue.num (some 1))] ∧
    ¬ (GalPlay.selectChoice Demo.engC6 0).1.state.vars
      = Demo.engC6.state.vars := by
  refine ⟨by decide, by decide, by decide⟩

end Counterexamples

section Fixtures3

namespace Demo

/-- A one-instruction scene with no transition descriptor. -/
def sceneHi : GalPlay.SceneNodeData := ⟨"hi", none, [.narration "hello"], none, none⟩

/-- An engine at the start of `sceneHi`. -/
def engC3 : GalPlay.Engine :=
  ⟨⟨[("a", sceneHi)], [("a", [])]⟩,
    ⟨"a", 0, [], ["a"], [], none⟩, [], [], true, false, false, 0⟩

/-- An engine on an exhausted, transitionless node `a` with the single graph
successor `b`. -/
def engC4 : GalPlay.Engine :=
  ⟨⟨[("a", sceneEmpty), ("b", sceneEmpty)], [("a", ["b"]), ("b", [])]⟩,
    ⟨"a", 0, [], ["a"], [], none⟩, [], [], true, false, false, 0⟩

/-- An unconditional choice jumping to node `d`. -/
def choiceD : GalPlay.Choice := ⟨"go", "d", none, none⟩

/-- A scene whose transition offers the single choice `choiceD`. -/
def sceneChoice : GalPlay.SceneNodeData :=
  ⟨"choice", none, [], some (.choice none [choiceD]), none⟩

/-- An engine sitting on the choice scene, with target node `d` present. -/
def engC5 : GalPlay.Engine :=
  ⟨⟨[("c", sceneChoice), ("d", sceneEmpty)], [("c", []), ("d", [])]⟩,
    ⟨"c", 0, [], ["c"], [], none⟩, [], [], true, false, false, 0⟩

/-- A conditional branch with no conditions targeting node `d`. -/
def branchD : GalPlay.CondBranch := ⟨[], "d"⟩

/-- A scene with a conditional transition of one always-true branch and no
fallback. -/
def sceneCond : GalPlay.SceneNodeData :=
  ⟨"cond", none, [], some (.conditional [branchD] none), none⟩

/-- An engine on the exhausted conditional scene. -/
def engC8 : GalPlay.Engine :=
  ⟨⟨[("k", sceneCond), ("d", sceneEmpty)], [("k", []), ("d", [])]⟩,
    ⟨"k", 0, [], ["k"], [], none⟩, [], [], true, false, false, 0⟩

end Demo

end Fixtures3

section ClaimWitnesses

theorem claim_C3_witness :
    ((GalPlay.nextN Demo.engC3 1).2.countP GalPlay.isCommandEvent = 1) ∧
    ((GalPlay.nextN Demo.engC3 1).2.countP GalPlay.isNodeEndEvent = 0) ∧
    (∀ k, k ≤ 1 → ((GalPlay.nextN Demo.engC3 k).2.countP GalPlay.isCommandEvent = k) ∧
      ((GalPlay.nextN Demo.engC3 k).1.state.commandIndex = k)) ∧
    ((GalPlay.nextN Demo.engC3 1).1.state.currentNodeId = Demo.engC3.state.currentNodeId) ∧
    (GalPlay.next (GalPlay.nextN Demo.engC3 1).1
      = ((GalPlay.handleTransition (GalPlay.nextN Demo.engC3 1).1 Demo.sceneHi.transition).1,
        .nodeEnd Demo.engC3.state.currentNodeId ::
          (GalPlay.handleTransition (GalPlay.nextN Demo.engC3 1).1 Demo.sceneHi.transition).2)) :=
  claim_C3 1 rfl rfl rfl rfl rfl

theorem claim_C4_witness :
    (∀ t, DAG.successors Demo.engC4.dag Demo.engC4.state.currentNodeId = [t] →
      DAG.hasNode Demo.engC4.dag t = true →
      (GalPlay.next Demo.engC4).1.state.currentNodeId = t ∧
      (GalPlay.next Demo.engC4).1.state.commandIndex = 0 ∧
      (GalPlay.next Demo.engC4).1.ended = false ∧
      (GalPlay.next Demo.engC4).2 = [.nodeEnd Demo.engC4.state.currentNodeId,
        .stateChange (GalPlay.getState (GalPlay.next Demo.engC4).1)]) ∧
    (DAG.successors Demo.engC4.dag Demo.engC4.state.currentNodeId = [] →
      (GalPlay.next Demo.engC4).1.ended = true ∧
      (GalPlay.next Demo.engC4).1.state = Demo.engC4.state ∧
      (GalPlay.next Demo.engC4).2 = [.nodeEnd Demo.engC4.state.currentNodeId,
        .ending none none Demo.engC4.state.currentNodeId]) ∧
    (∀ t₁ t₂ rest,
      DAG.successors Demo.engC4.dag Demo.engC4.state.currentNodeId = t₁ :: t₂ :: rest →
      (GalPlay.next Demo.engC4).1 = Demo.engC4 ∧
      (GalPlay.next Demo.engC4).2 = [.nodeEnd Demo.engC4.state.currentNodeId,
        .error ("Node \"" ++ Demo.engC4.state.currentNodeId ++ "\" has multiple successors but no transition defined")]) :=
  claim_C4 rfl rfl rfl (by decide) rfl

theorem claim_C5_witness :
    (∀ choice,
      (([Demo.choiceD].filter (GalPlay.evaluateChoiceVisible Demo.engC5.state.vars))[(0 : Int).toNat]? = some choice) →
      (0 : Int) ≤ 0 →
      DAG.hasNode Demo.engC5.dag choice.targetNodeId = true →
      (GalPlay.selectChoice Demo.engC5 0).1.state.currentNodeId = choice.targetNodeId ∧
      (GalPlay.selectChoice Demo.engC5 0).1.state.commandIndex = 0 ∧
      (GalPlay.selectChoice Demo.engC5 0).1.state.vars
        = GalPlay.applyEffects choice.effects Demo.engC5.state.vars ∧
      (GalPlay.selectChoice Demo.engC5 0).2
        = [.stateChange (GalPlay.getState (GalPlay.selectChoice Demo.engC5 0).1)]) ∧
    (((0 : Int) < 0 ∨
        (([Demo.choiceD].filter (GalPlay.evaluateChoiceVisible Demo.engC5.state.vars)).length : Int) ≤ 0) →
      GalPlay.selectChoice Demo.engC5 0
        = (Demo.engC5, [.error ("Invalid choice index: " ++ toString (0 : Int))])) :=
  claim_C5 0 rfl rfl

theorem claim_C8_witness :
    (∀ br, [Demo.branchD].find?
        (fun b => GalPlay.evaluateConditions Demo.engC8.state.vars b.conditions) = some br →
      (GalPlay.next Demo.engC8
        = ((GalPlay.jumpToNode Demo.engC8 br.targetNodeId).1,
          .nodeEnd Demo.engC8.state.currentNodeId ::
            (GalPlay.jumpToNode Demo.engC8 br.targetNodeId).2)) ∧
      (GalPlay.evaluateConditions Demo.engC8.state.vars br.conditions = true ∧
        ∃ pre suf, [Demo.branchD] = pre ++ br :: suf ∧
          ∀ b ∈ pre, GalPlay.evaluateConditions Demo.engC8.state.vars b.conditions = false) ∧
      (DAG.hasNode Demo.engC8.dag br.targetNodeId = true →
        (GalPlay.next Demo.engC8).1.state.currentNodeId = br.targetNodeId ∧
        (GalPlay.next Demo.engC8).1.state.commandIndex = 0)) ∧
    ([Demo.branchD].find?
        (fun b => GalPlay.evaluateConditions Demo.engC8.state.vars b.conditions) = none →
      ∀ f, (none : Option GalPlay.NodeId) = some f → ¬ f = "" →
      GalPlay.next Demo.engC8
        = ((GalPlay.jumpToNode Demo.engC8 f).1,
          .nodeEnd Demo.engC8.state.currentNodeId :: (GalPlay.jumpToNode Demo.engC8 f).2)) ∧
    ([Demo.branchD].find?
        (fun b => GalPlay.evaluateConditions Demo.engC8.state.vars b.conditions) = none →
      (none : Option GalPlay.NodeId) = none →
      (GalPlay.next Demo.engC8).1 = Demo.engC8 ∧
      (GalPlay.next Demo.engC8).2 = [.nodeEnd Demo.engC8.state.currentNodeId,
        .error ("No conditional branch matched and no fallback defined at node \"" ++ Demo.engC8.state.currentNodeId ++ "\"")]) ∧
    (∀ cs : List GalPlay.Condition,
      GalPlay.evaluateConditions Demo.engC8.state.vars cs
        = cs.all (GalPlay.evaluateCondition Demo.engC8.state.vars)) ∧
    (∀ c : GalPlay.Condition, c.operator = .gt →
      GalPlay.evaluateCondition Demo.engC8.state.vars c
        = GalPlay.numGtB (GalPlay.toNumberU (getA Demo.engC8.state.vars c.varKey))
            (GalPlay.toNumber c.value)) ∧
    (∀ c : GalPlay.Condition, c.operator = .lt →
      GalPlay.evaluateCondition Demo.engC8.state.vars c
        = GalPlay.numLtB (GalPlay.toNumberU (getA Demo.engC8.state.vars c.varKey))
            (GalPlay.toNumber c.value)) ∧
    (∀ c : GalPlay.Condition, c.operator = .ge →
      GalPlay.evaluateCondition Demo.engC8.state.vars c
        = GalPlay.numGeB (GalPlay.toNumberU (getA Demo.engC8.state.vars c.varKey))
            (GalPlay.toNumber c.value)) ∧
    (∀ c : GalPlay.Condition, c.operator = .le →
      GalPlay.evaluateCondition Demo.engC8.state.vars c
        = GalPlay.numLeB (GalPlay.toNumberU (getA Demo.engC8.state.vars c.varKey))
            (GalPlay.toNumber c.value)) ∧
    (∀ c : GalPlay.Condition, c.operator = .eq →
      GalPlay.evaluateCondition Demo.engC8.state.vars c
        = GalPlay.looseEqU (getA Demo.engC8.state.vars c.varKey) c.value) ∧
    (∀ c : GalPlay.Condition, c.operator = .ne →
      GalPlay.evaluateCondition Demo.engC8.state.vars c
        = !(GalPlay.looseEqU (getA Demo.engC8.state.vars c.varKey) c.value)) ∧
    (GalPlay.looseEq (.num (some 1)) (.str "1") = true) ∧
    (GalPlay.numGtB (GalPlay.toNumber (.str "10")) (GalPlay.toNumber (.str "9")) = true) :=
  claim_C8 rfl rfl rfl (by decide) rfl

theorem claim_C10_witness :
    (GalPlay.selectChoice Demo.engC5 0).1.state.currentNodeId = Demo.choiceD.targetNodeId ∧
    (GalPlay.selectChoice Demo.engC5 0).1.state.commandIndex = 0 ∧
    (GalPlay.selectChoice Demo.engC5 0).1.state.vars
      = GalPlay.applyEffects Demo.choiceD.effects Demo.engC5.state.vars ∧
    (GalPlay.selectChoice Demo.engC5 0).2
      = [.stateChange (GalPlay.getState (GalPlay.selectChoice Demo.engC5 0).1)] ∧
    (∀ j : Nat,
      (GalPlay.selectChoice { Demo.engC5 with state := { Demo.engC5.state with commandIndex := j } } 0).1.state.currentNodeId
        = Demo.choiceD.targetNodeId) ∧
    (∀ p₁ p₂ : Bool,
      (GalPlay.selectChoice { Demo.engC5 with paused := p₁, ended := p₂ } 0).1.state.currentNodeId
        = Demo.choiceD.targetNodeId) :=
  claim_C10 0 rfl rfl (by decide) rfl rfl

end ClaimWitnesses
